import Mathlib

/-!
Verification of the orchestral-reductions core (a Rust program that merges
musical lines into conflict-free timelines and redistributes them over a
fixed number of staves) against its natural-language specification.

Conventions used throughout this development:

* `src/fraction.rs` is embedded twice: once faithfully as an integer-pair
  type `Frac` whose operations return `Option` (Rust panics become `none`,
  Rust integer division is `Int.tdiv`, Rust `%` is `Int.tmod`), and once —
  for the timeline code, which by construction only ever sees reduced
  fractions with positive denominators — as Lean `ℚ` with the source's
  cross-multiplication arithmetic written out so that the kernel can
  evaluate it (`qadd`, `qsub` below).
* Machine integers are modelled as unbounded `Int`/`Nat`; every claim
  below concerns exact rational/pitch arithmetic at magnitudes far from
  the i32/u8 bounds, and the counterexamples use small literals.
* Unbounded Rust loops and recursions are given explicit fuel; exhausted
  fuel and panics are both `none`.
-/

namespace OrchRed

/-! Faithful model of `Fraction` from src/fraction.rs. -/

/-- Fuelled version of the Euclid recursion in `Fraction::gcd`, so that the
kernel can evaluate it; `gcdI` instantiates the fuel generously. -/
def gcdIF : Nat → Int → Int → Int
  | 0, _, b => b
  | Nat.succ fl, a, b => if a = 0 then b else gcdIF fl (Int.tmod b a) a

/-- Model of `Fraction::gcd(a, b)`: `if a == 0 { b } else { gcd(b % a, a) }`
with Rust `%` being truncation-convention `Int.tmod`. -/
def gcdI (a b : Int) : Int := gcdIF (a.natAbs + 1) a b

/-- Absolute value of Rust truncating remainder. -/
theorem natAbs_tmod (a b : Int) : (Int.tmod a b).natAbs = a.natAbs % b.natAbs := by
  cases a <;> cases b <;>
    simp only [Int.tmod, Int.natAbs_neg, Int.natAbs_ofNat, Int.natAbs_negSucc] <;> rfl

theorem gcdIF_natAbs : ∀ (fuel : Nat) (a b : Int), a.natAbs < fuel →
    (gcdIF fuel a b).natAbs = Nat.gcd a.natAbs b.natAbs := by
  intro fuel
  induction fuel with
  | zero => intro a b h; omega
  | succ fl ih =>
    intro a b h
    by_cases ha : a = 0
    · simp [gcdIF, ha]
    · have hpos : 0 < a.natAbs := Int.natAbs_pos.mpr ha
      have hm : (Int.tmod b a).natAbs < a.natAbs := by
        rw [natAbs_tmod]; exact Nat.mod_lt _ hpos
      have := ih (Int.tmod b a) a (by omega)
      rw [gcdIF, if_neg ha, this, natAbs_tmod]
      exact (Nat.gcd_rec a.natAbs b.natAbs).symm

theorem gcdI_natAbs (a b : Int) : (gcdI a b).natAbs = Nat.gcd a.natAbs b.natAbs :=
  gcdIF_natAbs _ a b (Nat.lt_succ_self _)

/-- Model of `Fraction::balance`.  The sign is moved to the numerator, the
denominator is made nonnegative and both are divided by the gcd; when the
gcd is zero the Rust division `numerator / gcd` panics, hence `none`. -/
def balance (numerator denominator : Int) : Option (Int × Int) :=
  let n : Int := if denominator < 0 then -numerator else numerator
  let d : Int := (denominator.natAbs : Int)
  let g : Int := ((gcdI n d).natAbs : Int)
  if g = 0 then none else some (n.tdiv g, d.tdiv g)

/-- Faithful integer-pair fraction: `Fraction { numerator, denominator }`. -/
structure Frac where
  num : Int
  den : Int
deriving DecidableEq, Repr

/-- Model of `Fraction::new`. -/
def Frac.new (n d : Int) : Option Frac := (balance n d).map fun p => ⟨p.1, p.2⟩

/-- Model of `Fraction::to_whole` (`numerator / denominator`, truncating);
panics when the denominator is zero. -/
def Frac.toWholeOpt (f : Frac) : Option Int :=
  if f.den = 0 then none else some (f.num.tdiv f.den)

/-- Model of `impl ops::Add for Fraction` (shared-denominator fast path,
else cross multiplication, then `Fraction::new`). -/
def Frac.add (a b : Frac) : Option Frac :=
  if a.den = b.den then Frac.new (a.num + b.num) a.den
  else Frac.new (a.num * b.den + b.num * a.den) (a.den * b.den)

/-- Model of `impl ops::Sub for Fraction`. -/
def Frac.sub (a b : Frac) : Option Frac :=
  if a.den = b.den then Frac.new (a.num - b.num) a.den
  else Frac.new (a.num * b.den - b.num * a.den) (a.den * b.den)

/-- Model of `impl ops::Mul for Fraction`. -/
def Frac.mul (a b : Frac) : Option Frac :=
  Frac.new (a.num * b.num) (a.den * b.den)

/-- Model of `impl ops::Div for Fraction` (multiply by the reciprocal; note
that no zero check is made anywhere). -/
def Frac.div (a b : Frac) : Option Frac :=
  Frac.new (a.num * b.den) (a.den * b.num)

/-- Model of `impl ops::Rem for Fraction`:
`self - Fraction::new((self / rhs).to_whole(), 1) * rhs`. -/
def Frac.rem (a b : Frac) : Option Frac := do
  let q ← a.div b
  let w ← q.toWholeOpt
  let wf ← Frac.new w 1
  let prod ← wf.mul b
  a.sub prod

/-- Rational denotation of a fraction (degenerate fractions with a zero
denominator denote `0 / 0 = 0`, but every lemma below tracks validity). -/
def Frac.asRat (f : Frac) : ℚ := (f.num : ℚ) / (f.den : ℚ)

/-- Mathematical truncation toward zero of a rational number (recall that
`Rat.num`/`Rat.den` are the canonical reduced representation). -/
def truncQ (q : ℚ) : Int := q.num.tdiv (q.den : Int)

theorem truncQ_eq_floor (q : ℚ) (h : 0 ≤ q) : truncQ q = ⌊q⌋ := by
  rw [truncQ, Rat.floor_def, Int.tdiv_eq_ediv (Rat.num_nonneg.mpr h) (by positivity)]

/-- Balancing a pair with a nonzero denominator succeeds and yields the
reduced, positive-denominator representation of the same rational. -/
theorem balance_spec (n d : Int) (hd : d ≠ 0) :
    ∃ n2 d2, balance n d = some (n2, d2) ∧ 0 < d2 ∧
      n2.natAbs.Coprime d2.natAbs ∧ ((n2 : ℚ) / (d2 : ℚ) = (n : ℚ) / (d : ℚ)) := by
  have habs : 0 < d.natAbs := Int.natAbs_pos.mpr hd
  set n1 : Int := if d < 0 then -n else n with hn1
  set g0 : Nat := Nat.gcd n1.natAbs d.natAbs with hg0
  have hg0pos : 0 < g0 := Nat.gcd_pos_of_pos_right _ habs
  have hgabs : (gcdI n1 (d.natAbs : Int)).natAbs = g0 := by
    rw [gcdI_natAbs, Int.natAbs_ofNat]
  have hdvdn : ((g0 : Int)) ∣ n1 :=
    Int.ofNat_dvd_left.mpr (Nat.gcd_dvd_left _ _)
  have hdvdd : ((g0 : Int)) ∣ (d.natAbs : Int) := by
    refine Int.ofNat_dvd_left.mpr ?_
    rw [Int.natAbs_ofNat]
    exact Nat.gcd_dvd_right _ _
  have hgz : (g0 : Int) ≠ 0 := by exact_mod_cast hg0pos.ne'
  have hgpos : (0 : Int) < (g0 : Int) := by exact_mod_cast hg0pos
  have hbal : balance n d = some (n1.tdiv (g0 : Int), (d.natAbs : Int).tdiv (g0 : Int)) := by
    rw [balance]
    simp only [← hn1, hgabs]
    rw [if_neg hgz]
  have hc1 : (n1.tdiv (g0 : Int)) * (g0 : Int) = n1 := Int.tdiv_mul_cancel hdvdn
  have hc2 : ((d.natAbs : Int).tdiv (g0 : Int)) * (g0 : Int) = (d.natAbs : Int) :=
    Int.tdiv_mul_cancel hdvdd
  have hd2pos : 0 < (d.natAbs : Int).tdiv (g0 : Int) := by
    rcases hdvdd with ⟨k, hk⟩
    have hk2 : (d.natAbs : Int).tdiv (g0 : Int) = k := by
      rw [hk, Int.mul_tdiv_cancel_left _ hgz]
    have hdpos : (0 : Int) < (d.natAbs : Int) := by exact_mod_cast habs
    rw [hk2]
    nlinarith
  refine ⟨n1.tdiv (g0 : Int), (d.natAbs : Int).tdiv (g0 : Int), hbal, hd2pos, ?_, ?_⟩
  · have h1 : (n1.tdiv (g0 : Int)).natAbs = n1.natAbs / g0 := by
      rw [Int.natAbs_tdiv, Int.natAbs_ofNat]; rfl
    have h2 : ((d.natAbs : Int).tdiv (g0 : Int)).natAbs = d.natAbs / g0 := by
      rw [Int.natAbs_tdiv, Int.natAbs_ofNat, Int.natAbs_ofNat]; rfl
    rw [h1, h2, hg0]
    exact Nat.coprime_div_gcd_div_gcd (hg0 ▸ hg0pos)
  · have hint : (n1.tdiv (g0 : Int)) * (d.natAbs : Int)
        = n1 * ((d.natAbs : Int).tdiv (g0 : Int)) := by
      conv_lhs => rw [← hc2]
      conv_rhs => rw [← hc1]
      ring
    have hBne : (((d.natAbs : Int).tdiv (g0 : Int) : Int) : ℚ) ≠ 0 := by
      exact_mod_cast hd2pos.ne'
    have hdQ : ((d.natAbs : Int) : ℚ) ≠ 0 := by
      have : (0 : Int) < (d.natAbs : Int) := by exact_mod_cast habs
      exact_mod_cast this.ne'
    have key : ((n1.tdiv (g0 : Int) : Int) : ℚ) / (((d.natAbs : Int).tdiv (g0 : Int) : Int) : ℚ)
        = (n1 : ℚ) / ((d.natAbs : Int) : ℚ) := by
      rw [div_eq_div_iff hBne hdQ]
      exact_mod_cast hint
    rw [key]
    by_cases hneg : d < 0
    · have h3 : ((d.natAbs : Int) : ℚ) = -(d : ℚ) := by
        have h4 : (d.natAbs : Int) = -d := by omega
        rw [h4]; push_cast; ring
      rw [hn1, if_pos hneg, h3]
      push_cast
      rw [neg_div_neg_eq]
    · have h3 : ((d.natAbs : Int) : ℚ) = (d : ℚ) := by
        have h4 : (d.natAbs : Int) = d := by omega
        rw [h4]
      rw [hn1, if_neg hneg, h3]

/-- Valid fraction: positive denominator and reduced, the invariant every
`Fraction` produced by `Fraction::new` satisfies. -/
def Frac.Valid (f : Frac) : Prop := 0 < f.den ∧ f.num.natAbs.Coprime f.den.natAbs

theorem new_spec (n d : Int) (hd : d ≠ 0) :
    ∃ f : Frac, Frac.new n d = some f ∧ f.Valid ∧ f.asRat = (n : ℚ) / (d : ℚ) := by
  obtain ⟨n2, d2, hb, hpos, hcop, hval⟩ := balance_spec n d hd
  exact ⟨⟨n2, d2⟩, by rw [Frac.new, hb]; rfl, ⟨hpos, hcop⟩, hval⟩

theorem asRat_num_den (f : Frac) (hf : f.Valid) :
    f.asRat.num = f.num ∧ (f.asRat.den : Int) = f.den := by
  obtain ⟨hpos, hcop⟩ := hf
  have hden : f.den.toNat ≠ 0 := by omega
  have hcop2 : f.num.natAbs.Coprime f.den.toNat := by
    have : f.den.natAbs = f.den.toNat := by omega
    rwa [this] at hcop
  have hq : (Rat.mk' f.num f.den.toNat hden hcop2 : ℚ) = f.asRat := by
    rw [Rat.mk'_eq_divInt, Rat.divInt_eq_div, Frac.asRat]
    have : ((f.den.toNat : Int) : ℚ) = (f.den : ℚ) := by
      have h4 : (f.den.toNat : Int) = f.den := by omega
      rw [h4]
    rw [← this]
  constructor
  · rw [← hq]
  · rw [← hq]
    show ((f.den.toNat : Nat) : Int) = f.den
    omega

theorem toWholeOpt_spec (f : Frac) (hf : f.Valid) :
    f.toWholeOpt = some (truncQ f.asRat) := by
  obtain ⟨h1, h2⟩ := asRat_num_den f hf
  rw [Frac.toWholeOpt, if_neg hf.1.ne', truncQ, h1, h2]

theorem mul_spec (a b : Frac) (ha : a.den ≠ 0) (hb : b.den ≠ 0) :
    ∃ c, a.mul b = some c ∧ c.Valid ∧ c.asRat = a.asRat * b.asRat := by
  obtain ⟨c, hc, hv, hval⟩ := new_spec (a.num * b.num) (a.den * b.den) (mul_ne_zero ha hb)
  refine ⟨c, hc, hv, ?_⟩
  rw [hval, Frac.asRat, Frac.asRat]
  push_cast
  rw [div_mul_div_comm]

theorem div_spec (a b : Frac) (ha : a.den ≠ 0) (hb : b.den ≠ 0) (hbn : b.num ≠ 0) :
    ∃ c, a.div b = some c ∧ c.Valid ∧ c.asRat = a.asRat / b.asRat := by
  obtain ⟨c, hc, hv, hval⟩ := new_spec (a.num * b.den) (a.den * b.num) (mul_ne_zero ha hbn)
  refine ⟨c, hc, hv, ?_⟩
  have h1 : (a.den : ℚ) ≠ 0 := by exact_mod_cast ha
  have h2 : (b.den : ℚ) ≠ 0 := by exact_mod_cast hb
  have h3 : (b.num : ℚ) ≠ 0 := by exact_mod_cast hbn
  rw [hval, Frac.asRat, Frac.asRat]
  push_cast
  field_simp

theorem sub_spec (a b : Frac) (ha : a.den ≠ 0) (hb : b.den ≠ 0) :
    ∃ c, a.sub b = some c ∧ c.Valid ∧ c.asRat = a.asRat - b.asRat := by
  have haQ : (a.den : ℚ) ≠ 0 := by exact_mod_cast ha
  have hbQ : (b.den : ℚ) ≠ 0 := by exact_mod_cast hb
  rw [Frac.sub]
  by_cases he : a.den = b.den
  · obtain ⟨c, hc, hv, hval⟩ := new_spec (a.num - b.num) a.den ha
    rw [if_pos he]
    refine ⟨c, hc, hv, ?_⟩
    rw [hval, Frac.asRat, Frac.asRat, he]
    push_cast
    rw [sub_div]
  · obtain ⟨c, hc, hv, hval⟩ :=
      new_spec (a.num * b.den - b.num * a.den) (a.den * b.den) (mul_ne_zero ha hb)
    rw [if_neg he]
    refine ⟨c, hc, hv, ?_⟩
    rw [hval, Frac.asRat, Frac.asRat]
    field_simp
    ring

theorem balance_zero_den (m : Int) :
    (m = 0 → balance m 0 = none) ∧ (m ≠ 0 → ∃ p, balance m 0 = some p ∧ p.2 = 0) := by
  constructor
  · intro h; subst h; rfl
  · intro h
    rw [balance]
    have hd0 : (((0 : Int).natAbs : Nat) : Int) = 0 := rfl
    rw [hd0]
    have hn1 : (if (0 : Int) < 0 then -m else m) = m := by norm_num
    rw [hn1]
    have hg : (gcdI m 0).natAbs = m.natAbs := by
      have := gcdI_natAbs m 0
      simpa using this
    rw [hg]
    have hgz : ((m.natAbs : Nat) : Int) ≠ 0 := by
      have : m.natAbs ≠ 0 := Int.natAbs_ne_zero.mpr h
      exact_mod_cast this
    rw [if_neg hgz]
    refine ⟨_, rfl, ?_⟩
    simp [Int.zero_tdiv]

theorem new_zero_den (m : Int) :
    (m = 0 → Frac.new m 0 = none) ∧ (m ≠ 0 → ∃ f, Frac.new m 0 = some f ∧ f.den = 0) := by
  obtain ⟨h1, h2⟩ := balance_zero_den m
  constructor
  · intro h; rw [Frac.new, h1 h]; rfl
  · intro h
    obtain ⟨p, hp, hden⟩ := h2 h
    exact ⟨⟨p.1, p.2⟩, by rw [Frac.new, hp]; rfl, hden⟩

/-- Claim C7, counterexample: at `a = -1/2` and `b = 1` the code returns
the remainder `-1/2`, while `a - ⌊a/b⌋·b = 1/2`; the quotient is truncated
toward zero and no negative-quotient correction is applied. -/
theorem c7_rem_floor_counterexample :
    Frac.rem ⟨-1, 2⟩ ⟨1, 1⟩ = some ⟨-1, 2⟩ ∧
      ¬ Frac.asRat ⟨-1, 2⟩ =
          Frac.asRat ⟨-1, 2⟩ -
            (⌊Frac.asRat ⟨-1, 2⟩ / Frac.asRat ⟨1, 1⟩⌋ : ℚ) * Frac.asRat ⟨1, 1⟩ := by
  constructor
  · rfl
  · have h1 : Frac.asRat ⟨-1, 2⟩ = -(1 / 2 : ℚ) := by
      rw [Frac.asRat]; norm_num
    have h2 : Frac.asRat ⟨1, 1⟩ = 1 := by
      rw [Frac.asRat]; norm_num
    rw [h1, h2]
    have h3 : ⌊(-(1 / 2 : ℚ)) / 1⌋ = -1 := by
      rw [div_one]
      rw [Int.floor_eq_iff] <;> norm_num
    rw [h3]
    norm_num

/-- Claim C7 (amended): for every pair of valid fractions with a nonzero
divisor, the remainder equals `a - trunc(a/b)·b`, where `trunc` is the
truncation toward zero of the exact rational quotient; this agrees with
the claimed floor formula exactly when the quotient is nonnegative. -/
theorem c7_rem_trunc (a b : Frac) (ha : a.den ≠ 0) (hb : b.den ≠ 0) (hbn : b.num ≠ 0) :
    ∃ r, Frac.rem a b = some r ∧
      r.asRat = a.asRat - (truncQ (a.asRat / b.asRat) : ℚ) * b.asRat ∧
      (0 ≤ a.asRat / b.asRat →
        r.asRat = a.asRat - (⌊a.asRat / b.asRat⌋ : ℚ) * b.asRat) := by
  obtain ⟨q, hdiv, hqv, hqval⟩ := div_spec a b ha hb hbn
  have hw : q.toWholeOpt = some (truncQ q.asRat) := toWholeOpt_spec q hqv
  obtain ⟨wf, hnew, hwv, hwval⟩ := new_spec (truncQ q.asRat) 1 one_ne_zero
  obtain ⟨prod, hmul, hpv, hpval⟩ := mul_spec wf b hwv.1.ne' hb
  obtain ⟨r, hsub, hrv, hrval⟩ := sub_spec a prod ha hpv.1.ne'
  have hrun : Frac.rem a b = some r := by
    simp only [Frac.rem, hdiv, hw, hnew, hmul, Option.bind_eq_bind, Option.some_bind]
    exact hsub
  have hrVal : r.asRat = a.asRat - (truncQ (a.asRat / b.asRat) : ℚ) * b.asRat := by
    rw [hrval, hpval, hwval, hqval]
    norm_num
  refine ⟨r, hrun, hrVal, ?_⟩
  intro hq0
  rw [hrVal, truncQ_eq_floor _ hq0]

/-- Claim C7, witness instance at `a = 3/2`, `b = 1`. -/
theorem c7_rem_trunc_witness :
    (Frac.den ⟨3, 2⟩ ≠ 0) ∧ (Frac.den ⟨1, 1⟩ ≠ 0) ∧ (Frac.num ⟨1, 1⟩ ≠ 0) ∧
      (∃ r, Frac.rem ⟨3, 2⟩ ⟨1, 1⟩ = some r ∧
        r.asRat = Frac.asRat ⟨3, 2⟩ -
            (truncQ (Frac.asRat ⟨3, 2⟩ / Frac.asRat ⟨1, 1⟩) : ℚ) * Frac.asRat ⟨1, 1⟩ ∧
        (0 ≤ Frac.asRat ⟨3, 2⟩ / Frac.asRat ⟨1, 1⟩ →
          r.asRat = Frac.asRat ⟨3, 2⟩ -
              (⌊Frac.asRat ⟨3, 2⟩ / Frac.asRat ⟨1, 1⟩⌋ : ℚ) * Frac.asRat ⟨1, 1⟩)) :=
  ⟨by decide, by decide, by decide,
    c7_rem_trunc ⟨3, 2⟩ ⟨1, 1⟩ (by decide) (by decide) (by decide)⟩

/-- Claim C8, counterexample: dividing `1/1` by the zero-valued fraction
`0/1` returns the degenerate fraction `1/0` instead of aborting. -/
theorem c8_div_zero_counterexample : Frac.div ⟨1, 1⟩ ⟨0, 1⟩ = some ⟨1, 0⟩ := by
  rfl

/-- Claim C8 (amended): dividing a valid fraction by a zero-valued divisor
aborts only when the dividend is itself zero-valued (the `0/0` case, whose
reduction divides by a zero gcd); for a nonzero dividend it instead
returns a degenerate fraction with denominator `0`.  Constructing a
fraction with a zero denominator behaves the same way. -/
theorem c8_div_zero (a b : Frac) (n : Int) (ha : a.den ≠ 0) (hb : b.den ≠ 0)
    (hzero : b.num = 0) :
    (a.num = 0 → Frac.div a b = none) ∧
      (a.num ≠ 0 → ∃ f, Frac.div a b = some f ∧ f.den = 0) ∧
      (n = 0 → Frac.new n 0 = none) ∧
      (n ≠ 0 → ∃ f, Frac.new n 0 = some f ∧ f.den = 0) := by
  have hdiv : Frac.div a b = Frac.new (a.num * b.den) 0 := by
    rw [Frac.div, hzero, mul_zero]
  refine ⟨?_, ?_, (new_zero_den n).1, (new_zero_den n).2⟩
  · intro h
    rw [hdiv, h, zero_mul]
    exact (new_zero_den 0).1 rfl
  · intro h
    rw [hdiv]
    exact (new_zero_den _).2 (mul_ne_zero h hb)

/-- Claim C8, witness instance at `a = 1/1`, `b = 0/1`, `n = 1`. -/
theorem c8_div_zero_witness :
    (Frac.den ⟨1, 1⟩ ≠ 0) ∧ (Frac.den ⟨0, 1⟩ ≠ 0) ∧ (Frac.num ⟨0, 1⟩ = 0) ∧
      ((Frac.num ⟨1, 1⟩ = 0 → Frac.div ⟨1, 1⟩ ⟨0, 1⟩ = none) ∧
        (Frac.num ⟨1, 1⟩ ≠ 0 → ∃ f, Frac.div ⟨1, 1⟩ ⟨0, 1⟩ = some f ∧ f.den = 0) ∧
        ((1 : Int) = 0 → Frac.new 1 0 = none) ∧
        ((1 : Int) ≠ 0 → ∃ f, Frac.new 1 0 = some f ∧ f.den = 0)) :=
  ⟨by decide, by decide, by decide,
    c8_div_zero ⟨1, 1⟩ ⟨0, 1⟩ 1 (by decide) (by decide) (by decide)⟩

/-! Rational time for the timeline code.  Inside the timeline every
`Fraction` is reduced with a positive denominator (they are built by
`Fraction::new`), so structural equality, the cross-multiplication `Ord`
and the arithmetic all coincide with `ℚ`.  The source's cross-multiply-
then-normalize `+`/`-` are spelled out through `Rat.divInt` so that the
kernel can evaluate them; `qadd_eq`/`qsub_eq` identify them with `ℚ`
addition and subtraction for the proofs. -/

/-- Model of `impl ops::Add for Fraction` on the canonical carrier. -/
def qadd (a b : ℚ) : ℚ :=
  if a.den = b.den then Rat.divInt (a.num + b.num) (a.den : Int)
  else Rat.divInt (a.num * b.den + b.num * a.den) ((a.den : Int) * (b.den : Int))

/-- Model of `impl ops::Sub for Fraction` on the canonical carrier. -/
def qsub (a b : ℚ) : ℚ :=
  if a.den = b.den then Rat.divInt (a.num - b.num) (a.den : Int)
  else Rat.divInt (a.num * b.den - b.num * a.den) ((a.den : Int) * (b.den : Int))

theorem qadd_eq (a b : ℚ) : qadd a b = a + b := by
  have ha : ((a.den : Int) : ℚ) ≠ 0 := by exact_mod_cast a.den_nz
  have hb : ((b.den : Int) : ℚ) ≠ 0 := by exact_mod_cast b.den_nz
  rw [qadd]
  by_cases h : a.den = b.den
  · rw [if_pos h, Rat.divInt_eq_div]
    push_cast
    conv_rhs => rw [← Rat.num_div_den a, ← Rat.num_div_den b, h]
    rw [div_add_div_same, h]
  · rw [if_neg h, Rat.divInt_eq_div]
    push_cast
    conv_rhs => rw [← Rat.num_div_den a, ← Rat.num_div_den b]
    rw [div_add_div _ _ (by exact_mod_cast a.den_nz) (by exact_mod_cast b.den_nz)]
    ring_nf

theorem qsub_eq (a b : ℚ) : qsub a b = a - b := by
  have ha : ((a.den : Int) : ℚ) ≠ 0 := by exact_mod_cast a.den_nz
  have hb : ((b.den : Int) : ℚ) ≠ 0 := by exact_mod_cast b.den_nz
  rw [qsub]
  by_cases h : a.den = b.den
  · rw [if_pos h, Rat.divInt_eq_div]
    push_cast
    conv_rhs => rw [← Rat.num_div_den a, ← Rat.num_div_den b, h]
    rw [div_sub_div_same, h]
  · rw [if_neg h, Rat.divInt_eq_div]
    push_cast
    conv_rhs => rw [← Rat.num_div_den a, ← Rat.num_div_den b]
    rw [div_sub_div _ _ (by exact_mod_cast a.den_nz) (by exact_mod_cast b.den_nz)]
    ring_nf

/-! Pitch and tie model from src/phrase_element.rs. -/

/-- Model of `Tie`. -/
inductive Tie
  | none
  | start
  | stop
  | startStop
deriving DecidableEq, Repr

/-- Model of `Tie::start` (ensure a start tie is present). -/
def Tie.addStart : Tie → Tie
  | Tie.none | Tie.start => Tie.start
  | Tie.stop | Tie.startStop => Tie.startStop

/-- Model of `Tie::stop` (ensure a stop tie is present). -/
def Tie.addStop : Tie → Tie
  | Tie.none | Tie.stop => Tie.stop
  | Tie.start | Tie.startStop => Tie.startStop

/-- Model of `Tie::is_start`. -/
def Tie.isStart : Tie → Bool
  | Tie.start | Tie.startStop => true
  | _ => false

/-- Model of `Tie::is_stop`. -/
def Tie.isStop : Tie → Bool
  | Tie.stop | Tie.startStop => true
  | _ => false

/-- Model of `Note::remove_start_tie`. -/
def Tie.removeStart : Tie → Tie
  | Tie.start | Tie.none => Tie.none
  | Tie.startStop | Tie.stop => Tie.stop

/-- Model of `Note::remove_stop_tie`. -/
def Tie.removeStop : Tie → Tie
  | Tie.stop | Tie.none => Tie.none
  | Tie.startStop | Tie.start => Tie.start

/-- OR the flags of `s` into `t`; this is the tie part of
`PhraseElement::merge_note` (two conditional flag unions). -/
def Tie.orFrom (t s : Tie) : Tie :=
  let t1 := if s.isStart then t.addStart else t
  if s.isStop then t1.addStop else t1

/-- Model of `NoteName`. -/
inductive NoteName
  | A | B | C | D | E | F | G
deriving DecidableEq, Repr

/-- Model of `NoteName::value`. -/
def NoteName.value : NoteName → Int
  | NoteName.A => 9
  | NoteName.B => 11
  | NoteName.C => 0
  | NoteName.D => 2
  | NoteName.E => 4
  | NoteName.F => 5
  | NoteName.G => 7

/-- Model of `Note`.  The octave and alteration are `u8`/`i8` in the
source; they are modelled as unbounded integers (all claims and all
concrete runs stay far inside the machine bounds, where the source's
casts are the identity). -/
structure Note where
  step : NoteName
  octave : Int
  alter : Int
  tie : Tie
deriving DecidableEq, Repr

/-- Model of `Note::value` (`step.value() + (octave * 12 + alter)`). -/
def Note.value (n : Note) : Int := n.step.value + (n.octave * 12 + n.alter)

/-- Model of `Note::pitch_equals`. -/
def Note.pitchEquals (a b : Note) : Bool :=
  a.alter == b.alter && a.octave == b.octave && a.step == b.step

/-- Model of `PhraseElement`. -/
inductive PhraseElement
  | note : Note → PhraseElement
  | chord : List Note → PhraseElement
deriving DecidableEq, Repr

/-- Model of `PhraseElement::contains_note`. -/
def PhraseElement.containsNote (el : PhraseElement) (n : Note) : Bool :=
  match el with
  | PhraseElement.note m => m.pitchEquals n
  | PhraseElement.chord c => c.any fun m => m.pitchEquals n

/-- Whether `PhraseElement::has_stop_tie` would return `Some`: the first
pitch-equal member exists and carries a stop tie. -/
def PhraseElement.hasStopTieB (el : PhraseElement) (n : Note) : Bool :=
  match el with
  | PhraseElement.note m => m.pitchEquals n && m.tie.isStop
  | PhraseElement.chord c =>
    match c.find? (fun m => m.pitchEquals n) with
    | Option.some m => m.tie.isStop
    | Option.none => false

/-- Whether `PhraseElement::has_start_tie` would return `Some`. -/
def PhraseElement.hasStartTieB (el : PhraseElement) (n : Note) : Bool :=
  match el with
  | PhraseElement.note m => m.pitchEquals n && m.tie.isStart
  | PhraseElement.chord c =>
    match c.find? (fun m => m.pitchEquals n) with
    | Option.some m => m.tie.isStart
    | Option.none => false

/-- Apply `f` to the first pitch-equal member of a chord, as the source's
`iter_mut().find(...)` followed by an in-place mutation does. -/
def mapFirstPitch (f : Note → Note) (n : Note) : List Note → List Note
  | [] => []
  | m :: ms => if m.pitchEquals n then f m :: ms else m :: mapFirstPitch f n ms

/-- In-place `remove_stop_tie` on the note returned by `has_stop_tie`. -/
def PhraseElement.removeStopTieOf (el : PhraseElement) (n : Note) : PhraseElement :=
  match el with
  | PhraseElement.note m =>
    if m.pitchEquals n then PhraseElement.note { m with tie := m.tie.removeStop }
    else PhraseElement.note m
  | PhraseElement.chord c =>
    PhraseElement.chord (mapFirstPitch (fun m => { m with tie := m.tie.removeStop }) n c)

/-- In-place `remove_start_tie` on the note returned by `has_start_tie`. -/
def PhraseElement.removeStartTieOf (el : PhraseElement) (n : Note) : PhraseElement :=
  match el with
  | PhraseElement.note m =>
    if m.pitchEquals n then PhraseElement.note { m with tie := m.tie.removeStart }
    else PhraseElement.note m
  | PhraseElement.chord c =>
    PhraseElement.chord (mapFirstPitch (fun m => { m with tie := m.tie.removeStart }) n c)

/-- Model of `PhraseElement::merge_note`. -/
def PhraseElement.mergeNote (el : PhraseElement) (n : Note) : PhraseElement :=
  match el with
  | PhraseElement.note m =>
    if n.pitchEquals m then PhraseElement.note { m with tie := m.tie.orFrom n.tie }
    else PhraseElement.chord [m, n]
  | PhraseElement.chord c =>
    if c.any (fun m => m.pitchEquals n) then
      PhraseElement.chord (mapFirstPitch (fun m => { m with tie := m.tie.orFrom n.tie }) n c)
    else PhraseElement.chord (c ++ [n])

/-- Model of `PhraseElement::start_tie` (start tie on every note). -/
def PhraseElement.startTieAll : PhraseElement → PhraseElement
  | PhraseElement.note m => PhraseElement.note { m with tie := m.tie.addStart }
  | PhraseElement.chord c =>
    PhraseElement.chord (c.map fun m => { m with tie := m.tie.addStart })

/-- Model of `PhraseElement::stop_tie`. -/
def PhraseElement.stopTieAll : PhraseElement → PhraseElement
  | PhraseElement.note m => PhraseElement.note { m with tie := m.tie.addStop }
  | PhraseElement.chord c =>
    PhraseElement.chord (c.map fun m => { m with tie := m.tie.addStop })

/-- Model of `PhraseElement::mean` (value total and note count). -/
def PhraseElement.mean2 : PhraseElement → Int × Nat
  | PhraseElement.note m => (m.value, 1)
  | PhraseElement.chord c => (c.foldl (fun s m => s + m.value) 0, c.length)

/-- Model of `PhraseElement::min`; the `unwrap` on an empty chord (a
broken-invariant value that carries no notes) is replaced by the junk
value 0, which no claim's hypotheses can reach. -/
def PhraseElement.minVal : PhraseElement → Int
  | PhraseElement.note m => m.value
  | PhraseElement.chord c => ((c.map Note.value).min?).getD 0

/-- Model of `PhraseElement::max`, junk-totalised like `minVal`. -/
def PhraseElement.maxVal : PhraseElement → Int
  | PhraseElement.note m => m.value
  | PhraseElement.chord c => ((c.map Note.value).max?).getD 0

/-- Model of `PhraseElement::transpose_octaves` (octave shift on every
note; the source's `u8`/`i8` casts are the identity in-range). -/
def PhraseElement.transposeOct (el : PhraseElement) (o : Int) : PhraseElement :=
  match el with
  | PhraseElement.note m => PhraseElement.note { m with octave := m.octave + o }
  | PhraseElement.chord c =>
    PhraseElement.chord (c.map fun m => { m with octave := m.octave + o })

/-- The notes of an element; `add_element` iterates these in order. -/
def notesOf : PhraseElement → List Note
  | PhraseElement.note n => [n]
  | PhraseElement.chord c => c

/-! Timeline model from src/Phrase.rs.  The `BTreeMap` is an ascending
association list of entries; all map operations below implement exactly
the `BTreeMap` semantics on key-sorted lists, which the insertion
invariant maintains. -/

/-- One timeline slot: key (position) and value (element, duration). -/
structure Entry where
  pos : ℚ
  el : PhraseElement
  dur : ℚ
deriving DecidableEq, Repr

/-- Timeline, `Phrase { elements: BTreeMap<Fraction, (PhraseElement, Fraction)> }`. -/
abbrev Phrase := List Entry

/-- Model of `self.elements.get(&k)`. -/
def lookup (p : Phrase) (k : ℚ) : Option (PhraseElement × ℚ) :=
  match p.find? (fun e => decide (e.pos = k)) with
  | Option.some e => Option.some (e.el, e.dur)
  | Option.none => Option.none

/-- Model of `self.elements.insert(k, (v, d))` on a sorted list. -/
def mapInsert : Phrase → ℚ → PhraseElement → ℚ → Phrase
  | [], k, v, d => [⟨k, v, d⟩]
  | e :: es, k, v, d =>
    if k < e.pos then ⟨k, v, d⟩ :: e :: es
    else if k = e.pos then ⟨k, v, d⟩ :: es
    else e :: mapInsert es k v d

/-- Model of `self.elements.remove(&k)` (drops the entry with key `k`). -/
def mapErase : Phrase → ℚ → Phrase
  | [], _ => []
  | e :: es, k => if e.pos = k then es else e :: mapErase es k

/-- Key/duration skeleton of an entry. -/
def kd (e : Entry) : ℚ × ℚ := (e.pos, e.dur)

/-- Key/duration pairs strictly below a bound, in list order. -/
def below (p : Phrase) (b : ℚ) : List (ℚ × ℚ) :=
  (p.map kd).filter fun x => decide (x.1 < b)

/-- Model of `Phrase::next_overlap`: the first key strictly after `pos`,
if the new interval would reach past it. -/
def nextOverlap (p : Phrase) (pos dur : ℚ) : Option ℚ :=
  match p.find? (fun e => decide (pos < e.pos)) with
  | Option.some e => if qadd pos dur > e.pos then Option.some e.pos else Option.none
  | Option.none => Option.none

/-- Model of `Phrase::previous_overlap`: the greatest key strictly before
`pos`, if that entry extends past `pos`. -/
def prevOverlap (p : Phrase) (pos : ℚ) : Option ℚ :=
  match (below p pos).getLast? with
  | Option.some x => if qadd x.1 x.2 > pos then Option.some x.1 else Option.none
  | Option.none => Option.none

/-- Model of the `change_prev_tie` block of `Phrase::add_note`: the source
takes `range_mut(..position).next()`, i.e. the first entry with key below
`position`, and removes the matching start tie there when present. -/
def fixPrevTie (p : Phrase) (pos : ℚ) (n : Note) : Phrase :=
  match p.find? (fun e => decide (e.pos < pos)) with
  | Option.some e0 =>
    if e0.el.hasStartTieB n then
      p.map fun e =>
        if e.pos = e0.pos then { e with el := e.el.removeStartTieOf n } else e
    else p
  | Option.none => p

/-- Pending insertion work: a single note (`Phrase::add_note`) or a note
list at one slot (`Phrase::add_element` on a chord). -/
inductive Ins
  | one (n : Note) (pos dur : ℚ)
  | seq (ns : List Note) (pos dur : ℚ)

/-- Model of `Phrase::add_note` / `Phrase::add_element`.  The fuel only
bounds the recursion depth (the source recursion is unbounded); `none`
is exhausted fuel or an unreachable `unwrap`.  The `one` case is
`add_note`, the `seq` case is `add_element` iterating chord notes. -/
def insGo : Nat → Phrase → Ins → Option Phrase
  | 0, _, _ => Option.none
  | Nat.succ fl, p, Ins.seq ns pos dur =>
    match ns with
    | [] => Option.some p
    | n :: rest =>
      match insGo fl p (Ins.one n pos dur) with
      | Option.some p2 => insGo fl p2 (Ins.seq rest pos dur)
      | Option.none => Option.none
  | Nat.succ fl, p, Ins.one n0 pos dur0 =>
    match nextOverlap p pos dur0 with
    | Option.none =>
      match prevOverlap p pos with
      | Option.some q0 =>
        match lookup p q0 with
        | Option.none => Option.none
        | Option.some (elq, lenq) =>
          insGo fl (mapInsert (mapErase p q0) pos (PhraseElement.note n0) dur0)
            (Ins.seq (notesOf elq) q0 lenq)
      | Option.none =>
        match lookup p pos with
        | Option.none => Option.some (mapInsert p pos (PhraseElement.note n0) dur0)
        | Option.some (element, len) =>
          if len < dur0 then
            let newNote := { n0 with tie := n0.tie.addStop }
            let note2 := { n0 with tie := n0.tie.addStart }
            let changed := element.hasStopTieB note2
            let element1 := if changed then element.removeStopTieOf note2 else element
            let element2 := element1.mergeNote note2
            let p2 := mapInsert p pos element2 len
            let p3 :=
              mapInsert p2 (qadd pos len) (PhraseElement.note newNote) (qsub dur0 len)
            Option.some (if changed then fixPrevTie p3 pos note2 else p3)
          else if len = dur0 then
            let changed := element.hasStopTieB n0
            let element1 := if changed then element.removeStopTieOf n0 else element
            let element2 := element1.mergeNote n0
            let p2 := mapInsert p pos element2 len
            Option.some (if changed then fixPrevTie p2 pos n0 else p2)
          else
            insGo fl (mapInsert p pos (PhraseElement.note n0) dur0)
              (Ins.seq (notesOf element) pos len)
    | Option.some q =>
      match lookup p q with
      | Option.none => Option.none
      | Option.some (ov, _) =>
        if ov.containsNote n0 then
          match prevOverlap p pos with
          | Option.some q0 =>
            match lookup p q0 with
            | Option.none => Option.none
            | Option.some (elq, lenq) =>
              insGo fl (mapInsert (mapErase p q0) pos (PhraseElement.note n0) (qsub q pos))
                (Ins.seq (notesOf elq) q0 lenq)
          | Option.none =>
            match lookup p pos with
            | Option.none =>
              Option.some (mapInsert p pos (PhraseElement.note n0) (qsub q pos))
            | Option.some (element, len) =>
              if len < qsub q pos then
                let newNote := { n0 with tie := n0.tie.addStop }
                let note2 := { n0 with tie := n0.tie.addStart }
                let changed := element.hasStopTieB note2
                let element1 := if changed then element.removeStopTieOf note2 else element
                let element2 := element1.mergeNote note2
                let p2 := mapInsert p pos element2 len
                let p3 := mapInsert p2 (qadd pos len) (PhraseElement.note newNote)
                  (qsub (qsub q pos) len)
                Option.some (if changed then fixPrevTie p3 pos note2 else p3)
              else if len = qsub q pos then
                let changed := element.hasStopTieB n0
                let element1 := if changed then element.removeStopTieOf n0 else element
                let element2 := element1.mergeNote n0
                let p2 := mapInsert p pos element2 len
                Option.some (if changed then fixPrevTie p2 pos n0 else p2)
              else
                insGo fl (mapInsert p pos (PhraseElement.note n0) (qsub q pos))
                  (Ins.seq (notesOf element) pos len)
        else
          match insGo fl p
              (Ins.one { n0 with tie := n0.tie.addStop } q (qsub dur0 (qsub q pos))) with
          | Option.none => Option.none
          | Option.some p1 =>
            let note1 : Note := { n0 with tie := n0.tie.addStart }
            let dur1 : ℚ := qsub q pos
            match prevOverlap p1 pos with
            | Option.some q0 =>
              match lookup p1 q0 with
              | Option.none => Option.none
              | Option.some (elq, lenq) =>
                insGo fl (mapInsert (mapErase p1 q0) pos (PhraseElement.note note1) dur1)
                  (Ins.seq (notesOf elq) q0 lenq)
            | Option.none =>
              match lookup p1 pos with
              | Option.none =>
                Option.some (mapInsert p1 pos (PhraseElement.note note1) dur1)
              | Option.some (element, len) =>
                if len < dur1 then
                  let newNote := { note1 with tie := note1.tie.addStop }
                  let note2 := { note1 with tie := note1.tie.addStart }
                  let changed := element.hasStopTieB note2
                  let element1 :=
                    if changed then element.removeStopTieOf note2 else element
                  let element2 := element1.mergeNote note2
                  let p2 := mapInsert p1 pos element2 len
                  let p3 := mapInsert p2 (qadd pos len) (PhraseElement.note newNote)
                    (qsub dur1 len)
                  Option.some (if changed then fixPrevTie p3 pos note2 else p3)
                else if len = dur1 then
                  let changed := element.hasStopTieB note1
                  let element1 :=
                    if changed then element.removeStopTieOf note1 else element
                  let element2 := element1.mergeNote note1
                  let p2 := mapInsert p1 pos element2 len
                  Option.some (if changed then fixPrevTie p2 pos note1 else p2)
                else
                  insGo fl (mapInsert p1 pos (PhraseElement.note note1) dur1)
                    (Ins.seq (notesOf element) pos len)

/-- The backward-overlap and exact-position part of `Phrase::add_note`
(everything after the forward clip), with the working duration already
clipped to `dur1`; `insGo_one_eq` below identifies the `one` case of
`insGo` with the forward step followed by this function. -/
def coreRun (fl : Nat) (p1 : Phrase) (note1 : Note) (pos dur1 : ℚ) : Option Phrase :=
  match prevOverlap p1 pos with
  | Option.some q0 =>
    match lookup p1 q0 with
    | Option.none => Option.none
    | Option.some (elq, lenq) =>
      insGo fl (mapInsert (mapErase p1 q0) pos (PhraseElement.note note1) dur1)
        (Ins.seq (notesOf elq) q0 lenq)
  | Option.none =>
    match lookup p1 pos with
    | Option.none => Option.some (mapInsert p1 pos (PhraseElement.note note1) dur1)
    | Option.some (element, len) =>
      if len < dur1 then
        let newNote := { note1 with tie := note1.tie.addStop }
        let note2 := { note1 with tie := note1.tie.addStart }
        let changed := element.hasStopTieB note2
        let element1 := if changed then element.removeStopTieOf note2 else element
        let element2 := element1.mergeNote note2
        let p2 := mapInsert p1 pos element2 len
        let p3 := mapInsert p2 (qadd pos len) (PhraseElement.note newNote) (qsub dur1 len)
        Option.some (if changed then fixPrevTie p3 pos note2 else p3)
      else if len = dur1 then
        let changed := element.hasStopTieB note1
        let element1 := if changed then element.removeStopTieOf note1 else element
        let element2 := element1.mergeNote note1
        let p2 := mapInsert p1 pos element2 len
        Option.some (if changed then fixPrevTie p2 pos note1 else p2)
      else
        insGo fl (mapInsert p1 pos (PhraseElement.note note1) dur1)
          (Ins.seq (notesOf element) pos len)

/-- The `one` case of `insGo` is the forward-overlap step followed by
`coreRun`. -/
theorem insGo_one_eq (fl : Nat) (p : Phrase) (n0 : Note) (pos dur0 : ℚ) :
    insGo (Nat.succ fl) p (Ins.one n0 pos dur0) =
      match nextOverlap p pos dur0 with
      | Option.none => coreRun fl p n0 pos dur0
      | Option.some q =>
        match lookup p q with
        | Option.none => Option.none
        | Option.some (ov, _) =>
          if ov.containsNote n0 then coreRun fl p n0 pos (qsub q pos)
          else
            match insGo fl p
                (Ins.one { n0 with tie := n0.tie.addStop } q (qsub dur0 (qsub q pos))) with
            | Option.none => Option.none
            | Option.some p1 =>
              coreRun fl p1 { n0 with tie := n0.tie.addStart } pos (qsub q pos) := by
  cases hn : nextOverlap p pos dur0 with
  | none => simp only [insGo, coreRun, hn]
  | some q =>
    cases hl : lookup p q with
    | none => simp only [insGo, hn, hl]
    | some ovl =>
      obtain ⟨ov, dlen⟩ := ovl
      by_cases hc : ov.containsNote n0
      · simp only [insGo, coreRun, hn, hl, hc, if_true]
      · simp only [insGo, coreRun, hn, hl, hc, Bool.false_eq_true, if_false]

/-- Model of `Phrase::add_note`. -/
def addNote (fuel : Nat) (p : Phrase) (n : Note) (pos dur : ℚ) : Option Phrase :=
  insGo fuel p (Ins.one n pos dur)

/-- Model of `Phrase::add_element`. -/
def addElement (fuel : Nat) (p : Phrase) (el : PhraseElement) (pos dur : ℚ) : Option Phrase :=
  insGo fuel p (Ins.seq (notesOf el) pos dur)

/-- Model of `Phrase::merge` (fold the other phrase's entries, in key
order, through `add_element`). -/
def mergeP : Nat → Phrase → Phrase → Option Phrase
  | _, p, [] => Option.some p
  | fuel, p, e :: es =>
    match addElement fuel p e.el e.pos e.dur with
    | Option.some p2 => mergeP fuel p2 es
    | Option.none => Option.none

/-- An arbitrary sequence of element insertions (each `Phrase::add_element`
call the program makes is one item). -/
def insertAllP : Nat → Phrase → List (PhraseElement × ℚ × ℚ) → Option Phrase
  | _, p, [] => Option.some p
  | fuel, p, i :: rest =>
    match addElement fuel p i.1 i.2.1 i.2.2 with
    | Option.some p2 => insertAllP fuel p2 rest
    | Option.none => Option.none

/-- Model of `Phrase::split`, folding over the entries in key order with
the two result phrases as accumulators. -/
def splitP (fuel : Nat) (sp : ℚ) : Phrase → Phrase × Phrase → Option (Phrase × Phrase)
  | [], acc => Option.some acc
  | e :: es, acc =>
    if qadd e.pos e.dur ≤ sp then
      match addElement fuel acc.1 e.el e.pos e.dur with
      | Option.some p1 => splitP fuel sp es (p1, acc.2)
      | Option.none => Option.none
    else if e.pos < sp ∧ qadd e.pos e.dur > sp then
      match addElement fuel acc.1 e.el.startTieAll e.pos (qsub sp e.pos) with
      | Option.some p1 =>
        match addElement fuel acc.2 e.el.stopTieAll sp (qsub (qadd e.pos e.dur) sp) with
        | Option.some p2 => splitP fuel sp es (p1, p2)
        | Option.none => Option.none
      | Option.none => Option.none
    else
      match addElement fuel acc.2 e.el e.pos e.dur with
      | Option.some p2 => splitP fuel sp es (acc.1, p2)
      | Option.none => Option.none

/-- Model of `Phrase::start` (first key; junk 0 for the empty phrase,
where the source unwrap panics). -/
def startP (p : Phrase) : ℚ :=
  match p.head? with
  | Option.some e => e.pos
  | Option.none => 0

/-- Model of `Phrase::end` (last key plus its duration; junk 0 when empty). -/
def endP (p : Phrase) : ℚ :=
  match p.getLast? with
  | Option.some e => qadd e.pos e.dur
  | Option.none => 0

/-- Model of `Phrase::transpose_octaves`. -/
def transposeOctaves (p : Phrase) (o : Int) : Phrase :=
  p.map fun e => { e with el := e.el.transposeOct o }

/-! The no-overlap invariant.  `PosDur` is positivity of every duration
(the only durations the program ever inserts), `NonOv` says each entry
ends no later than the start of every later entry; together with the
strictly-sorted keys this is exactly the pairwise half-open-interval
disjointness of the specification. -/

/-- Every duration in a phrase is positive. -/
def PosDur (p : Phrase) : Prop := ∀ e ∈ p, 0 < e.dur

/-- Entries are ordered and non-overlapping: each ends by the time any
later one starts. -/
def NonOv (p : Phrase) : Prop := List.Pairwise (fun a b => a.pos + a.dur ≤ b.pos) p

/-- The timeline invariant. -/
def Inv (p : Phrase) : Prop := PosDur p ∧ NonOv p

instance (p : Phrase) : Decidable (PosDur p) := by
  unfold PosDur; infer_instance

instance (p : Phrase) : Decidable (NonOv p) := by
  unfold NonOv; infer_instance

instance (p : Phrase) : Decidable (Inv p) := by
  unfold Inv; infer_instance

/-! Support lemmas about the sorted-list map operations, leading to the
preservation of `Inv` by the insertion algorithm (claim C1). -/

/-- Keys are strictly sorted. -/
def SortedKeys (p : Phrase) : Prop := List.Pairwise (fun a b => a.pos < b.pos) p

theorem sortedKeys_of_inv {p : Phrase} (h : Inv p) : SortedKeys p := by
  obtain ⟨hpd, hno⟩ := h
  exact hno.imp_of_mem fun {a b} ha _ hab =>
    lt_of_lt_of_le (lt_add_of_pos_right _ (hpd a ha)) hab

theorem sortedKeys_tail {e : Entry} {es : Phrase} (h : SortedKeys (e :: es)) :
    SortedKeys es := (List.pairwise_cons.mp h).2

theorem inv_tail {e : Entry} {es : Phrase} (h : Inv (e :: es)) : Inv es :=
  ⟨fun x hx => h.1 x (List.mem_cons_of_mem _ hx), (List.pairwise_cons.mp h.2).2⟩

/-- Any two entries of an invariant phrase in key order do not overlap. -/
theorem nonov_of_lt {p : Phrase} (hInv : Inv p) :
    ∀ a ∈ p, ∀ b ∈ p, a.pos < b.pos → a.pos + a.dur ≤ b.pos := by
  induction p with
  | nil => intro a ha; cases ha
  | cons e es ih =>
    intro a ha b hb hlt
    obtain ⟨hpd, hno⟩ := hInv
    obtain ⟨hR, hno2⟩ := List.pairwise_cons.mp hno
    rcases List.mem_cons.mp ha with rfl | ha2
    · rcases List.mem_cons.mp hb with rfl | hb2
      · exact absurd hlt (lt_irrefl _)
      · exact hR b hb2
    · rcases List.mem_cons.mp hb with rfl | hb2
      · have h1 := hR a ha2
        have h2 := hpd b (List.mem_cons_self _ _)
        linarith
      · exact ih ⟨fun x hx => hpd x (List.mem_cons_of_mem _ hx), hno2⟩ a ha2 b hb2 hlt

/-- Keys are unique in a sorted phrase. -/
theorem unique_key {p : Phrase} (hs : SortedKeys p) :
    ∀ a ∈ p, ∀ b ∈ p, a.pos = b.pos → a = b := by
  induction p with
  | nil => intro a ha; cases ha
  | cons e es ih =>
    intro a ha b hb heq
    obtain ⟨hR, hs2⟩ := List.pairwise_cons.mp hs
    rcases List.mem_cons.mp ha with rfl | ha2
    · rcases List.mem_cons.mp hb with rfl | hb2
      · rfl
      · exact absurd heq (ne_of_lt (hR b hb2))
    · rcases List.mem_cons.mp hb with rfl | hb2
      · exact absurd heq.symm (ne_of_lt (hR a ha2))
      · exact ih hs2 a ha2 b hb2 heq

/-! Lemmas about `lookup`. -/

theorem lookup_mem {p : Phrase} {k : ℚ} {el : PhraseElement} {d : ℚ}
    (h : lookup p k = some (el, d)) : (⟨k, el, d⟩ : Entry) ∈ p := by
  cases hf : p.find? (fun e => decide (e.pos = k)) with
  | none => simp only [lookup, hf] at h; cases h
  | some e =>
    simp only [lookup, hf] at h
    have hm := List.mem_of_find?_eq_some hf
    have hp := List.find?_some hf
    have hk : e.pos = k := of_decide_eq_true hp
    cases h
    have : e = ⟨k, e.el, e.dur⟩ := by
      cases e; simp_all
    rwa [this] at hm

theorem lookup_none {p : Phrase} {k : ℚ} (h : lookup p k = none) :
    ∀ e ∈ p, e.pos ≠ k := by
  intro e he
  cases hf : p.find? (fun e => decide (e.pos = k)) with
  | none =>
    have := List.find?_eq_none.mp hf e he
    simpa using this
  | some x => simp only [lookup, hf] at h; cases h

theorem lookup_mapInsert_self (p : Phrase) (k : ℚ) (v : PhraseElement) (d : ℚ) :
    lookup (mapInsert p k v d) k = some (v, d) := by
  induction p with
  | nil =>
    rw [mapInsert, lookup, List.find?_cons_of_pos _ (by simp)]
  | cons e es ih =>
    rw [mapInsert]
    by_cases h1 : k < e.pos
    · rw [if_pos h1, lookup, List.find?_cons_of_pos _ (by simp)]
    · by_cases h2 : k = e.pos
      · rw [if_neg h1, if_pos h2, lookup, List.find?_cons_of_pos _ (by simp)]
      · have hne : ¬(e.pos = k) := fun hc => h2 hc.symm
        rw [if_neg h1, if_neg h2, lookup, List.find?_cons_of_neg _ (by simpa using hne)]
        exact ih

theorem lookup_mapInsert_ne (p : Phrase) {k k2 : ℚ} (v : PhraseElement) (d : ℚ)
    (h : k2 ≠ k) : lookup (mapInsert p k v d) k2 = lookup p k2 := by
  have hk : ¬((k : ℚ) = k2) := fun hc => h hc.symm
  induction p with
  | nil =>
    rw [mapInsert, lookup, List.find?_cons_of_neg _ (by simpa using hk)]
    rfl
  | cons e es ih =>
    rw [mapInsert]
    by_cases h1 : k < e.pos
    · rw [if_pos h1, lookup, List.find?_cons_of_neg _ (by simpa using hk)]
      rfl
    · by_cases h2 : k = e.pos
      · have he : ¬(e.pos = k2) := by rw [← h2]; exact hk
        rw [if_neg h1, if_pos h2, lookup, List.find?_cons_of_neg _ (by simpa using hk),
          lookup, List.find?_cons_of_neg _ (by simpa using he)]
      · by_cases h3 : e.pos = k2
        · rw [if_neg h1, if_neg h2, lookup, List.find?_cons_of_pos _ (by simpa using h3),
            lookup, List.find?_cons_of_pos _ (by simpa using h3)]
        · rw [if_neg h1, if_neg h2, lookup, List.find?_cons_of_neg _ (by simpa using h3),
            lookup, List.find?_cons_of_neg _ (by simpa using h3)]
          exact ih

/-! Lemmas about membership in `mapInsert` and `mapErase`. -/

theorem mem_mapInsert_subset {p : Phrase} {k : ℚ} {v : PhraseElement} {d : ℚ} {x : Entry}
    (h : x ∈ mapInsert p k v d) : x = ⟨k, v, d⟩ ∨ x ∈ p := by
  induction p with
  | nil => simpa [mapInsert] using h
  | cons e es ih =>
    rw [mapInsert] at h
    by_cases h1 : k < e.pos
    · rw [if_pos h1] at h
      rcases List.mem_cons.mp h with rfl | h2
      · exact Or.inl rfl
      · exact Or.inr h2
    · by_cases h2 : k = e.pos
      · rw [if_neg h1, if_pos h2] at h
        rcases List.mem_cons.mp h with rfl | h3
        · exact Or.inl rfl
        · exact Or.inr (List.mem_cons_of_mem _ h3)
      · rw [if_neg h1, if_neg h2] at h
        rcases List.mem_cons.mp h with rfl | h3
        · exact Or.inr (List.mem_cons_self _ _)
        · rcases ih h3 with h4 | h4
          · exact Or.inl h4
          · exact Or.inr (List.mem_cons_of_mem _ h4)

theorem mapErase_sublist (p : Phrase) (k : ℚ) : (mapErase p k).Sublist p := by
  induction p with
  | nil => simp [mapErase]
  | cons e es ih =>
    rw [mapErase]
    by_cases h : e.pos = k
    · rw [if_pos h]
      exact (List.sublist_cons_self e es)
    · rw [if_neg h]
      exact ih.cons₂ e

theorem mem_mapErase_subset {p : Phrase} {k : ℚ} {x : Entry} (h : x ∈ mapErase p k) :
    x ∈ p := (mapErase_sublist p k).subset h

theorem mem_mapErase_ne {p : Phrase} {k : ℚ} {x : Entry} (hs : SortedKeys p)
    (h : x ∈ mapErase p k) : x.pos ≠ k := by
  induction p with
  | nil => cases h
  | cons e es ih =>
    rw [mapErase] at h
    obtain ⟨hR, hs2⟩ := List.pairwise_cons.mp hs
    by_cases h1 : e.pos = k
    · rw [if_pos h1] at h
      have := hR x h
      rw [h1] at this
      exact ne_of_gt this
    · rw [if_neg h1] at h
      rcases List.mem_cons.mp h with rfl | h2
      · exact h1
      · exact ih hs2 h2

/-! Lemmas about `below` (the key/duration structure under a bound). -/

theorem kd_mem_below {p : Phrase} {e : Entry} {b : ℚ} (he : e ∈ p) (h : e.pos < b) :
    kd e ∈ below p b := by
  rw [below]
  refine List.mem_filter.mpr ⟨List.mem_map_of_mem kd he, ?_⟩
  simpa [kd] using h

theorem below_mem_elim {p : Phrase} {b : ℚ} {x : ℚ × ℚ} (h : x ∈ below p b) :
    ∃ e ∈ p, kd e = x ∧ e.pos < b := by
  rw [below] at h
  obtain ⟨h1, h2⟩ := List.mem_filter.mp h
  obtain ⟨e, he, hkd⟩ := List.mem_map.mp h1
  refine ⟨e, he, hkd, ?_⟩
  have := of_decide_eq_true h2
  rwa [← hkd] at this

theorem below_restrict {p : Phrase} {b1 b2 : ℚ} (h : b2 ≤ b1) :
    below p b2 = (below p b1).filter fun x => decide (x.1 < b2) := by
  rw [below, below, List.filter_filter]
  apply List.filter_congr
  intro x _
  by_cases hx : x.1 < b2
  · simp [hx, lt_of_lt_of_le hx h]
  · simp [hx]

theorem below_congr_of_le {p p2 : Phrase} {b1 b2 : ℚ} (h : b2 ≤ b1)
    (heq : below p b1 = below p2 b1) : below p b2 = below p2 b2 := by
  rw [below_restrict h, heq, ← below_restrict h]

theorem below_cons (e : Entry) (es : Phrase) (b : ℚ) :
    below (e :: es) b = if e.pos < b then kd e :: below es b else below es b := by
  rw [below, List.map_cons, List.filter_cons]
  by_cases h : e.pos < b
  · rw [if_pos (by simpa [kd] using h), if_pos h]
    rfl
  · rw [if_neg (by simpa [kd] using h), if_neg h]
    rfl

theorem below_mapInsert_high {p : Phrase} {k : ℚ} {v : PhraseElement} {d b : ℚ}
    (h : b ≤ k) : below (mapInsert p k v d) b = below p b := by
  have hk : ¬(k < b) := not_lt.mpr h
  induction p with
  | nil =>
    show below [⟨k, v, d⟩] b = below [] b
    rw [below_cons, if_neg hk]
  | cons e es ih =>
    rw [mapInsert]
    by_cases h1 : k < e.pos
    · rw [if_pos h1]
      rw [below_cons ⟨k, v, d⟩, if_neg hk]
    · by_cases h2 : k = e.pos
      · have he : ¬(e.pos < b) := by rw [← h2]; exact hk
        rw [if_neg h1, if_pos h2, below_cons ⟨k, v, d⟩, if_neg hk, below_cons, if_neg he]
      · rw [if_neg h1, if_neg h2, below_cons, below_cons, ih]

theorem below_mapErase_high {p : Phrase} {k b : ℚ} (h : b ≤ k) :
    below (mapErase p k) b = below p b := by
  have hk : ¬(k < b) := not_lt.mpr h
  induction p with
  | nil => rfl
  | cons e es ih =>
    rw [mapErase]
    by_cases h1 : e.pos = k
    · have he : ¬(e.pos < b) := by rw [h1]; exact hk
      rw [if_pos h1, below_cons, if_neg he]
    · rw [if_neg h1, below_cons, below_cons, ih]

theorem kdmap_fixPrevTie (p : Phrase) (pos : ℚ) (n : Note) :
    (fixPrevTie p pos n).map kd = p.map kd := by
  cases hf : p.find? (fun e => decide (e.pos < pos)) with
  | none => rw [fixPrevTie, hf]
  | some e0 =>
    by_cases h : e0.el.hasStartTieB n
    · simp only [fixPrevTie, hf, h, if_true, List.map_map]
      apply List.map_congr_left
      intro e _
      by_cases he : e.pos = e0.pos
      · simp [he, kd]
      · simp [he, kd]
    · simp only [fixPrevTie, hf]
      rw [if_neg h]

theorem below_fixPrevTie (p : Phrase) (pos b : ℚ) (n : Note) :
    below (fixPrevTie p pos n) b = below p b := by
  rw [below, below, kdmap_fixPrevTie]

theorem inv_of_kdmap_eq {p p2 : Phrase} (h : p.map kd = p2.map kd) (hInv : Inv p) :
    Inv p2 := by
  obtain ⟨hpd, hno⟩ := hInv
  constructor
  · intro e he
    have hmem : kd e ∈ p.map kd := by rw [h]; exact List.mem_map_of_mem kd he
    obtain ⟨e1, he1, hkd⟩ := List.mem_map.mp hmem
    have : e1.dur = e.dur := congrArg Prod.snd hkd
    rw [← this]
    exact hpd e1 he1
  · have h1 : List.Pairwise (fun x y : ℚ × ℚ => x.1 + x.2 ≤ y.1) (p.map kd) := by
      rw [List.pairwise_map]
      exact hno
    rw [h] at h1
    rw [List.pairwise_map] at h1
    exact h1

/-! Lemmas about `nextOverlap` and `prevOverlap`. -/

/-- The entry found by a sorted `find?` over `pos < key` has the least
such key. -/
theorem find_first_min {p : Phrase} {pos : ℚ} {e0 : Entry} (hs : SortedKeys p)
    (h : p.find? (fun e => decide (pos < e.pos)) = some e0) :
    ∀ e ∈ p, pos < e.pos → e0.pos ≤ e.pos := by
  induction p with
  | nil => cases h
  | cons a es ih =>
    obtain ⟨hR, hs2⟩ := List.pairwise_cons.mp hs
    rw [List.find?] at h
    intro e he hpos
    by_cases ha : pos < a.pos
    · rw [decide_eq_true ha] at h
      cases h
      rcases List.mem_cons.mp he with rfl | h2
      · exact le_refl _
      · exact le_of_lt (hR e h2)
    · rw [decide_eq_false ha] at h
      rcases List.mem_cons.mp he with rfl | h2
      · exact absurd hpos ha
      · exact ih hs2 h e h2 hpos

theorem nextOverlap_none_spec {p : Phrase} {pos dur : ℚ} (hs : SortedKeys p)
    (h : nextOverlap p pos dur = none) :
    ∀ e ∈ p, pos < e.pos → pos + dur ≤ e.pos := by
  intro e he hpos
  cases hf : p.find? (fun e => decide (pos < e.pos)) with
  | none =>
    have := List.find?_eq_none.mp hf e he
    exact absurd hpos (by simpa using this)
  | some e0 =>
    simp only [nextOverlap, hf] at h
    by_cases hcond : qadd pos dur > e0.pos
    · rw [if_pos hcond] at h; cases h
    · rw [qadd_eq] at hcond
      have h1 : pos + dur ≤ e0.pos := not_lt.mp hcond
      exact le_trans h1 (find_first_min hs hf e he hpos)

theorem nextOverlap_some_spec {p : Phrase} {pos dur q : ℚ} (hs : SortedKeys p)
    (h : nextOverlap p pos dur = some q) :
    (∃ e0 ∈ p, e0.pos = q) ∧ pos < q ∧ q < pos + dur ∧
      ∀ e ∈ p, pos < e.pos → q ≤ e.pos := by
  cases hf : p.find? (fun e => decide (pos < e.pos)) with
  | none => simp only [nextOverlap, hf] at h; cases h
  | some e0 =>
    simp only [nextOverlap, hf] at h
    by_cases hcond : qadd pos dur > e0.pos
    · rw [if_pos hcond] at h
      cases h
      have hmem := List.mem_of_find?_eq_some hf
      have hpred : pos < e0.pos := by
        have := List.find?_some hf
        simpa using this
      rw [qadd_eq] at hcond
      exact ⟨⟨e0, hmem, rfl⟩, hpred, hcond, find_first_min hs hf⟩
    · rw [if_neg hcond] at h; cases h

/-- The last element of a key-sorted pair list bounds every element. -/
theorem getLast_max {l : List (ℚ × ℚ)} {x0 : ℚ × ℚ}
    (hs : List.Pairwise (fun x y : ℚ × ℚ => x.1 < y.1) l) (h : l.getLast? = some x0) :
    ∀ x ∈ l, x.1 ≤ x0.1 := by
  induction l with
  | nil => cases h
  | cons a es ih =>
    obtain ⟨hR, hs2⟩ := List.pairwise_cons.mp hs
    intro x hx
    cases es with
    | nil =>
      simp only [List.getLast?_singleton] at h
      cases h
      rcases List.mem_cons.mp hx with rfl | h2
      · exact le_refl _
      · cases h2
    | cons b bs =>
      rw [List.getLast?_cons_cons] at h
      rcases List.mem_cons.mp hx with rfl | h2
      · have hx0 : x0 ∈ b :: bs := List.mem_of_mem_getLast? h
        exact le_of_lt (hR x0 hx0)
      · exact ih hs2 h x h2

theorem sorted_below {p : Phrase} (hs : SortedKeys p) (b : ℚ) :
    List.Pairwise (fun x y : ℚ × ℚ => x.1 < y.1) (below p b) := by
  rw [below]
  apply List.Pairwise.filter
  rw [List.pairwise_map]
  exact hs

theorem prevOverlap_lt {p : Phrase} {pos q0 : ℚ} (h : prevOverlap p pos = some q0) :
    q0 < pos := by
  cases hl : (below p pos).getLast? with
  | none => simp only [prevOverlap, hl] at h; cases h
  | some x0 =>
    simp only [prevOverlap, hl] at h
    by_cases hcond : qadd x0.1 x0.2 > pos
    · rw [if_pos hcond] at h
      cases h
      have hx0 : x0 ∈ below p pos := List.mem_of_mem_getLast? hl
      obtain ⟨e, _, hkd, hlt⟩ := below_mem_elim hx0
      have : x0.1 = e.pos := by rw [← hkd]; rfl
      rw [this]
      exact hlt
    · rw [if_neg hcond] at h; cases h

theorem prevOverlap_none_spec {p : Phrase} {pos : ℚ} (hInv : Inv p)
    (h : prevOverlap p pos = none) :
    ∀ e ∈ p, e.pos < pos → e.pos + e.dur ≤ pos := by
  intro e he hlt
  cases hl : (below p pos).getLast? with
  | none =>
    rw [List.getLast?_eq_none_iff] at hl
    have := kd_mem_below he hlt
    rw [hl] at this
    cases this
  | some x0 =>
    simp only [prevOverlap, hl] at h
    by_cases hcond : qadd x0.1 x0.2 > pos
    · rw [if_pos hcond] at h; cases h
    · rw [qadd_eq] at hcond
      have hbound : x0.1 + x0.2 ≤ pos := not_lt.mp hcond
      have hmax := getLast_max (sorted_below (sortedKeys_of_inv hInv) pos) hl (kd e)
        (kd_mem_below he hlt)
      have hle : e.pos ≤ x0.1 := hmax
      obtain ⟨e1, he1, hkd1, _⟩ := below_mem_elim (List.mem_of_mem_getLast? hl)
      rcases lt_or_eq_of_le hle with hlt2 | heq
      · have : e.pos + e.dur ≤ e1.pos := by
          apply nonov_of_lt hInv e he e1 he1
          rw [show e1.pos = x0.1 from by rw [← hkd1]; rfl]
          exact hlt2
        calc e.pos + e.dur ≤ e1.pos := this
          _ = x0.1 := by rw [← hkd1]; rfl
          _ ≤ x0.1 + x0.2 := by
              have : 0 < e1.dur := hInv.1 e1 he1
              have hd : x0.2 = e1.dur := by rw [← hkd1]; rfl
              linarith
          _ ≤ pos := hbound
      · have hpos1 : e1.pos = x0.1 := by rw [← hkd1]; rfl
        have : e = e1 := by
          apply unique_key (sortedKeys_of_inv hInv) e he e1 he1
          rw [hpos1, ← heq]
        rw [this, hpos1]
        have hd : x0.2 = e1.dur := by rw [← hkd1]; rfl
        rw [← hd]
        exact hbound

theorem prevOverlap_some_spec {p : Phrase} {pos q0 : ℚ} (hInv : Inv p)
    (h : prevOverlap p pos = some q0) :
    ∃ e0 ∈ p, e0.pos = q0 ∧ q0 < pos ∧ pos < e0.pos + e0.dur ∧
      ∀ e ∈ p, e.pos < pos → e.pos ≤ q0 := by
  cases hl : (below p pos).getLast? with
  | none => simp only [prevOverlap, hl] at h; cases h
  | some x0 =>
    simp only [prevOverlap, hl] at h
    by_cases hcond : qadd x0.1 x0.2 > pos
    · rw [if_pos hcond] at h
      cases h
      obtain ⟨e0, he0, hkd0, hlt0⟩ := below_mem_elim (List.mem_of_mem_getLast? hl)
      have hp0 : e0.pos = x0.1 := by rw [← hkd0]; rfl
      have hd0 : e0.dur = x0.2 := by rw [← hkd0]; rfl
      rw [qadd_eq] at hcond
      refine ⟨e0, he0, hp0, by rw [← hp0]; exact hlt0, by rw [hp0, hd0]; exact hcond, ?_⟩
      intro e he hlt
      have := getLast_max (sorted_below (sortedKeys_of_inv hInv) pos) hl (kd e)
        (kd_mem_below he hlt)
      rwa [show (kd e).1 = e.pos from rfl] at this
    · rw [if_neg hcond] at h; cases h

/-- No entry of an invariant phrase is overlapped by its predecessor. -/
theorem prevOverlap_key_none {p : Phrase} {e0 : Entry} (hInv : Inv p) (he : e0 ∈ p) :
    prevOverlap p e0.pos = none := by
  cases h : prevOverlap p e0.pos with
  | none => rfl
  | some q0 =>
    exfalso
    obtain ⟨e1, he1, hp1, hlt1, hov1, _⟩ := prevOverlap_some_spec hInv h
    have : e1.pos + e1.dur ≤ e0.pos := by
      apply nonov_of_lt hInv e1 he1 e0 he
      rw [hp1]; exact hlt1
    linarith

theorem prevOverlap_congr {p p2 : Phrase} {pos : ℚ}
    (h : below p pos = below p2 pos) : prevOverlap p pos = prevOverlap p2 pos := by
  rw [prevOverlap, prevOverlap, h]

/-! Construction of `Inv` through `mapInsert` and `mapErase`. -/

theorem inv_mapErase {p : Phrase} (hInv : Inv p) (k : ℚ) : Inv (mapErase p k) :=
  ⟨fun e he => hInv.1 e (mem_mapErase_subset he),
    hInv.2.sublist (mapErase_sublist p k)⟩

theorem inv_mapInsert {p : Phrase} {k : ℚ} {v : PhraseElement} {d : ℚ}
    (hInv : Inv p) (hd : 0 < d)
    (hlow : ∀ e ∈ p, e.pos < k → e.pos + e.dur ≤ k)
    (hhigh : ∀ e ∈ p, k < e.pos → k + d ≤ e.pos) :
    Inv (mapInsert p k v d) := by
  induction p with
  | nil =>
    constructor
    · intro x hx
      have : x = ⟨k, v, d⟩ := by simpa [mapInsert] using hx
      rw [this]
      exact hd
    · rw [show mapInsert [] k v d = [⟨k, v, d⟩] from rfl, NonOv]
      simp
  | cons e es ih =>
    obtain ⟨hpd, hno⟩ := hInv
    obtain ⟨hR, hno2⟩ := List.pairwise_cons.mp hno
    have hepos : 0 < e.dur := hpd e (List.mem_cons_self _ _)
    have hkey : ∀ b ∈ es, e.pos < b.pos := by
      intro b hb
      have := hR b hb
      have := hpd e (List.mem_cons_self _ _)
      linarith
    rw [mapInsert]
    by_cases h1 : k < e.pos
    · rw [if_pos h1]
      constructor
      · intro x hx
        rcases List.mem_cons.mp hx with rfl | h2
        · exact hd
        · exact hpd x h2
      · rw [NonOv, List.pairwise_cons]
        refine ⟨?_, hno⟩
        intro b hb
        rcases List.mem_cons.mp hb with rfl | h2
        · exact hhigh b (List.mem_cons_self _ _) h1
        · exact hhigh b (List.mem_cons_of_mem _ h2) (lt_trans h1 (hkey b h2))
    · by_cases h2 : k = e.pos
      · rw [if_neg h1, if_pos h2]
        constructor
        · intro x hx
          rcases List.mem_cons.mp hx with rfl | h3
          · exact hd
          · exact hpd x (List.mem_cons_of_mem _ h3)
        · rw [NonOv, List.pairwise_cons]
          refine ⟨?_, hno2⟩
          intro b hb
          refine hhigh b (List.mem_cons_of_mem _ hb) ?_
          rw [h2]
          exact hkey b hb
      · rw [if_neg h1, if_neg h2]
        have hek : e.pos < k := by
          rcases lt_trichotomy k e.pos with h | h | h
          · exact absurd h h1
          · exact absurd h h2
          · exact h
        constructor
        · intro x hx
          rcases List.mem_cons.mp hx with rfl | h3
          · exact hepos
          · exact (ih (inv_tail ⟨hpd, hno⟩)
              (fun b hb hlt => hlow b (List.mem_cons_of_mem _ hb) hlt)
              (fun b hb hlt => hhigh b (List.mem_cons_of_mem _ hb) hlt)).1 x h3
        · rw [NonOv, List.pairwise_cons]
          constructor
          · intro b hb
            rcases mem_mapInsert_subset hb with rfl | h3
            · exact hlow e (List.mem_cons_self _ _) hek
            · exact hR b h3
          · exact (ih (inv_tail ⟨hpd, hno⟩)
              (fun b hb hlt => hlow b (List.mem_cons_of_mem _ hb) hlt)
              (fun b hb hlt => hhigh b (List.mem_cons_of_mem _ hb) hlt)).2

/-! The master induction: `insGo` preserves the timeline invariant. -/

/-- The clipped working interval does not reach the next entry. -/
def UB (p : Phrase) (pos dur : ℚ) : Prop :=
  ∀ e ∈ p, pos < e.pos → pos + dur ≤ e.pos

/-- The least key whose entry the insertion may restructure: the
backward-overlap key when there is one, else the insertion position. -/
def bound (p : Phrase) (pos : ℚ) : ℚ :=
  match prevOverlap p pos with
  | Option.some q0 => q0
  | Option.none => pos

theorem bound_le (p : Phrase) (pos : ℚ) : bound p pos ≤ pos := by
  cases h : prevOverlap p pos with
  | none => simp [bound, h]
  | some q0 =>
    simp only [bound, h]
    exact le_of_lt (prevOverlap_lt h)

/-- Induction hypothesis for the `add_note` case. -/
def InsOneOK (fuel : Nat) : Prop :=
  ∀ p n pos dur p2, Inv p → 0 < dur → insGo fuel p (Ins.one n pos dur) = some p2 →
    Inv p2 ∧ below p2 (bound p pos) = below p (bound p pos)

/-- Induction hypothesis for the `add_element` note-list case. -/
def InsSeqOK (fuel : Nat) : Prop :=
  ∀ p ns pos dur p2, Inv p → 0 < dur → prevOverlap p pos = none →
    insGo fuel p (Ins.seq ns pos dur) = some p2 →
    Inv p2 ∧ below p2 pos = below p pos

theorem inv_cond_fix {p3 : Phrase} (hInv : Inv p3) (c : Prop) [Decidable c]
    (pos : ℚ) (n : Note) : Inv (if c then fixPrevTie p3 pos n else p3) := by
  by_cases h : c
  · rw [if_pos h]
    exact inv_of_kdmap_eq (kdmap_fixPrevTie p3 pos n).symm hInv
  · rw [if_neg h]
    exact hInv

theorem below_cond_fix (p3 : Phrase) (c : Prop) [Decidable c] (pos b : ℚ) (n : Note) :
    below (if c then fixPrevTie p3 pos n else p3) b = below p3 b := by
  by_cases h : c
  · rw [if_pos h]
    exact below_fixPrevTie p3 pos b n
  · rw [if_neg h]

theorem coreOK (fl : Nat) (hone : InsOneOK fl) (hseq : InsSeqOK fl) :
    ∀ p note1 pos dur1 p2, Inv p → 0 < dur1 → UB p pos dur1 →
      coreRun fl p note1 pos dur1 = some p2 →
      Inv p2 ∧ below p2 (bound p pos) = below p (bound p pos) := by
  intro p note1 pos dur1 p2 hInv hd hub hrun
  cases hpo : prevOverlap p pos with
  | some q0 =>
    have hb : bound p pos = q0 := by simp [bound, hpo]
    simp only [coreRun, hpo] at hrun
    cases hlq : lookup p q0 with
    | none =>
      simp only [hlq] at hrun
      cases hrun
    | some elq_pair =>
      obtain ⟨elq, lenq⟩ := elq_pair
      simp only [hlq] at hrun
      obtain ⟨e0, he0, he0pos, hq0lt, hq0ov, hq0max⟩ := prevOverlap_some_spec hInv hpo
      have hmemq : (⟨q0, elq, lenq⟩ : Entry) ∈ p := lookup_mem hlq
      have hlenq : 0 < lenq := hInv.1 _ hmemq
      have he0eq : e0 = ⟨q0, elq, lenq⟩ := by
        apply unique_key (sortedKeys_of_inv hInv) e0 he0 _ hmemq
        rw [he0pos]
      have hInvI : Inv (mapInsert (mapErase p q0) pos (PhraseElement.note note1) dur1) := by
        apply inv_mapInsert (inv_mapErase hInv q0) hd
        · intro e he hlt
          have hep : e ∈ p := mem_mapErase_subset he
          have hne : e.pos ≠ q0 := mem_mapErase_ne (sortedKeys_of_inv hInv) he
          have hle : e.pos ≤ q0 := hq0max e hep hlt
          have hlt2 : e.pos < q0 := lt_of_le_of_ne hle hne
          have := nonov_of_lt hInv e hep e0 he0 (by rw [he0pos]; exact hlt2)
          rw [he0pos] at this
          linarith [le_of_lt hq0lt]
        · intro e he hlt
          exact hub e (mem_mapErase_subset he) hlt
      have hbelI : below (mapInsert (mapErase p q0) pos (PhraseElement.note note1) dur1) q0
          = below p q0 := by
        rw [below_mapInsert_high (le_of_lt hq0lt), below_mapErase_high (le_refl q0)]
      have hprevI : prevOverlap
          (mapInsert (mapErase p q0) pos (PhraseElement.note note1) dur1) q0 = none := by
        rw [prevOverlap_congr hbelI]
        have := prevOverlap_key_none hInv hmemq
        simpa using this
      obtain ⟨hInv2, hbel2⟩ := hseq _ _ _ _ _ hInvI hlenq hprevI hrun
      refine ⟨hInv2, ?_⟩
      rw [hb, hbel2, hbelI]
  | none =>
    have hb : bound p pos = pos := by simp [bound, hpo]
    have hlow := prevOverlap_none_spec hInv hpo
    simp only [coreRun, hpo] at hrun
    cases hlp : lookup p pos with
    | none =>
      simp only [hlp] at hrun
      cases hrun
      constructor
      · exact inv_mapInsert hInv hd hlow hub
      · rw [hb]
        exact below_mapInsert_high (le_refl pos)
    | some el_pair =>
      obtain ⟨element, len⟩ := el_pair
      simp only [hlp] at hrun
      have hmem : (⟨pos, element, len⟩ : Entry) ∈ p := lookup_mem hlp
      have hlen : 0 < len := hInv.1 _ hmem
      by_cases hc1 : len < dur1
      · rw [if_pos hc1] at hrun
        rw [qadd_eq, qsub_eq] at hrun
        cases hrun
        have hInv2 : Inv (mapInsert p pos
            (element.mergeNote { note1 with tie := note1.tie.addStart })
            len) := by
          apply inv_mapInsert hInv hlen hlow
          intro e he hlt
          have := hub e he hlt
          linarith
        have hInv2b : Inv (mapInsert p pos
            ((element.removeStopTieOf { note1 with tie := note1.tie.addStart }).mergeNote
              { note1 with tie := note1.tie.addStart }) len) := by
          apply inv_mapInsert hInv hlen hlow
          intro e he hlt
          have := hub e he hlt
          linarith
        have key3 : ∀ v2 : PhraseElement, Inv (mapInsert p pos v2 len) →
            Inv (mapInsert (mapInsert p pos v2 len) (pos + len)
              (PhraseElement.note { note1 with tie := note1.tie.addStop }) (dur1 - len)) := by
          intro v2 hI2
          apply inv_mapInsert hI2 (by linarith)
          · intro e he hlt
            rcases mem_mapInsert_subset he with rfl | hep
            · simp only []
              linarith
            · by_cases hcase : e.pos < pos
              · have := hlow e hep hcase
                linarith
              · by_cases hcase2 : e.pos = pos
                · have : e = ⟨pos, element, len⟩ :=
                    unique_key (sortedKeys_of_inv hInv) e hep _ hmem hcase2
                  rw [this]
                · have hgt : pos < e.pos := by
                    rcases lt_trichotomy e.pos pos with h | h | h
                    · exact absurd h hcase
                    · exact absurd h hcase2
                    · exact h
                  have := hub e hep hgt
                  linarith
          · intro e he hlt
            rcases mem_mapInsert_subset he with rfl | hep
            · simp only [] at hlt
              linarith
            · have hgt : pos < e.pos := by linarith
              have := hub e hep hgt
              linarith
        have hbelow3 : ∀ v2 : PhraseElement,
            below (mapInsert (mapInsert p pos v2 len) (pos + len)
              (PhraseElement.note { note1 with tie := note1.tie.addStop }) (dur1 - len)) pos
            = below p pos := by
          intro v2
          rw [below_mapInsert_high (by linarith), below_mapInsert_high (le_refl pos)]
        constructor
        · apply inv_cond_fix
          by_cases hch : element.hasStopTieB { note1 with tie := note1.tie.addStart } = true
          · rw [if_pos hch]
            exact key3 _ hInv2b
          · rw [if_neg hch]
            exact key3 _ hInv2
        · rw [hb, below_cond_fix]
          by_cases hch : element.hasStopTieB { note1 with tie := note1.tie.addStart } = true
          · rw [if_pos hch]
            exact hbelow3 _
          · rw [if_neg hch]
            exact hbelow3 _
      · by_cases hc2 : len = dur1
        · rw [if_neg hc1, if_pos hc2] at hrun
          cases hrun
          constructor
          · apply inv_cond_fix
            have hIm : ∀ v2 : PhraseElement, Inv (mapInsert p pos v2 len) := by
              intro v2
              apply inv_mapInsert hInv hlen hlow
              intro e he hlt
              have := hub e he hlt
              rw [hc2]
              linarith
            by_cases hch : element.hasStopTieB note1 = true
            · rw [if_pos hch]
              exact hIm _
            · rw [if_neg hch]
              exact hIm _
          · rw [hb, below_cond_fix]
            by_cases hch : element.hasStopTieB note1 = true
            · rw [if_pos hch]
              exact below_mapInsert_high (le_refl pos)
            · rw [if_neg hch]
              exact below_mapInsert_high (le_refl pos)
        · rw [if_neg hc1, if_neg hc2] at hrun
          have hgt : dur1 < len := lt_of_le_of_ne (not_lt.mp hc1) fun hc => hc2 hc.symm
          have hInvI : Inv (mapInsert p pos (PhraseElement.note note1) dur1) :=
            inv_mapInsert hInv hd hlow hub
          have hbelI : below (mapInsert p pos (PhraseElement.note note1) dur1) pos
              = below p pos := below_mapInsert_high (le_refl pos)
          have hprevI : prevOverlap (mapInsert p pos (PhraseElement.note note1) dur1) pos
              = none := by
            rw [prevOverlap_congr hbelI]
            exact hpo
          obtain ⟨hInv2, hbel2⟩ := hseq _ _ _ _ _ hInvI hlen hprevI hrun
          refine ⟨hInv2, ?_⟩
          rw [hb, hbel2, hbelI]

theorem insOneOK_succ (fl : Nat) (hone : InsOneOK fl) (hseq : InsSeqOK fl) :
    InsOneOK (Nat.succ fl) := by
  intro p n pos dur p2 hInv hd hrun
  rw [insGo_one_eq] at hrun
  cases hno : nextOverlap p pos dur with
  | none =>
    simp only [hno] at hrun
    have hub : UB p pos dur := nextOverlap_none_spec (sortedKeys_of_inv hInv) hno
    exact coreOK fl hone hseq p n pos dur p2 hInv hd hub hrun
  | some q =>
    simp only [hno] at hrun
    obtain ⟨⟨e0, he0, he0pos⟩, hq1, hq2, hqmin⟩ :=
      nextOverlap_some_spec (sortedKeys_of_inv hInv) hno
    cases hlq : lookup p q with
    | none =>
      simp only [hlq] at hrun
      cases hrun
    | some ovp =>
      obtain ⟨ov, ovd⟩ := ovp
      simp only [hlq] at hrun
      have hd2 : 0 < qsub q pos := by
        rw [qsub_eq]
        linarith
      have hbq : bound p q = q := by
        have : prevOverlap p q = none := by
          have := prevOverlap_key_none hInv he0
          rwa [he0pos] at this
        simp [bound, this]
      by_cases hcont : ov.containsNote n = true
      · rw [if_pos hcont] at hrun
        have hub : UB p pos (qsub q pos) := by
          intro e he hlt
          rw [qsub_eq]
          have := hqmin e he hlt
          linarith
        exact coreOK fl hone hseq p n pos (qsub q pos) p2 hInv hd2 hub hrun
      · rw [if_neg hcont] at hrun
        cases hrec : insGo fl p
            (Ins.one { n with tie := n.tie.addStop } q (qsub dur (qsub q pos))) with
        | none =>
          simp only [hrec] at hrun
          cases hrun
        | some p1 =>
          simp only [hrec] at hrun
          have hdrec : 0 < qsub dur (qsub q pos) := by
            rw [qsub_eq, qsub_eq]
            linarith
          obtain ⟨hInv1, hbel1⟩ := hone p _ q _ p1 hInv hdrec hrec
          rw [hbq] at hbel1
          have hub1 : UB p1 pos (qsub q pos) := by
            intro e he hlt
            rw [qsub_eq]
            have hnotin : ¬ (e.pos < q) := by
              intro hlt2
              have hmemb : kd e ∈ below p q := by
                rw [← hbel1]
                exact kd_mem_below he hlt2
              obtain ⟨e1, he1, hkd1, hlt1⟩ := below_mem_elim hmemb
              have hpe : e1.pos = e.pos := congrArg Prod.fst hkd1
              have := hqmin e1 he1 (by rw [hpe]; exact hlt)
              rw [hpe] at this
              linarith
            have := not_lt.mp hnotin
            linarith
          obtain ⟨hInv2, hbel2⟩ :=
            coreOK fl hone hseq p1 _ pos (qsub q pos) p2 hInv1 hd2 hub1 hrun
          refine ⟨hInv2, ?_⟩
          have hbelpos : below p1 pos = below p pos :=
            below_congr_of_le (le_of_lt hq1) hbel1
          have hbnd : bound p1 pos = bound p pos := by
            rw [bound, bound, prevOverlap_congr hbelpos]
          rw [hbnd] at hbel2
          have hrestrict : below p1 (bound p pos) = below p (bound p pos) :=
            below_congr_of_le (bound_le p pos) hbelpos
          rw [hbel2, hrestrict]

theorem insSeqOK_succ (fl : Nat) (hone : InsOneOK fl) (hseq : InsSeqOK fl) :
    InsSeqOK (Nat.succ fl) := by
  intro p ns pos dur p2 hInv hd hprev hrun
  cases ns with
  | nil =>
    simp only [insGo] at hrun
    cases hrun
    exact ⟨hInv, rfl⟩
  | cons n rest =>
    simp only [insGo] at hrun
    cases hr1 : insGo fl p (Ins.one n pos dur) with
    | none =>
      simp only [hr1] at hrun
      cases hrun
    | some p1 =>
      simp only [hr1] at hrun
      obtain ⟨hInv1, hbel1⟩ := hone p n pos dur p1 hInv hd hr1
      have hb : bound p pos = pos := by simp [bound, hprev]
      rw [hb] at hbel1
      have hprev1 : prevOverlap p1 pos = none := by
        rw [prevOverlap_congr hbel1]
        exact hprev
      obtain ⟨hInv2, hbel2⟩ := hseq p1 rest pos dur p2 hInv1 hd hprev1 hrun
      exact ⟨hInv2, by rw [hbel2, hbel1]⟩

theorem insOK : ∀ fuel, InsOneOK fuel ∧ InsSeqOK fuel := by
  intro fuel
  induction fuel with
  | zero =>
    constructor
    · intro p n pos dur p2 _ _ h
      simp [insGo] at h
    · intro p ns pos dur p2 _ _ _ h
      simp [insGo] at h
  | succ fl ih => exact ⟨insOneOK_succ fl ih.1 ih.2, insSeqOK_succ fl ih.1 ih.2⟩

/-! Top-level corollaries for claim C1. -/

theorem insSeq_inv : ∀ fuel p ns pos dur p2, Inv p → 0 < dur →
    insGo fuel p (Ins.seq ns pos dur) = some p2 → Inv p2 := by
  intro fuel
  induction fuel with
  | zero =>
    intro p ns pos dur p2 _ _ h
    simp [insGo] at h
  | succ fl ih =>
    intro p ns pos dur p2 hInv hd h
    cases ns with
    | nil =>
      simp only [insGo] at h
      cases h
      exact hInv
    | cons n rest =>
      simp only [insGo] at h
      cases hr1 : insGo fl p (Ins.one n pos dur) with
      | none =>
        simp only [hr1] at h
        cases h
      | some p1 =>
        simp only [hr1] at h
        have hInv1 : Inv p1 := ((insOK fl).1 p n pos dur p1 hInv hd hr1).1
        exact ih p1 rest pos dur p2 hInv1 hd h

theorem addElement_inv {fuel : Nat} {p : Phrase} {el : PhraseElement} {pos dur : ℚ}
    {p2 : Phrase} (hInv : Inv p) (hd : 0 < dur)
    (h : addElement fuel p el pos dur = some p2) : Inv p2 :=
  insSeq_inv fuel p (notesOf el) pos dur p2 hInv hd h

theorem insertAll_inv : ∀ (l : List (PhraseElement × ℚ × ℚ)) (fuel : Nat) (p p2 : Phrase),
    Inv p → (∀ i ∈ l, 0 < i.2.2) → insertAllP fuel p l = some p2 → Inv p2 := by
  intro l
  induction l with
  | nil =>
    intro fuel p p2 hInv _ h
    simp only [insertAllP] at h
    cases h
    exact hInv
  | cons i rest ih =>
    intro fuel p p2 hInv hdur h
    simp only [insertAllP] at h
    cases hr1 : addElement fuel p i.1 i.2.1 i.2.2 with
    | none =>
      simp only [hr1] at h
      cases h
    | some p1 =>
      simp only [hr1] at h
      have hInv1 : Inv p1 :=
        addElement_inv hInv (hdur i (List.mem_cons_self i rest)) hr1
      exact ih fuel p1 p2 hInv1 (fun j hj => hdur j (List.mem_cons_of_mem i hj)) h

theorem mergeP_inv : ∀ (q : Phrase) (fuel : Nat) (p p2 : Phrase), Inv p → PosDur q →
    mergeP fuel p q = some p2 → Inv p2 := by
  intro q
  induction q with
  | nil =>
    intro fuel p p2 hInv _ h
    simp only [mergeP] at h
    cases h
    exact hInv
  | cons e es ih =>
    intro fuel p p2 hInv hq h
    simp only [mergeP] at h
    cases hr1 : addElement fuel p e.el e.pos e.dur with
    | none =>
      simp only [hr1] at h
      cases h
    | some p1 =>
      simp only [hr1] at h
      exact ih fuel p1 p2 (addElement_inv hInv (hq e (List.mem_cons_self e es)) hr1)
        (fun j hj => hq j (List.mem_cons_of_mem e hj)) h

/-- The invariant yields the specification's pairwise half-open-interval
disjointness. -/
theorem inv_disjoint {p : Phrase} (hInv : Inv p) :
    ∀ a ∈ p, ∀ b ∈ p, a ≠ b → a.pos + a.dur ≤ b.pos ∨ b.pos + b.dur ≤ a.pos := by
  have h2 : List.Pairwise (fun a b : Entry =>
      a.pos + a.dur ≤ b.pos ∨ b.pos + b.dur ≤ a.pos) p := hInv.2.imp Or.inl
  intro a ha b hb hne
  exact h2.forall (fun x y hxy => hxy.symm) ha hb hne

/-- C1: starting from any phrase satisfying the no-overlap invariant, any
sequence of element insertions (`Phrase::add_element`, hence also
`Phrase::add_note` as the singleton case), and likewise `Phrase::merge`
with any phrase of positive durations, yields — whenever it returns — a
phrase in which every pair of distinct entries has disjoint half-open
intervals: end_a ≤ start_b or end_b ≤ start_a. -/
theorem c1_timeline_no_overlap (fuel : Nat) (p0 : Phrase)
    (ins : List (PhraseElement × ℚ × ℚ)) (q : Phrase) (p2 p3 : Phrase)
    (h0 : Inv p0) (hdur : ∀ i ∈ ins, 0 < i.2.2) (hq : PosDur q)
    (hins : insertAllP fuel p0 ins = Option.some p2)
    (hmerge : mergeP fuel p0 q = Option.some p3) :
    (∀ a ∈ p2, ∀ b ∈ p2, a ≠ b → a.pos + a.dur ≤ b.pos ∨ b.pos + b.dur ≤ a.pos) ∧
    (∀ a ∈ p3, ∀ b ∈ p3, a ≠ b → a.pos + a.dur ≤ b.pos ∨ b.pos + b.dur ≤ a.pos) :=
  ⟨inv_disjoint (insertAll_inv ins fuel p0 p2 h0 hdur hins),
   inv_disjoint (mergeP_inv q fuel p0 p3 h0 hq hmerge)⟩

def c1p0 : Phrase := [⟨0, PhraseElement.note ⟨NoteName.C, 4, 0, Tie.none⟩, 2⟩]

def c1ins : List (PhraseElement × ℚ × ℚ) :=
  [(PhraseElement.note ⟨NoteName.D, 4, 0, Tie.none⟩, 1, 2)]

def c1q : Phrase := [⟨0, PhraseElement.note ⟨NoteName.D, 4, 0, Tie.none⟩, 1⟩]

def c1p2 : Phrase :=
  [⟨0, PhraseElement.note ⟨NoteName.C, 4, 0, Tie.start⟩, 1⟩,
   ⟨1, PhraseElement.chord [⟨NoteName.C, 4, 0, Tie.stop⟩, ⟨NoteName.D, 4, 0, Tie.start⟩], 1⟩,
   ⟨2, PhraseElement.note ⟨NoteName.D, 4, 0, Tie.stop⟩, 1⟩]

def c1p3 : Phrase :=
  [⟨0, PhraseElement.chord [⟨NoteName.D, 4, 0, Tie.none⟩, ⟨NoteName.C, 4, 0, Tie.start⟩], 1⟩,
   ⟨1, PhraseElement.note ⟨NoteName.C, 4, 0, Tie.stop⟩, 1⟩]

theorem c1_timeline_no_overlap_witness :
    Inv c1p0 ∧ (∀ i ∈ c1ins, 0 < i.2.2) ∧ PosDur c1q ∧
    insertAllP 8 c1p0 c1ins = Option.some c1p2 ∧
    mergeP 8 c1p0 c1q = Option.some c1p3 ∧
    ((∀ a ∈ c1p2, ∀ b ∈ c1p2, a ≠ b → a.pos + a.dur ≤ b.pos ∨ b.pos + b.dur ≤ a.pos) ∧
     (∀ a ∈ c1p3, ∀ b ∈ c1p3, a ≠ b → a.pos + a.dur ≤ b.pos ∨ b.pos + b.dur ≤ a.pos)) :=
  ⟨by decide, by decide, by decide, by decide, by decide,
   c1_timeline_no_overlap 8 c1p0 c1ins c1q c1p2 c1p3 (by decide) (by decide) (by decide)
     (by decide) (by decide)⟩

/-! Claim C10. -/

theorem notesOf_transposeOct (el : PhraseElement) (o : Int) :
    notesOf (PhraseElement.transposeOct el o) =
      (notesOf el).map (fun m => { m with octave := m.octave + o }) := by
  cases el <;> rfl

/-- C10: `Phrase::transpose_octaves(n)` changes only the octave field of
each contained note (each octave moves by exactly `n`): the entry count,
the list of positions, the list of durations, and per entry the notes'
steps, alterations and tie flags are all unchanged. -/
theorem c10_transpose_octaves_frame (p : Phrase) (o : Int) :
    (transposeOctaves p o).length = p.length ∧
    (transposeOctaves p o).map (fun e => e.pos) = p.map (fun e => e.pos) ∧
    (transposeOctaves p o).map (fun e => e.dur) = p.map (fun e => e.dur) ∧
    (transposeOctaves p o).map
        (fun e => (notesOf e.el).map fun n => (n.step, n.alter, n.tie, n.octave)) =
      p.map (fun e => (notesOf e.el).map fun n => (n.step, n.alter, n.tie, n.octave + o)) := by
  refine ⟨?_, ?_, ?_, ?_⟩
  · simp [transposeOctaves]
  · simp [transposeOctaves, List.map_map, Function.comp]
  · simp [transposeOctaves, List.map_map, Function.comp]
  · simp [transposeOctaves, List.map_map, Function.comp, notesOf_transposeOct]

/-! Claim C4. -/

theorem nextOverlap_at_key {p : Phrase} {pos dur : ℚ} {element : PhraseElement}
    (hInv : Inv p) (hmem : (⟨pos, element, dur⟩ : Entry) ∈ p) :
    nextOverlap p pos dur = Option.none := by
  rw [nextOverlap]
  cases hf : p.find? (fun e => decide (pos < e.pos)) with
  | none => rfl
  | some e =>
    have he : e ∈ p := List.mem_of_find?_eq_some hf
    have hlt : pos < e.pos := by simpa using List.find?_some hf
    have hle : pos + dur ≤ e.pos := nonov_of_lt hInv _ hmem e he hlt
    have hn : ¬ (qadd pos dur > e.pos) := by
      rw [qadd_eq]
      exact not_lt.mpr hle
    show (if qadd pos dur > e.pos then Option.some e.pos else Option.none) = Option.none
    rw [if_neg hn]

theorem kdmap_mapInsert_self {p : Phrase} (hs : SortedKeys p) {k d : ℚ}
    {el : PhraseElement} (hmem : (⟨k, el, d⟩ : Entry) ∈ p) (v : PhraseElement) :
    (mapInsert p k v d).map kd = p.map kd := by
  induction p with
  | nil => cases hmem
  | cons e es ih =>
    cases hmem with
    | head =>
      rw [mapInsert]
      rw [if_neg (lt_irrefl k), if_pos rfl]
      rfl
    | tail _ hmem2 =>
      have hlt : e.pos < k := by
        have := (List.pairwise_cons.mp hs).1 _ hmem2
        simpa using this
      rw [mapInsert, if_neg (asymm hlt), if_neg (ne_of_gt hlt), List.map_cons,
        List.map_cons, ih (sortedKeys_tail hs) hmem2]

theorem find_map_pos (g : Entry → Entry) (hg : ∀ e, (g e).pos = e.pos)
    (p : List Entry) (k : ℚ) :
    (p.map g).find? (fun e => decide (e.pos = k)) =
      Option.map g (p.find? (fun e => decide (e.pos = k))) := by
  induction p with
  | nil => rfl
  | cons e es ih =>
    by_cases h : e.pos = k
    · rw [List.map_cons, List.find?_cons_of_pos _ (by simp [hg, h]),
        List.find?_cons_of_pos _ (by simp [h])]
      rfl
    · rw [List.map_cons, List.find?_cons_of_neg _ (by simp [hg, h]),
        List.find?_cons_of_neg _ (by simp [h]), ih]

theorem lookup_mapIf (p : Phrase) (k q0 : ℚ) (hne : q0 ≠ k)
    (f : PhraseElement → PhraseElement) :
    lookup (p.map fun e => if e.pos = q0 then { e with el := f e.el } else e) k
      = lookup p k := by
  have hg : ∀ e : Entry,
      ((if e.pos = q0 then { e with el := f e.el } else e) : Entry).pos = e.pos := by
    intro e
    by_cases h : e.pos = q0 <;> simp [h]
  rw [lookup, lookup, find_map_pos _ hg]
  cases hf : p.find? (fun e => decide (e.pos = k)) with
  | none => rfl
  | some e =>
    have hk : e.pos = k := by simpa using List.find?_some hf
    have heq : (if e.pos = q0 then ({ e with el := f e.el } : Entry) else e) = e := by
      rw [if_neg]
      rw [hk]
      exact fun h => hne h.symm
    simp [heq]

theorem lookup_fixPrevTie (p : Phrase) (pos : ℚ) (n : Note) :
    lookup (fixPrevTie p pos n) pos = lookup p pos := by
  rw [fixPrevTie]
  cases hf : p.find? (fun e => decide (e.pos < pos)) with
  | none => simp only [hf]
  | some e0 =>
    simp only [hf]
    have hlt : e0.pos < pos := by simpa using List.find?_some hf
    by_cases hst : e0.el.hasStartTieB n = true
    · rw [if_pos hst]
      exact lookup_mapIf p pos e0.pos (ne_of_lt hlt) (fun x => x.removeStartTieOf n)
    · rw [if_neg hst]

/-- C4 counterexample: merging a pitch-equal, equal-duration note into an
entry whose note carries a stop tie does not OR the tie flags — the
existing note's stop tie is removed before the merge, so the result lacks
the stop flag the OR would keep. -/
theorem c4_merge_tie_counterexample :
    addNote 2 [⟨0, PhraseElement.note ⟨NoteName.C, 4, 0, Tie.stop⟩, 1⟩]
      ⟨NoteName.C, 4, 0, Tie.none⟩ 0 1 =
      Option.some [⟨0, PhraseElement.note ⟨NoteName.C, 4, 0, Tie.none⟩, 1⟩] ∧
    Tie.orFrom Tie.stop Tie.none = Tie.stop ∧
    Tie.none ≠ Tie.stop := ⟨by decide, by decide, by decide⟩

/-- C4 (amended): inserting a note at a position that exactly matches an
existing entry of equal duration replaces that entry in place — the
key/duration skeleton and the entry count are unchanged — and the entry
now holds `merge_note` of the incoming note into the old element, where
the old element first loses its stop tie on the pitch-equal note if it had
one (rather than the plain OR of both notes' tie flags). -/
theorem c4_exact_merge (fuel : Nat) (p : Phrase) (pos dur : ℚ)
    (element : PhraseElement) (n : Note) (hInv : Inv p)
    (hlk : lookup p pos = Option.some (element, dur)) :
    ∃ p2, addNote (Nat.succ fuel) p n pos dur = Option.some p2 ∧
      p2.map kd = p.map kd ∧ p2.length = p.length ∧
      lookup p2 pos = Option.some
        ((if element.hasStopTieB n = true then element.removeStopTieOf n
          else element).mergeNote n, dur) := by
  have hmem : (⟨pos, element, dur⟩ : Entry) ∈ p := lookup_mem hlk
  have hno : nextOverlap p pos dur = Option.none := nextOverlap_at_key hInv hmem
  have hpo : prevOverlap p pos = Option.none := by
    have := prevOverlap_key_none hInv hmem
    simpa using this
  have hrun : addNote (Nat.succ fuel) p n pos dur =
      Option.some (if element.hasStopTieB n = true
        then fixPrevTie (mapInsert p pos
          ((if element.hasStopTieB n = true then element.removeStopTieOf n
            else element).mergeNote n) dur) pos n
        else mapInsert p pos
          ((if element.hasStopTieB n = true then element.removeStopTieOf n
            else element).mergeNote n) dur) := by
    rw [addNote, insGo_one_eq]
    simp only [hno, coreRun, hpo, hlk, lt_self_iff_false, if_false, eq_self_iff_true,
      if_true, ite_true, ite_false, Bool.false_eq_true]
  refine ⟨_, hrun, ?_, ?_, ?_⟩
  · by_cases hch : element.hasStopTieB n = true
    · rw [if_pos hch, kdmap_fixPrevTie,
        kdmap_mapInsert_self (sortedKeys_of_inv hInv) hmem]
    · rw [if_neg hch, kdmap_mapInsert_self (sortedKeys_of_inv hInv) hmem]
  · have hkd : (if element.hasStopTieB n = true
        then fixPrevTie (mapInsert p pos
          ((if element.hasStopTieB n = true then element.removeStopTieOf n
            else element).mergeNote n) dur) pos n
        else mapInsert p pos
          ((if element.hasStopTieB n = true then element.removeStopTieOf n
            else element).mergeNote n) dur).map kd = p.map kd := by
      by_cases hch : element.hasStopTieB n = true
      · rw [if_pos hch, kdmap_fixPrevTie,
          kdmap_mapInsert_self (sortedKeys_of_inv hInv) hmem]
      · rw [if_neg hch, kdmap_mapInsert_self (sortedKeys_of_inv hInv) hmem]
    have := congrArg List.length hkd
    simpa using this
  · by_cases hch : element.hasStopTieB n = true
    · rw [if_pos hch, lookup_fixPrevTie, lookup_mapInsert_self]
    · rw [if_neg hch, lookup_mapInsert_self]

def c4p : Phrase := [⟨0, PhraseElement.note ⟨NoteName.C, 4, 0, Tie.stop⟩, 1⟩]

def c4n : Note := ⟨NoteName.C, 4, 0, Tie.start⟩

theorem c4_exact_merge_witness :
    Inv c4p ∧
    lookup c4p 0 = Option.some (PhraseElement.note ⟨NoteName.C, 4, 0, Tie.stop⟩, 1) ∧
    (∃ p2, addNote (Nat.succ 2) c4p c4n 0 1 = Option.some p2 ∧
      p2.map kd = c4p.map kd ∧ p2.length = c4p.length ∧
      lookup p2 0 = Option.some
        ((if (PhraseElement.note ⟨NoteName.C, 4, 0, Tie.stop⟩).hasStopTieB c4n = true
          then (PhraseElement.note ⟨NoteName.C, 4, 0, Tie.stop⟩).removeStopTieOf c4n
          else PhraseElement.note ⟨NoteName.C, 4, 0, Tie.stop⟩).mergeNote c4n, 1)) :=
  ⟨by decide, by decide,
   c4_exact_merge 2 c4p 0 1 (PhraseElement.note ⟨NoteName.C, 4, 0, Tie.stop⟩) c4n
     (by decide) (by decide)⟩

/-! Claim C6: `NoteType::from_duration` / `NoteType::from_fraction`. -/

/-- Model of `NoteType`. -/
inductive NoteType
  | n1024th | n512th | n256th | n128th | n64th | n32nd | n16th
  | eighth | quarter | half | whole | breve | long | maxima
deriving DecidableEq, Repr

/-- Model of `NoteType::get_value`; each `Fraction::new(n, d)` call in the
source is already in balanced form, so the literal pair is the result. -/
def NoteType.getValue : NoteType → Frac
  | NoteType.n1024th => ⟨1, 256⟩
  | NoteType.n512th => ⟨1, 128⟩
  | NoteType.n256th => ⟨1, 64⟩
  | NoteType.n128th => ⟨1, 32⟩
  | NoteType.n64th => ⟨1, 16⟩
  | NoteType.n32nd => ⟨1, 8⟩
  | NoteType.n16th => ⟨1, 4⟩
  | NoteType.eighth => ⟨1, 2⟩
  | NoteType.quarter => ⟨1, 1⟩
  | NoteType.half => ⟨2, 1⟩
  | NoteType.whole => ⟨4, 1⟩
  | NoteType.breve => ⟨8, 1⟩
  | NoteType.long => ⟨16, 1⟩
  | NoteType.maxima => ⟨32, 1⟩

/-- Model of `NoteType::from_duration` (balance, then the 14-entry table;
`None` covers both the table miss and the degenerate `balance` panic). -/
def fromDuration (duration divisions : Int) : Option NoteType :=
  match balance duration divisions with
  | Option.none => Option.none
  | Option.some nd =>
    if nd = (1, 256) then Option.some NoteType.n1024th
    else if nd = (1, 128) then Option.some NoteType.n512th
    else if nd = (1, 64) then Option.some NoteType.n256th
    else if nd = (1, 32) then Option.some NoteType.n128th
    else if nd = (1, 16) then Option.some NoteType.n64th
    else if nd = (1, 8) then Option.some NoteType.n32nd
    else if nd = (1, 4) then Option.some NoteType.n16th
    else if nd = (1, 2) then Option.some NoteType.eighth
    else if nd = (1, 1) then Option.some NoteType.quarter
    else if nd = (2, 1) then Option.some NoteType.half
    else if nd = (4, 1) then Option.some NoteType.whole
    else if nd = (8, 1) then Option.some NoteType.breve
    else if nd = (16, 1) then Option.some NoteType.long
    else if nd = (32, 1) then Option.some NoteType.maxima
    else Option.none

/-- Model of `Fraction::is_zero`. -/
def Frac.isZero (f : Frac) : Bool := f.num == 0

/-- Model of the `from_fraction` loop.  The comparison is the source's
`Ord for Fraction` cross multiplication; `none` is exhausted fuel (the
source loop is unbounded) or the `unwrap` panic on `from_duration`. -/
def fromFractionGo : Nat → Frac → Frac → Option (List NoteType)
  | 0, _, _ => Option.none
  | Nat.succ fl, fraction, chunk =>
    if fraction.isZero then Option.some []
    else if chunk.num * fraction.den ≤ fraction.num * chunk.den then
      match Frac.sub fraction chunk with
      | Option.none => Option.none
      | Option.some f2 =>
        match fromDuration chunk.num chunk.den with
        | Option.none => Option.none
        | Option.some nt =>
          match Frac.div chunk ⟨2, 1⟩ with
          | Option.none => Option.none
          | Option.some c2 =>
            match fromFractionGo fl f2 c2 with
            | Option.none => Option.none
            | Option.some rest => Option.some (nt :: rest)
    else
      match Frac.div chunk ⟨2, 1⟩ with
      | Option.none => Option.none
      | Option.some c2 => fromFractionGo fl fraction c2

/-- Model of `NoteType::from_fraction` (chunk starts at `Fraction::new(32, 1)`). -/
def fromFraction (fuel : Nat) (f : Frac) : Option (List NoteType) :=
  fromFractionGo fuel f ⟨32, 1⟩

/-- The chunk after `13 - e` halvings: `2^e` quarter notes over 256ths. -/
def chunkF (e : Nat) : Frac := if 8 ≤ e then ⟨2 ^ (e - 8), 1⟩ else ⟨1, 2 ^ (8 - e)⟩

/-- The note type whose value is `2^e / 256` quarters. -/
def ntOf : Nat → NoteType
  | 0 => NoteType.n1024th
  | 1 => NoteType.n512th
  | 2 => NoteType.n256th
  | 3 => NoteType.n128th
  | 4 => NoteType.n64th
  | 5 => NoteType.n32nd
  | 6 => NoteType.n16th
  | 7 => NoteType.eighth
  | 8 => NoteType.quarter
  | 9 => NoteType.half
  | 10 => NoteType.whole
  | 11 => NoteType.breve
  | 12 => NoteType.long
  | _ => NoteType.maxima

instance (f : Frac) : Decidable f.Valid := by
  unfold Frac.Valid Nat.Coprime
  infer_instance

theorem chunkF_valid : ∀ e, e < 14 → Frac.Valid (chunkF e) := by decide

theorem chunkF_asRat : ∀ e, e < 14 → (chunkF e).asRat = (2 ^ e : ℚ) / 256 := by
  intro e he
  interval_cases e <;> norm_num [chunkF, Frac.asRat]

theorem fromDuration_chunkF :
    ∀ e, e < 14 → fromDuration (chunkF e).num (chunkF e).den = Option.some (ntOf e) := by
  decide

theorem chunkF_div2 :
    ∀ e, e < 13 → Frac.div (chunkF (e + 1)) ⟨2, 1⟩ = Option.some (chunkF e) := by
  decide

theorem getValue_ntOf :
    ∀ e, e < 14 → (NoteType.getValue (ntOf e)).asRat = (2 ^ e : ℚ) / 256 := by
  intro e he
  interval_cases e <;> norm_num [ntOf, NoteType.getValue, Frac.asRat]

theorem frac_le_iff {a b : Frac} (ha : 0 < a.den) (hb : 0 < b.den) :
    a.num * b.den ≤ b.num * a.den ↔ a.asRat ≤ b.asRat := by
  have h1 : (0 : ℚ) < (a.den : ℚ) := by exact_mod_cast ha
  have h2 : (0 : ℚ) < (b.den : ℚ) := by exact_mod_cast hb
  rw [Frac.asRat, Frac.asRat, div_le_div_iff h1 h2]
  exact_mod_cast Iff.rfl

theorem isZero_iff {f : Frac} (hd : f.den ≠ 0) : f.isZero = true ↔ f.asRat = 0 := by
  rw [Frac.isZero, beq_iff_eq, Frac.asRat]
  have hdQ : (f.den : ℚ) ≠ 0 := by exact_mod_cast hd
  constructor
  · intro h
    rw [h]
    simp
  · intro h
    rcases div_eq_zero_iff.mp h with h2 | h2
    · exact_mod_cast h2
    · exact absurd h2 hdQ

theorem fromFractionGo_succ (fl : Nat) (fraction chunk : Frac) :
    fromFractionGo (Nat.succ fl) fraction chunk =
      if fraction.isZero then Option.some []
      else if chunk.num * fraction.den ≤ fraction.num * chunk.den then
        match Frac.sub fraction chunk with
        | Option.none => Option.none
        | Option.some f2 =>
          match fromDuration chunk.num chunk.den with
          | Option.none => Option.none
          | Option.some nt =>
            match Frac.div chunk ⟨2, 1⟩ with
            | Option.none => Option.none
            | Option.some c2 =>
              match fromFractionGo fl f2 c2 with
              | Option.none => Option.none
              | Option.some rest => Option.some (nt :: rest)
      else
        match Frac.div chunk ⟨2, 1⟩ with
        | Option.none => Option.none
        | Option.some c2 => fromFractionGo fl fraction c2 := rfl

theorem fromFractionGo_zero (fuel : Nat) (f c : Frac) (hz : f.isZero = true) :
    fromFractionGo (Nat.succ fuel) f c = Option.some [] := by
  simp [fromFractionGo, hz]

theorem fromFractionGo_spec :
    ∀ e, e ≤ 13 → ∀ (f : Frac) (r : Nat), Frac.Valid f → f.asRat = (r : ℚ) / 256 →
      r < 2 ^ (e + 1) →
    ∃ l, fromFractionGo (e + 2) f (chunkF e) = Option.some l ∧
      (l.map fun t => (NoteType.getValue t).asRat).sum = (r : ℚ) / 256 ∧
      ∀ t ∈ l, ∃ j, j ≤ 13 ∧ (NoteType.getValue t).asRat = (2 ^ j : ℚ) / 256 := by
  intro e
  induction e with
  | zero =>
    intro _ f r hv hval hr
    have hdf : f.den ≠ 0 := by
      have := hv.1
      omega
    have hr2 : r < 2 := by simpa using hr
    interval_cases r
    · have hz : f.isZero = true := by
        apply (isZero_iff hdf).mpr
        rw [hval]
        norm_num
      refine ⟨[], ?_, by simp, by simp⟩
      have h := fromFractionGo_zero 1 f (chunkF 0) hz
      exact h
    · have hnz : f.isZero = false := by
        cases hb : f.isZero
        · rfl
        · exfalso
          have h0 := (isZero_iff hdf).mp hb
          rw [hval] at h0
          norm_num at h0
      have hle : (chunkF 0).num * f.den ≤ f.num * (chunkF 0).den := by
        rw [frac_le_iff (by decide) hv.1, hval, chunkF_asRat 0 (by omega)]
        norm_num
      obtain ⟨f2, hsub, hv2, hval2⟩ := sub_spec f (chunkF 0) hdf (by decide)
      have hz2 : f2.isZero = true := by
        apply (isZero_iff (by have := hv2.1; omega)).mpr
        rw [hval2, hval, chunkF_asRat 0 (by omega)]
        norm_num
      have hfd0 := fromDuration_chunkF 0 (by omega)
      have hdv0 : Frac.div (chunkF 0) ⟨2, 1⟩ = Option.some ⟨1, 512⟩ := by decide
      have hrec0 : fromFractionGo (0 + 1) f2 ⟨1, 512⟩ = Option.some [] :=
        fromFractionGo_zero 0 f2 ⟨1, 512⟩ hz2
      refine ⟨[ntOf 0], ?_, ?_, ?_⟩
      · show fromFractionGo (Nat.succ (0 + 1)) f (chunkF 0) = Option.some [ntOf 0]
        rw [fromFractionGo_succ, hnz]
        simp only [Bool.false_eq_true, if_false]
        rw [if_pos hle]
        simp only [hsub, hfd0, hdv0, hrec0]
      · rw [List.map_cons, List.map_nil, List.sum_cons, List.sum_nil,
          getValue_ntOf 0 (by omega)]
        norm_num
      · intro t ht
        cases ht with
        | head => exact ⟨0, by omega, getValue_ntOf 0 (by omega)⟩
        | tail _ h => cases h
  | succ e ih =>
    intro h13 f r hv hval hr
    have hdf : f.den ≠ 0 := by
      have := hv.1
      omega
    by_cases hz : r = 0
    · subst hz
      have hzf : f.isZero = true := by
        apply (isZero_iff hdf).mpr
        rw [hval]
        norm_num
      refine ⟨[], ?_, by simp, by simp⟩
      exact fromFractionGo_zero (e + 2) f (chunkF (e + 1)) hzf
    · have hrpos : 0 < r := Nat.pos_of_ne_zero hz
      have hnz : f.isZero = false := by
        cases hb : f.isZero
        · rfl
        · exfalso
          have h0 := (isZero_iff hdf).mp hb
          rw [hval] at h0
          rcases div_eq_zero_iff.mp h0 with h2 | h2
          · have : r = 0 := by exact_mod_cast h2
            omega
          · norm_num at h2
      have hvc : Frac.Valid (chunkF (e + 1)) := chunkF_valid (e + 1) (by omega)
      have hcval : (chunkF (e + 1)).asRat = (2 ^ (e + 1) : ℚ) / 256 :=
        chunkF_asRat (e + 1) (by omega)
      have hpow : (2 : Nat) ^ (e + 1 + 1) = 2 ^ (e + 1) * 2 := pow_succ 2 (e + 1)
      by_cases hge : 2 ^ (e + 1) ≤ r
      · -- the chunk fits: subtract it and recurse on the halved chunk
        have hle : (chunkF (e + 1)).num * f.den ≤ f.num * (chunkF (e + 1)).den := by
          rw [frac_le_iff hvc.1 hv.1, hcval, hval]
          apply div_le_div_of_nonneg_right ?_ (by norm_num)
          exact_mod_cast hge
        obtain ⟨f2, hsub, hv2, hval2⟩ := sub_spec f (chunkF (e + 1)) hdf
          (by have := hvc.1; omega)
        have hval2b : f2.asRat = ((r - 2 ^ (e + 1) : Nat) : ℚ) / 256 := by
          rw [hval2, hval, hcval, div_sub_div_same]
          congr 1
          push_cast [Nat.cast_sub hge]
          ring
        obtain ⟨l, hrec, hsum, hmem⟩ := ih (by omega) f2 (r - 2 ^ (e + 1)) hv2 hval2b
          (by omega)
        have hfd := fromDuration_chunkF (e + 1) (by omega)
        have hdv := chunkF_div2 e (by omega)
        refine ⟨ntOf (e + 1) :: l, ?_, ?_, ?_⟩
        · show fromFractionGo (Nat.succ (e + 2)) f (chunkF (e + 1)) =
            Option.some (ntOf (e + 1) :: l)
          rw [fromFractionGo_succ, hnz]
          simp only [Bool.false_eq_true, if_false]
          rw [if_pos hle]
          simp only [hsub, hfd, hdv, hrec]
        · rw [List.map_cons, List.sum_cons, hsum, getValue_ntOf (e + 1) (by omega),
            div_add_div_same]
          congr 1
          push_cast [Nat.cast_sub hge]
          ring
        · intro t ht
          cases ht with
          | head => exact ⟨e + 1, by omega, getValue_ntOf (e + 1) (by omega)⟩
          | tail _ h => exact hmem t h
      · -- the chunk does not fit: just halve it
        have hle : ¬ ((chunkF (e + 1)).num * f.den ≤ f.num * (chunkF (e + 1)).den) := by
          rw [frac_le_iff hvc.1 hv.1, hcval, hval]
          intro hcon
          have := (div_le_div_iff_of_pos_right (by norm_num : (0:ℚ) < 256)).mp hcon
          have h2 : (2 : ℚ) ^ (e + 1) ≤ (r : ℚ) := this
          have : (2 : Nat) ^ (e + 1) ≤ r := by exact_mod_cast h2
          omega
        obtain ⟨l, hrec, hsum, hmem⟩ := ih (by omega) f r hv hval (by omega)
        have hdv := chunkF_div2 e (by omega)
        refine ⟨l, ?_, hsum, hmem⟩
        show fromFractionGo (Nat.succ (e + 2)) f (chunkF (e + 1)) = Option.some l
        rw [fromFractionGo_succ, hnz]
        simp only [Bool.false_eq_true, if_false]
        rw [if_neg hle]
        simp only [hdv, hrec]

/-- C6 counterexample: `from_fraction(1/512)` does not return a
decomposition — the run reaches `from_duration(1, 512).unwrap()` on its
fifteenth iteration (independent of the fuel available) and panics, so
the claim's "for every nonnegative fraction" fails below the 1024th-note
unit. -/
theorem c6_from_fraction_counterexample :
    Frac.Valid ⟨1, 512⟩ ∧
    fromFraction 20 ⟨1, 512⟩ = Option.none ∧
    fromFraction 60 ⟨1, 512⟩ = Option.none := ⟨by decide, by decide, by decide⟩

/-- C6 (amended): for every fraction equal to `k/256` quarter notes with
`0 ≤ k ≤ 16383` (a multiple of the 1024th-note base unit small enough
that the greedy chunks cover it), `from_fraction` terminates and returns
a list of note types whose values sum to exactly `k/256`, each value a
power-of-two multiple of the base unit `1/256`; moreover
`from_fraction(0) = []` and `from_fraction(3/2) = [Quarter, Eighth]`. -/
theorem c6_from_fraction (k : Nat) (f : Frac) (hk : k ≤ 16383) (hv : Frac.Valid f)
    (hval : f.asRat = (k : ℚ) / 256) :
    (∃ l, fromFraction 15 f = Option.some l ∧
      (l.map fun t => (NoteType.getValue t).asRat).sum = (k : ℚ) / 256 ∧
      ∀ t ∈ l, ∃ j, j ≤ 13 ∧ (NoteType.getValue t).asRat = (2 ^ j : ℚ) / 256) ∧
    fromFraction 15 ⟨0, 1⟩ = Option.some [] ∧
    fromFraction 15 ⟨3, 2⟩ = Option.some [NoteType.quarter, NoteType.eighth] := by
  refine ⟨?_, by decide, by decide⟩
  have hr : k < 2 ^ (13 + 1) := by
    have : (2 : Nat) ^ (13 + 1) = 16384 := by norm_num
    omega
  obtain ⟨l, hrun, hsum, hmem⟩ := fromFractionGo_spec 13 (by omega) f k hv hval hr
  exact ⟨l, hrun, hsum, hmem⟩

theorem c6_from_fraction_witness :
    (256 : Nat) ≤ 16383 ∧ Frac.Valid ⟨1, 1⟩ ∧
    Frac.asRat ⟨1, 1⟩ = ((256 : Nat) : ℚ) / 256 ∧
    ((∃ l, fromFraction 15 ⟨1, 1⟩ = Option.some l ∧
      (l.map fun t => (NoteType.getValue t).asRat).sum = ((256 : Nat) : ℚ) / 256 ∧
      ∀ t ∈ l, ∃ j, j ≤ 13 ∧ (NoteType.getValue t).asRat = (2 ^ j : ℚ) / 256) ∧
    fromFraction 15 ⟨0, 1⟩ = Option.some [] ∧
    fromFraction 15 ⟨3, 2⟩ = Option.some [NoteType.quarter, NoteType.eighth]) :=
  ⟨by decide, by decide, by simp [Frac.asRat],
   c6_from_fraction 256 ⟨1, 1⟩ (by decide) (by decide) (by simp [Frac.asRat])⟩

/-! Claim C9: `BarNumbers::crosses_bar`. -/

/-- Division on the canonical rational carrier by cross multiplication
(kernel-computable, equal to `/` by `qdiv_eq`). -/
def qdiv (a b : ℚ) : ℚ := Rat.divInt (a.num * b.den) ((a.den : Int) * b.num)

/-- Multiplication of a rational by an integer (kernel-computable). -/
def qmulZ (k : Int) (b : ℚ) : ℚ := Rat.divInt (k * b.num) (b.den : Int)

theorem qdiv_eq (a b : ℚ) : qdiv a b = a / b := by
  by_cases hb : b = 0
  · subst hb
    rw [qdiv]
    simp
  · have h1 : ((a.den : Int) : ℚ) ≠ 0 := by exact_mod_cast a.den_nz
    have h2 : ((b.num : Int) : ℚ) ≠ 0 := by exact_mod_cast Rat.num_ne_zero.mpr hb
    have ha : a * ((a.den : Int) : ℚ) = ((a.num : Int) : ℚ) := by
      nth_rewrite 1 [← Rat.num_div_den a]
      push_cast
      rw [div_mul_cancel₀]
      exact_mod_cast a.den_nz
    have hb2 : b * ((b.den : Int) : ℚ) = ((b.num : Int) : ℚ) := by
      nth_rewrite 1 [← Rat.num_div_den b]
      push_cast
      rw [div_mul_cancel₀]
      exact_mod_cast b.den_nz
    rw [qdiv, Rat.divInt_eq_div]
    push_cast
    push_cast at ha hb2 h1 h2
    rw [div_eq_div_iff (mul_ne_zero h1 h2) hb, ← ha, ← hb2]
    ring

theorem qmulZ_eq (k : Int) (b : ℚ) : qmulZ k b = (k : ℚ) * b := by
  rw [qmulZ, Rat.divInt_eq_div]
  push_cast
  rw [mul_div_assoc, Rat.num_div_den]

/-- Model of `impl ops::Rem for Fraction` on the canonical carrier: for a
zero-valued divisor every path panics (the division produces a
denominator-zero fraction, whose `to_whole` aborts), hence `none`;
otherwise the value is the truncated-division remainder. -/
def qRem (a b : ℚ) : Option ℚ :=
  if b = 0 then Option.none
  else Option.some (qsub a (qmulZ (truncQ (qdiv a b)) b))

/-- Model of `BarNumbers::crosses_bar`.  `BarNumbers::new` keys `offsets`
by exactly the keys of `times` and stores each time signature unchanged
(the bar-count component is never read here), so the lookup
`offsets.range(..=start).rev().next()` is taken over the `times` entries
directly: the last entry with key at most `start`.  The outer `none` is
the `unwrap` panic on an empty range or the `%` panic; the
`time_sig.0 * 4` multiplication is `u8` arithmetic and wraps mod 256. -/
def crossesBar (ts : List (ℚ × Nat × Nat)) (start length : ℚ) : Option (Option ℚ) :=
  match (ts.filter fun t => decide (t.1 ≤ start)).getLast? with
  | Option.none => Option.none
  | Option.some (position, beats, unit) =>
    let tf : ℚ := Rat.divInt (((4 * beats) % 256 : Nat) : Int) ((unit : Nat) : Int)
    match qRem (qsub start position) tf with
    | Option.none => Option.none
    | Option.some r =>
      let nextBar : ℚ := qadd (qsub (qsub start position) r) tf
      Option.some (if nextBar < qadd (qsub start position) length
        then Option.some (qadd nextBar position)
        else Option.none)

/-- C9: whenever the times map has an entry at some position ≤ start
(with positive beats and beat-unit) and `crosses_bar(start, length)`
returns `Some(p)`, the crossing position satisfies
`start < p < start + length` — so the per-bar splitting loop of
`OutputScore::new` always splits strictly inside the remaining phrase. -/
theorem c9_crosses_bar (ts : List (ℚ × Nat × Nat)) (start length p : ℚ)
    (t0 : ℚ × Nat × Nat) (hmem : t0 ∈ ts) (hle : t0.1 ≤ start)
    (hbeats : 0 < t0.2.1) (hunit : 0 < t0.2.2)
    (hrun : crossesBar ts start length = Option.some (Option.some p)) :
    start < p ∧ p < start + length := by
  rw [crossesBar] at hrun
  cases hlast : (ts.filter fun t => decide (t.1 ≤ start)).getLast? with
  | none =>
    simp only [hlast] at hrun
    cases hrun
  | some t =>
    obtain ⟨position, beats, unit⟩ := t
    simp only [hlast] at hrun
    have hmemf : (position, beats, unit) ∈ ts.filter fun t => decide (t.1 ≤ start) :=
      List.mem_of_mem_getLast? hlast
    have hposle : position ≤ start := by
      have := List.of_mem_filter hmemf
      simpa using this
    cases hrem : qRem (qsub start position)
        (Rat.divInt (((4 * beats) % 256 : Nat) : Int) ((unit : Nat) : Int)) with
    | none =>
      simp only [hrem] at hrun
      cases hrun
    | some r =>
      simp only [hrem] at hrun
      rw [qRem] at hrem
      by_cases htf0 : (Rat.divInt (((4 * beats) % 256 : Nat) : Int)
          ((unit : Nat) : Int) : ℚ) = 0
      · rw [if_pos htf0] at hrem
        cases hrem
      · rw [if_neg htf0] at hrem
        have hreq : qsub start position = start - position := qsub_eq start position
        have hrval : r = (start - position) -
            ((truncQ ((start - position) /
              Rat.divInt (((4 * beats) % 256 : Nat) : Int) ((unit : Nat) : Int)) : Int) : ℚ) *
            Rat.divInt (((4 * beats) % 256 : Nat) : Int) ((unit : Nat) : Int) := by
          have := Option.some.inj hrem
          rw [← this, qsub_eq, qmulZ_eq, qdiv_eq, hreq]
        set tf : ℚ :=
          Rat.divInt (((4 * beats) % 256 : Nat) : Int) ((unit : Nat) : Int) with htfdef
        have htfnn : 0 ≤ tf := by
          rw [htfdef, Rat.divInt_eq_div]
          positivity
        have htfpos : 0 < tf := lt_of_le_of_ne htfnn (Ne.symm htf0)
        have hx : 0 ≤ start - position := sub_nonneg.mpr hposle
        have hyq : 0 ≤ (start - position) / tf := div_nonneg hx htfnn
        have htr : truncQ ((start - position) / tf) = ⌊(start - position) / tf⌋ :=
          truncQ_eq_floor _ hyq
        have hy : ((start - position) / tf) * tf = start - position :=
          div_mul_cancel₀ _ (ne_of_gt htfpos)
        have hr0 : 0 ≤ r := by
          rw [hrval, htr]
          have h0 : 0 ≤ (start - position) / tf - (⌊(start - position) / tf⌋ : ℚ) :=
            sub_nonneg.mpr (Int.floor_le _)
          have := mul_nonneg h0 htfnn
          rw [sub_mul, hy] at this
          linarith
        have hrlt : r < tf := by
          rw [hrval, htr]
          have h1 : (start - position) / tf - (⌊(start - position) / tf⌋ : ℚ) < 1 := by
            have := Int.lt_floor_add_one ((start - position) / tf)
            linarith
          have := mul_lt_mul_of_pos_right h1 htfpos
          rw [sub_mul, hy, one_mul] at this
          linarith
        by_cases hc : qadd (qsub (qsub start position) r) tf <
            qadd (qsub start position) length
        · rw [if_pos hc] at hrun
          have hp : p = qadd (qadd (qsub (qsub start position) r) tf) position := by
            have := Option.some.inj hrun
            exact (Option.some.inj this).symm
          rw [qadd_eq, qadd_eq, qsub_eq, qsub_eq] at hp
          rw [qadd_eq, qadd_eq, qsub_eq, qsub_eq] at hc
          constructor
          · rw [hp]
            linarith
          · rw [hp]
            linarith
        · rw [if_neg hc] at hrun
          exact absurd (Option.some.inj hrun) (by simp)

theorem c9_crosses_bar_witness :
    ((0 : ℚ), 4, 4) ∈ [((0 : ℚ), 4, 4)] ∧ ((0 : ℚ), 4, 4).1 ≤ 3 ∧
    0 < ((0 : ℚ), 4, 4).2.1 ∧ 0 < ((0 : ℚ), 4, 4).2.2 ∧
    crossesBar [((0 : ℚ), 4, 4)] 3 2 = Option.some (Option.some 4) ∧
    ((3 : ℚ) < 4 ∧ (4 : ℚ) < 3 + 2) :=
  ⟨by decide, by decide, by decide, by decide, by decide,
   c9_crosses_bar [((0 : ℚ), 4, 4)] 3 2 4 ((0 : ℚ), 4, 4) (by decide) (by decide)
     (by decide) (by decide) (by decide)⟩

/-! Claim C3: `Phrase::split` / `Phrase::merge`.  First, element-level
facts about rebuilding an element by successive `merge_note` calls. -/

/-- Well-formed element: a chord carries at least two notes (a single
note is stored as `note`) with pairwise distinct pitches. -/
def WFel : PhraseElement → Prop
  | PhraseElement.note _ => True
  | PhraseElement.chord c =>
    2 ≤ c.length ∧ List.Pairwise (fun a b => a.pitchEquals b = false) c

theorem pitchEquals_symm (a b : Note) : a.pitchEquals b = b.pitchEquals a := by
  rw [Bool.eq_iff_iff]
  simp only [Note.pitchEquals, Bool.and_eq_true, beq_iff_eq]
  constructor
  · rintro ⟨⟨h1, h2⟩, h3⟩
    exact ⟨⟨h1.symm, h2.symm⟩, h3.symm⟩
  · rintro ⟨⟨h1, h2⟩, h3⟩
    exact ⟨⟨h1.symm, h2.symm⟩, h3.symm⟩

theorem containsNote_notesOf (el : PhraseElement) (n : Note) :
    el.containsNote n = (notesOf el).any fun m => m.pitchEquals n := by
  cases el <;> simp [PhraseElement.containsNote, notesOf]

theorem mergeNote_note_ne {m n : Note} (h : n.pitchEquals m = false) :
    (PhraseElement.note m).mergeNote n = PhraseElement.chord [m, n] := by
  rw [PhraseElement.mergeNote, if_neg]
  simp [h]

theorem mergeNote_chord_ne {c : List Note} {n : Note}
    (h : (PhraseElement.chord c).containsNote n = false) :
    (PhraseElement.chord c).mergeNote n = PhraseElement.chord (c ++ [n]) := by
  rw [PhraseElement.mergeNote, if_neg]
  rw [PhraseElement.containsNote] at h
  simp [h]

theorem containsNote_mergeNote {el : PhraseElement} {m : Note}
    (hc : el.containsNote m = false) (x : Note) :
    (el.mergeNote m).containsNote x = (el.containsNote x || m.pitchEquals x) := by
  cases el with
  | note a =>
    rw [mergeNote_note_ne]
    · simp [PhraseElement.containsNote]
    · rw [pitchEquals_symm]
      simpa [PhraseElement.containsNote] using hc
  | chord c =>
    rw [mergeNote_chord_ne hc]
    simp [PhraseElement.containsNote]

theorem hasStopTieB_false {el : PhraseElement} {n : Note}
    (hc : el.containsNote n = false) : el.hasStopTieB n = false := by
  cases el with
  | note a =>
    rw [PhraseElement.hasStopTieB]
    rw [PhraseElement.containsNote] at hc
    simp [hc]
  | chord c =>
    rw [PhraseElement.hasStopTieB]
    rw [PhraseElement.containsNote] at hc
    have : c.find? (fun m => m.pitchEquals n) = Option.none := by
      rw [List.find?_eq_none]
      intro x hx
      simp [List.any_eq_false.mp hc x hx]
    rw [this]

theorem foldl_merge_chord :
    ∀ (rest c : List Note),
      (∀ b ∈ rest, ∀ a ∈ c, a.pitchEquals b = false) →
      List.Pairwise (fun a b => a.pitchEquals b = false) rest →
      rest.foldl (fun el m => el.mergeNote m) (PhraseElement.chord c) =
        PhraseElement.chord (c ++ rest) := by
  intro rest
  induction rest with
  | nil =>
    intro c _ _
    simp
  | cons m rest2 ih =>
    intro c hcross hpw
    rw [List.foldl_cons]
    have hcm : (PhraseElement.chord c).containsNote m = false := by
      rw [PhraseElement.containsNote, List.any_eq_false]
      intro a ha
      simp [hcross m (List.mem_cons_self m rest2) a ha]
    rw [mergeNote_chord_ne hcm]
    have := ih (c ++ [m]) ?_ (List.pairwise_cons.mp hpw).2
    · rw [this]
      simp
    · intro b hb a ha
      rcases List.mem_append.mp ha with ha2 | ha2
      · exact hcross b (List.mem_cons_of_mem m hb) a ha2
      · have : a = m := by simpa using ha2
        subst this
        exact (List.pairwise_cons.mp hpw).1 b hb

/-- Rebuilding a well-formed element note by note yields the element. -/
theorem rebuild_el {el : PhraseElement} (hWF : WFel el) :
    ∀ n rest, notesOf el = n :: rest →
      rest.foldl (fun e m => e.mergeNote m) (PhraseElement.note n) = el := by
  intro n rest hns
  cases el with
  | note a =>
    rw [notesOf] at hns
    cases hns
    rfl
  | chord c =>
    rw [notesOf] at hns
    subst hns
    obtain ⟨hlen, hpw⟩ := hWF
    cases rest with
    | nil => simp at hlen
    | cons m rest2 =>
      rw [List.foldl_cons]
      have hpw1 := List.pairwise_cons.mp hpw
      have hm : m.pitchEquals n = false := by
        rw [pitchEquals_symm]
        exact hpw1.1 m (List.mem_cons_self m rest2)
      rw [mergeNote_note_ne hm]
      have hpw2 := List.pairwise_cons.mp hpw1.2
      refine foldl_merge_chord rest2 [n, m] ?_ hpw2.2
      intro b hb a ha
      rcases List.mem_cons.mp ha with rfl | ha2
      · exact hpw1.1 b (List.mem_cons_of_mem m hb)
      · have ham : a = m := by simpa using ha2
        subst ham
        exact hpw2.1 b hb

theorem notesOf_startTieAll (el : PhraseElement) :
    notesOf el.startTieAll = (notesOf el).map fun m => { m with tie := m.tie.addStart } := by
  cases el <;> rfl

theorem notesOf_stopTieAll (el : PhraseElement) :
    notesOf el.stopTieAll = (notesOf el).map fun m => { m with tie := m.tie.addStop } := by
  cases el <;> rfl

theorem pitchEquals_tie (a b : Note) (t t2 : Tie) :
    Note.pitchEquals { a with tie := t } { b with tie := t2 } = a.pitchEquals b := rfl

theorem WFel_startTieAll {el : PhraseElement} (h : WFel el) : WFel el.startTieAll := by
  cases el with
  | note a => trivial
  | chord c =>
    obtain ⟨hlen, hpw⟩ := h
    have hrw : (PhraseElement.chord c).startTieAll
        = PhraseElement.chord (c.map fun m => { m with tie := m.tie.addStart }) := rfl
    rw [hrw]
    refine ⟨by simpa using hlen, ?_⟩
    rw [List.pairwise_map]
    exact hpw.imp fun h => h

theorem WFel_stopTieAll {el : PhraseElement} (h : WFel el) : WFel el.stopTieAll := by
  cases el with
  | note a => trivial
  | chord c =>
    obtain ⟨hlen, hpw⟩ := h
    have hrw : (PhraseElement.chord c).stopTieAll
        = PhraseElement.chord (c.map fun m => { m with tie := m.tie.addStop }) := rfl
    rw [hrw]
    refine ⟨by simpa using hlen, ?_⟩
    rw [List.pairwise_map]
    exact hpw.imp fun h => h

/-! Inserting at a fresh position past the end of a phrase appends. -/

theorem mapInsert_append {q : Phrase} {k : ℚ} (hq : ∀ e ∈ q, e.pos < k)
    (v : PhraseElement) (d : ℚ) : mapInsert q k v d = q ++ [⟨k, v, d⟩] := by
  induction q with
  | nil => rfl
  | cons e es ih =>
    have hk : e.pos < k := hq e (List.mem_cons_self e es)
    rw [mapInsert, if_neg (asymm hk), if_neg (ne_of_gt hk),
      ih fun x hx => hq x (List.mem_cons_of_mem e hx), List.cons_append]

theorem mapInsert_append_replace {q : Phrase} {k : ℚ} (hq : ∀ e ∈ q, e.pos < k)
    (v0 : PhraseElement) (d0 : ℚ) (v : PhraseElement) (d : ℚ) :
    mapInsert (q ++ [⟨k, v0, d0⟩]) k v d = q ++ [⟨k, v, d⟩] := by
  induction q with
  | nil =>
    rw [List.nil_append, mapInsert]
    rw [if_neg (lt_irrefl k), if_pos rfl]
    rfl
  | cons e es ih =>
    have hk : e.pos < k := hq e (List.mem_cons_self e es)
    rw [List.cons_append, mapInsert, if_neg (asymm hk), if_neg (ne_of_gt hk),
      ih fun x hx => hq x (List.mem_cons_of_mem e hx), List.cons_append]

theorem lookup_eq_none {q : Phrase} {k : ℚ} (hq : ∀ e ∈ q, e.pos ≠ k) :
    lookup q k = Option.none := by
  rw [lookup]
  have : q.find? (fun e => decide (e.pos = k)) = Option.none := by
    rw [List.find?_eq_none]
    intro e he
    simp [hq e he]
  rw [this]

theorem lookup_append_self {q : Phrase} {k : ℚ} (hq : ∀ e ∈ q, e.pos ≠ k)
    (v : PhraseElement) (d : ℚ) :
    lookup (q ++ [⟨k, v, d⟩]) k = Option.some (v, d) := by
  rw [lookup, List.find?_append]
  have h1 : q.find? (fun e => decide (e.pos = k)) = Option.none := by
    rw [List.find?_eq_none]
    intro e he
    simp [hq e he]
  rw [h1]
  simp

theorem nextOverlap_none_of_le {q : Phrase} {k : ℚ} (hq : ∀ e ∈ q, e.pos ≤ k)
    (dur : ℚ) : nextOverlap q k dur = Option.none := by
  rw [nextOverlap]
  have : q.find? (fun e => decide (k < e.pos)) = Option.none := by
    rw [List.find?_eq_none]
    intro e he
    simpa using not_lt.mpr (hq e he)
  rw [this]

theorem prevOverlap_none_of_ends {q : Phrase} {k : ℚ}
    (hq : ∀ e ∈ q, e.pos < k → e.pos + e.dur ≤ k) : prevOverlap q k = Option.none := by
  rw [prevOverlap]
  cases hl : (below q k).getLast? with
  | none => rfl
  | some x =>
    obtain ⟨e, he, hkd, hlt⟩ := below_mem_elim (List.mem_of_mem_getLast? hl)
    have hend : e.pos + e.dur ≤ k := hq e he hlt
    have hn : ¬ (qadd x.1 x.2 > k) := by
      rw [qadd_eq, ← hkd]
      exact not_lt.mpr hend
    show (if qadd x.1 x.2 > k then Option.some x.1 else Option.none) = Option.none
    rw [if_neg hn]

theorem insGo_seq_nil (fl : Nat) (p : Phrase) (pos dur : ℚ) :
    insGo (Nat.succ fl) p (Ins.seq [] pos dur) = Option.some p := rfl

theorem insGo_seq_cons (fl : Nat) (p : Phrase) (n : Note) (rest : List Note)
    (pos dur : ℚ) :
    insGo (Nat.succ fl) p (Ins.seq (n :: rest) pos dur) =
      match insGo fl p (Ins.one n pos dur) with
      | Option.some p2 => insGo fl p2 (Ins.seq rest pos dur)
      | Option.none => Option.none := rfl

theorem insOne_fresh (pos dur : ℚ) (fl : Nat) (q : Phrase) (m : Note)
    (hq : ∀ e ∈ q, e.pos < pos ∧ e.pos + e.dur ≤ pos) :
    insGo (Nat.succ fl) q (Ins.one m pos dur) =
      Option.some (q ++ [⟨pos, PhraseElement.note m, dur⟩]) := by
  rw [insGo_one_eq]
  have hno : nextOverlap q pos dur = Option.none :=
    nextOverlap_none_of_le (fun e he => le_of_lt (hq e he).1) dur
  have hpo : prevOverlap q pos = Option.none :=
    prevOverlap_none_of_ends fun e he _ => (hq e he).2
  have hlk : lookup q pos = Option.none :=
    lookup_eq_none fun e he => ne_of_lt (hq e he).1
  simp only [hno, coreRun, hpo, hlk]
  rw [mapInsert_append (fun e he => (hq e he).1)]

theorem insOne_append (pos dur : ℚ) (fl : Nat) (q : Phrase) (cur : PhraseElement)
    (m : Note) (hq : ∀ e ∈ q, e.pos < pos ∧ e.pos + e.dur ≤ pos)
    (hc : cur.containsNote m = false) :
    insGo (Nat.succ fl) (q ++ [⟨pos, cur, dur⟩]) (Ins.one m pos dur) =
      Option.some (q ++ [⟨pos, cur.mergeNote m, dur⟩]) := by
  rw [insGo_one_eq]
  have hkeys : ∀ e ∈ q ++ [(⟨pos, cur, dur⟩ : Entry)], e.pos ≤ pos := by
    intro e he
    rcases List.mem_append.mp he with h1 | h1
    · exact le_of_lt (hq e h1).1
    · have : e = ⟨pos, cur, dur⟩ := by simpa using h1
      rw [this]
  have hno : nextOverlap (q ++ [⟨pos, cur, dur⟩]) pos dur = Option.none :=
    nextOverlap_none_of_le hkeys dur
  have hpo : prevOverlap (q ++ [⟨pos, cur, dur⟩]) pos = Option.none := by
    apply prevOverlap_none_of_ends
    intro e he hlt
    rcases List.mem_append.mp he with h1 | h1
    · exact (hq e h1).2
    · have : e = ⟨pos, cur, dur⟩ := by simpa using h1
      rw [this] at hlt
      exact absurd hlt (lt_irrefl pos)
  have hlk : lookup (q ++ [⟨pos, cur, dur⟩]) pos = Option.some (cur, dur) :=
    lookup_append_self (fun e he => ne_of_lt (hq e he).1) cur dur
  have hst : cur.hasStopTieB m = false := hasStopTieB_false hc
  simp only [hno, coreRun, hpo, hlk, lt_self_iff_false, if_false, eq_self_iff_true,
    if_true, ite_true, ite_false, hst, Bool.false_eq_true]
  rw [mapInsert_append_replace (fun e he => (hq e he).1)]

theorem insSeq_append (pos dur : ℚ) :
    ∀ (ns : List Note) (fl : Nat) (q : Phrase) (cur : PhraseElement),
      ns.length + 1 ≤ fl →
      (∀ e ∈ q, e.pos < pos ∧ e.pos + e.dur ≤ pos) →
      (∀ m ∈ ns, cur.containsNote m = false) →
      List.Pairwise (fun a b => a.pitchEquals b = false) ns →
      insGo fl (q ++ [⟨pos, cur, dur⟩]) (Ins.seq ns pos dur) =
        Option.some (q ++ [⟨pos, ns.foldl (fun el m => el.mergeNote m) cur, dur⟩]) := by
  intro ns
  induction ns with
  | nil =>
    intro fl q cur hfl hq _ _
    cases fl with
    | zero => omega
    | succ fl2 =>
      rw [insGo_seq_nil, List.foldl_nil]
  | cons m rest ih =>
    intro fl q cur hfl hq hcont hpw
    cases fl with
    | zero => omega
    | succ fl2 =>
      cases fl2 with
      | zero => simp at hfl
      | succ fl3 =>
        rw [insGo_seq_cons]
        rw [insOne_append pos dur fl3 q cur m hq
          (hcont m (List.mem_cons_self m rest))]
        show insGo (Nat.succ fl3) (q ++ [⟨pos, cur.mergeNote m, dur⟩])
            (Ins.seq rest pos dur) =
          Option.some (q ++
            [⟨pos, (m :: rest).foldl (fun el m => el.mergeNote m) cur, dur⟩])
        rw [ih (Nat.succ fl3) q (cur.mergeNote m) (by simpa using hfl) hq ?_
          (List.pairwise_cons.mp hpw).2]
        · rw [List.foldl_cons]
        · intro x hx
          rw [containsNote_mergeNote (hcont m (List.mem_cons_self m rest)) x,
            hcont x (List.mem_cons_of_mem m hx),
            (List.pairwise_cons.mp hpw).1 x hx]
          rfl

/-- Adding a well-formed element at a position past the end of the phrase
appends exactly one entry holding that element. -/
theorem addElement_append (fl : Nat) (q : Phrase) (el : PhraseElement) (pos dur : ℚ)
    (hfl : (notesOf el).length + 1 ≤ fl) (hWF : WFel el)
    (hpw : List.Pairwise (fun a b => a.pitchEquals b = false) (notesOf el))
    (hq : ∀ e ∈ q, e.pos < pos ∧ e.pos + e.dur ≤ pos) :
    addElement fl q el pos dur = Option.some (q ++ [⟨pos, el, dur⟩]) := by
  rw [addElement]
  cases hns : notesOf el with
  | nil =>
    exfalso
    cases el with
    | note a => simp [notesOf] at hns
    | chord c =>
      rw [notesOf] at hns
      subst hns
      exact absurd hWF.1 (by simp)
  | cons n rest =>
    rw [hns] at hfl hpw
    cases fl with
    | zero => omega
    | succ fl2 =>
      cases fl2 with
      | zero => simp at hfl
      | succ fl3 =>
        rw [insGo_seq_cons]
        rw [insOne_fresh pos dur fl3 q n hq]
        show insGo (Nat.succ fl3) (q ++ [⟨pos, PhraseElement.note n, dur⟩])
            (Ins.seq rest pos dur) = Option.some (q ++ [⟨pos, el, dur⟩])
        rw [insSeq_append pos dur rest (Nat.succ fl3) q (PhraseElement.note n)
          (by simpa using hfl) hq ?_ (List.pairwise_cons.mp hpw).2]
        · rw [rebuild_el hWF n rest hns]
        · intro x hx
          have := (List.pairwise_cons.mp hpw).1 x hx
          rw [PhraseElement.containsNote, this]

/-- What `split` is expected to keep on the left of `sp` (the claim's
exception made precise): whole entries ending by `sp`, plus the clipped,
start-tied initial part of an entry containing `sp` strictly inside. -/
def leftPart (sp : ℚ) (p : Phrase) : Phrase :=
  p.filterMap fun e =>
    if e.pos + e.dur ≤ sp then Option.some e
    else if e.pos < sp ∧ e.pos + e.dur > sp then
      Option.some ⟨e.pos, e.el.startTieAll, sp - e.pos⟩
    else Option.none

/-- What `split` is expected to put on the right of `sp`. -/
def rightPart (sp : ℚ) (p : Phrase) : Phrase :=
  p.filterMap fun e =>
    if e.pos + e.dur ≤ sp then Option.none
    else if e.pos < sp ∧ e.pos + e.dur > sp then
      Option.some ⟨sp, e.el.stopTieAll, e.pos + e.dur - sp⟩
    else Option.some e

theorem WFel_pairwise {el : PhraseElement} (h : WFel el) :
    List.Pairwise (fun a b => a.pitchEquals b = false) (notesOf el) := by
  cases el with
  | note a => simp [notesOf]
  | chord c => exact h.2

theorem leftPart_cons_in {sp : ℚ} {e : Entry} (h : e.pos + e.dur ≤ sp)
    (rest : List Entry) : leftPart sp (e :: rest) = e :: leftPart sp rest := by
  rw [leftPart, leftPart, List.filterMap_cons]
  rw [if_pos h]

theorem rightPart_cons_in {sp : ℚ} {e : Entry} (h : e.pos + e.dur ≤ sp)
    (rest : List Entry) : rightPart sp (e :: rest) = rightPart sp rest := by
  rw [rightPart, rightPart, List.filterMap_cons]
  rw [if_pos h]

theorem leftPart_cons_mid {sp : ℚ} {e : Entry} (h1 : ¬ (e.pos + e.dur ≤ sp))
    (h2 : e.pos < sp ∧ e.pos + e.dur > sp) (rest : List Entry) :
    leftPart sp (e :: rest) =
      ⟨e.pos, e.el.startTieAll, sp - e.pos⟩ :: leftPart sp rest := by
  rw [leftPart, leftPart, List.filterMap_cons]
  rw [if_neg h1, if_pos h2]

theorem rightPart_cons_mid {sp : ℚ} {e : Entry} (h1 : ¬ (e.pos + e.dur ≤ sp))
    (h2 : e.pos < sp ∧ e.pos + e.dur > sp) (rest : List Entry) :
    rightPart sp (e :: rest) =
      ⟨sp, e.el.stopTieAll, e.pos + e.dur - sp⟩ :: rightPart sp rest := by
  rw [rightPart, rightPart, List.filterMap_cons]
  rw [if_neg h1, if_pos h2]

theorem leftPart_cons_out {sp : ℚ} {e : Entry} (h1 : ¬ (e.pos + e.dur ≤ sp))
    (h2 : ¬ (e.pos < sp ∧ e.pos + e.dur > sp)) (rest : List Entry) :
    leftPart sp (e :: rest) = leftPart sp rest := by
  rw [leftPart, leftPart, List.filterMap_cons]
  rw [if_neg h1, if_neg h2]

theorem rightPart_cons_out {sp : ℚ} {e : Entry} (h1 : ¬ (e.pos + e.dur ≤ sp))
    (h2 : ¬ (e.pos < sp ∧ e.pos + e.dur > sp)) (rest : List Entry) :
    rightPart sp (e :: rest) = e :: rightPart sp rest := by
  rw [rightPart, rightPart, List.filterMap_cons]
  rw [if_neg h1, if_neg h2]

theorem splitP_nil (fuel : Nat) (sp : ℚ) (acc : Phrase × Phrase) :
    splitP fuel sp [] acc = Option.some acc := rfl

theorem splitP_cons (fuel : Nat) (sp : ℚ) (e : Entry) (es : List Entry)
    (acc : Phrase × Phrase) :
    splitP fuel sp (e :: es) acc =
      if qadd e.pos e.dur ≤ sp then
        match addElement fuel acc.1 e.el e.pos e.dur with
        | Option.some p1 => splitP fuel sp es (p1, acc.2)
        | Option.none => Option.none
      else if e.pos < sp ∧ qadd e.pos e.dur > sp then
        match addElement fuel acc.1 e.el.startTieAll e.pos (qsub sp e.pos) with
        | Option.some p1 =>
          match addElement fuel acc.2 e.el.stopTieAll sp (qsub (qadd e.pos e.dur) sp) with
          | Option.some p2 => splitP fuel sp es (p1, p2)
          | Option.none => Option.none
        | Option.none => Option.none
      else
        match addElement fuel acc.2 e.el e.pos e.dur with
        | Option.some p2 => splitP fuel sp es (acc.1, p2)
        | Option.none => Option.none := rfl

theorem splitGo_spec (sp : ℚ) :
    ∀ (rest : List Entry) (fuel : Nat) (acc1 acc2 : Phrase),
      (∀ e ∈ rest, WFel e.el ∧ (notesOf e.el).length + 1 ≤ fuel ∧ 0 < e.dur) →
      List.Pairwise (fun a b => a.pos + a.dur ≤ b.pos) rest →
      (∀ a ∈ acc1, ∀ e ∈ rest, a.pos < e.pos ∧ a.pos + a.dur ≤ e.pos) →
      (∀ a ∈ acc2, sp ≤ a.pos ∧ ∀ e ∈ rest, a.pos < e.pos ∧ a.pos + a.dur ≤ e.pos) →
      splitP fuel sp rest (acc1, acc2) =
        Option.some (acc1 ++ leftPart sp rest, acc2 ++ rightPart sp rest) := by
  intro rest
  induction rest with
  | nil =>
    intro fuel acc1 acc2 _ _ _ _
    rw [splitP_nil]
    simp [leftPart, rightPart]
  | cons e rest2 ih =>
    intro fuel acc1 acc2 hfe hsort hA1 hA2
    obtain ⟨hWFe, hfl, hdur⟩ := hfe e (List.mem_cons_self e rest2)
    have hsort2 := List.pairwise_cons.mp hsort
    have hfe2 : ∀ x ∈ rest2, WFel x.el ∧ (notesOf x.el).length + 1 ≤ fuel ∧ 0 < x.dur :=
      fun x hx => hfe x (List.mem_cons_of_mem e hx)
    rw [splitP_cons]
    by_cases hc1 : qadd e.pos e.dur ≤ sp
    · have hc1q : e.pos + e.dur ≤ sp := by rwa [qadd_eq] at hc1
      rw [if_pos hc1]
      rw [addElement_append fuel acc1 e.el e.pos e.dur hfl hWFe (WFel_pairwise hWFe)
        (fun a ha => (hA1 a ha e (List.mem_cons_self e rest2)))]
      show splitP fuel sp rest2 (acc1 ++ [e], acc2) =
        Option.some (acc1 ++ leftPart sp (e :: rest2), acc2 ++ rightPart sp (e :: rest2))
      rw [ih fuel (acc1 ++ [e]) acc2 hfe2 hsort2.2 ?_ ?_]
      · rw [leftPart_cons_in hc1q, rightPart_cons_in hc1q]
        simp
      · intro a ha x hx
        rcases List.mem_append.mp ha with h | h
        · exact hA1 a h x (List.mem_cons_of_mem e hx)
        · have hae : a = e := by simpa using h
          subst hae
          have hend := hsort2.1 x hx
          exact ⟨by linarith, hend⟩
      · intro a ha
        obtain ⟨h1, h2⟩ := hA2 a ha
        exact ⟨h1, fun x hx => h2 x (List.mem_cons_of_mem e hx)⟩
    · have hc1q : ¬ (e.pos + e.dur ≤ sp) := by rwa [qadd_eq] at hc1
      rw [if_neg hc1]
      by_cases hc2 : e.pos < sp ∧ qadd e.pos e.dur > sp
      · have hc2q : e.pos < sp ∧ e.pos + e.dur > sp := by rwa [qadd_eq] at hc2
        rw [if_pos hc2]
        rw [addElement_append fuel acc1 e.el.startTieAll e.pos (qsub sp e.pos)
          (by rw [notesOf_startTieAll]; simpa using hfl) (WFel_startTieAll hWFe)
          (WFel_pairwise (WFel_startTieAll hWFe))
          (fun a ha => (hA1 a ha e (List.mem_cons_self e rest2)))]
        rw [addElement_append fuel acc2 e.el.stopTieAll sp (qsub (qadd e.pos e.dur) sp)
          (by rw [notesOf_stopTieAll]; simpa using hfl) (WFel_stopTieAll hWFe)
          (WFel_pairwise (WFel_stopTieAll hWFe)) ?_]
        · show splitP fuel sp rest2
              (acc1 ++ [⟨e.pos, e.el.startTieAll, qsub sp e.pos⟩],
               acc2 ++ [⟨sp, e.el.stopTieAll, qsub (qadd e.pos e.dur) sp⟩]) =
            Option.some (acc1 ++ leftPart sp (e :: rest2),
              acc2 ++ rightPart sp (e :: rest2))
          rw [ih fuel _ _ hfe2 hsort2.2 ?_ ?_]
          · rw [leftPart_cons_mid hc1q hc2q, rightPart_cons_mid hc1q hc2q]
            simp only [qadd_eq, qsub_eq]
            simp
          · intro a ha x hx
            rcases List.mem_append.mp ha with h | h
            · exact hA1 a h x (List.mem_cons_of_mem e hx)
            · have hae : a = ⟨e.pos, e.el.startTieAll, qsub sp e.pos⟩ := by simpa using h
              subst hae
              have hend := hsort2.1 x hx
              simp only [qsub_eq]
              constructor
              · linarith
              · linarith
          · intro a ha
            rcases List.mem_append.mp ha with h | h
            · obtain ⟨h1, h2⟩ := hA2 a h
              exact ⟨h1, fun x hx => h2 x (List.mem_cons_of_mem e hx)⟩
            · have hae : a = ⟨sp, e.el.stopTieAll, qsub (qadd e.pos e.dur) sp⟩ := by
                simpa using h
              subst hae
              refine ⟨le_refl sp, ?_⟩
              intro x hx
              have hend := hsort2.1 x hx
              simp only [qadd_eq, qsub_eq]
              constructor
              · linarith
              · linarith
        · intro a ha
          obtain ⟨h1, h2⟩ := hA2 a ha
          have := (h2 e (List.mem_cons_self e rest2)).1
          exact absurd hc2q.1 (by push_neg; linarith)
      · have hc2q : ¬ (e.pos < sp ∧ e.pos + e.dur > sp) := by rwa [qadd_eq] at hc2
        rw [if_neg hc2]
        have hsple : sp ≤ e.pos := by
          by_contra hcon
          push_neg at hcon
          exact hc2q ⟨hcon, by linarith⟩
        rw [addElement_append fuel acc2 e.el e.pos e.dur hfl hWFe (WFel_pairwise hWFe)
          (fun a ha => ((hA2 a ha).2 e (List.mem_cons_self e rest2)))]
        show splitP fuel sp rest2 (acc1, acc2 ++ [e]) =
          Option.some (acc1 ++ leftPart sp (e :: rest2), acc2 ++ rightPart sp (e :: rest2))
        rw [ih fuel acc1 (acc2 ++ [e]) hfe2 hsort2.2 ?_ ?_]
        · rw [leftPart_cons_out hc1q hc2q, rightPart_cons_out hc1q hc2q]
          simp
        · intro a ha x hx
          exact hA1 a ha x (List.mem_cons_of_mem e hx)
        · intro a ha
          rcases List.mem_append.mp ha with h | h
          · obtain ⟨h1, h2⟩ := hA2 a h
            exact ⟨h1, fun x hx => h2 x (List.mem_cons_of_mem e hx)⟩
          · have hae : a = e := by simpa using h
            subst hae
            refine ⟨hsple, ?_⟩
            intro x hx
            have hend := hsort2.1 x hx
            exact ⟨by linarith, hend⟩

theorem mergeP_append : ∀ (p2 : List Entry) (fuel : Nat) (p1 : Phrase),
    (∀ b ∈ p2, WFel b.el ∧ (notesOf b.el).length + 1 ≤ fuel ∧ 0 < b.dur) →
    List.Pairwise (fun a b => a.pos + a.dur ≤ b.pos) p2 →
    (∀ a ∈ p1, ∀ b ∈ p2, a.pos < b.pos ∧ a.pos + a.dur ≤ b.pos) →
    mergeP fuel p1 p2 = Option.some (p1 ++ p2) := by
  intro p2
  induction p2 with
  | nil =>
    intro fuel p1 _ _ _
    rw [mergeP]
    simp
  | cons b bs ih =>
    intro fuel p1 hfe hsort hA
    obtain ⟨hWFb, hflb, hdurb⟩ := hfe b (List.mem_cons_self b bs)
    have hsort2 := List.pairwise_cons.mp hsort
    rw [mergeP]
    rw [addElement_append fuel p1 b.el b.pos b.dur hflb hWFb (WFel_pairwise hWFb)
      (fun a ha => hA a ha b (List.mem_cons_self b bs))]
    show mergeP fuel (p1 ++ [b]) bs = Option.some (p1 ++ b :: bs)
    rw [ih fuel (p1 ++ [b]) (fun x hx => hfe x (List.mem_cons_of_mem b hx)) hsort2.2 ?_]
    · simp
    · intro a ha x hx
      rcases List.mem_append.mp ha with h | h
      · exact hA a h x (List.mem_cons_of_mem b hx)
      · have hab : a = b := by simpa using h
        subst hab
        have hend := hsort2.1 x hx
        exact ⟨by linarith, hend⟩

theorem leftPart_cases {sp : ℚ} {p : Phrase} {b : Entry} (hb : b ∈ leftPart sp p) :
    ∃ e ∈ p, (e.pos + e.dur ≤ sp ∧ b = e) ∨
      (¬ (e.pos + e.dur ≤ sp) ∧ e.pos < sp ∧ e.pos + e.dur > sp ∧
        b = ⟨e.pos, e.el.startTieAll, sp - e.pos⟩) := by
  obtain ⟨e, he, hfe⟩ := List.mem_filterMap.mp hb
  by_cases h1 : e.pos + e.dur ≤ sp
  · rw [if_pos h1] at hfe
    exact ⟨e, he, Or.inl ⟨h1, (Option.some.inj hfe).symm⟩⟩
  · rw [if_neg h1] at hfe
    by_cases h2 : e.pos < sp ∧ e.pos + e.dur > sp
    · rw [if_pos h2] at hfe
      exact ⟨e, he, Or.inr ⟨h1, h2.1, h2.2, (Option.some.inj hfe).symm⟩⟩
    · rw [if_neg h2] at hfe
      cases hfe

theorem rightPart_cases {sp : ℚ} {p : Phrase} {b : Entry} (hb : b ∈ rightPart sp p) :
    ∃ e ∈ p, ¬ (e.pos + e.dur ≤ sp) ∧
      ((e.pos < sp ∧ e.pos + e.dur > sp ∧ b = ⟨sp, e.el.stopTieAll, e.pos + e.dur - sp⟩) ∨
       (¬ (e.pos < sp ∧ e.pos + e.dur > sp) ∧ b = e)) := by
  obtain ⟨e, he, hfe⟩ := List.mem_filterMap.mp hb
  by_cases h1 : e.pos + e.dur ≤ sp
  · rw [if_pos h1] at hfe
    cases hfe
  · rw [if_neg h1] at hfe
    by_cases h2 : e.pos < sp ∧ e.pos + e.dur > sp
    · rw [if_pos h2] at hfe
      exact ⟨e, he, h1, Or.inl ⟨h2.1, h2.2, (Option.some.inj hfe).symm⟩⟩
    · rw [if_neg h2] at hfe
      exact ⟨e, he, h1, Or.inr ⟨h2, (Option.some.inj hfe).symm⟩⟩

/-- Every left-half entry starts before `sp` and ends by `sp`. -/
theorem leftPart_bounds {sp : ℚ} {p : Phrase} (hpd : PosDur p) {a : Entry}
    (ha : a ∈ leftPart sp p) : a.pos < sp ∧ a.pos + a.dur ≤ sp := by
  obtain ⟨e, he, hcase⟩ := leftPart_cases ha
  have hde := hpd e he
  rcases hcase with ⟨h1, rfl⟩ | ⟨_, h2, _, rfl⟩
  · exact ⟨by linarith, h1⟩
  · constructor
    · exact h2
    · simp only []
      linarith

/-- Every right-half entry starts at or after `sp`. -/
theorem rightPart_bounds {sp : ℚ} {p : Phrase} {b : Entry}
    (hb : b ∈ rightPart sp p) : sp ≤ b.pos := by
  obtain ⟨e, he, h1, hcase⟩ := rightPart_cases hb
  rcases hcase with ⟨h2, h3, rfl⟩ | ⟨h2, rfl⟩
  · exact le_refl sp
  · push_neg at h2
    by_contra hcon
    push_neg at hcon
    exact h1 (by linarith [h2 hcon])

theorem rightPart_sorted {sp : ℚ} {p : Phrase} (hInv : Inv p) :
    List.Pairwise (fun a b => a.pos + a.dur ≤ b.pos) (rightPart sp p) := by
  rw [rightPart, List.pairwise_filterMap]
  have henr : List.Pairwise
      (fun a b : Entry => (a.pos + a.dur ≤ b.pos ∧ 0 < a.dur) ∧ 0 < b.dur) p :=
    List.Pairwise.imp_of_mem
      (fun hx hy hr => ⟨⟨hr, hInv.1 _ hx⟩, hInv.1 _ hy⟩) hInv.2
  refine henr.imp_of_mem ?_
  intro e e2 _ _ hr x hx y hy
  obtain ⟨⟨hee, hde⟩, hde2⟩ := hr
  by_cases h1 : e.pos + e.dur ≤ sp
  · rw [if_pos h1] at hx
    cases hx
  rw [if_neg h1] at hx
  by_cases h1b : e2.pos + e2.dur ≤ sp
  · rw [if_pos h1b] at hy
    cases hy
  rw [if_neg h1b] at hy
  by_cases h2 : e.pos < sp ∧ e.pos + e.dur > sp
  · rw [if_pos h2] at hx
    cases hx
    by_cases h2b : e2.pos < sp ∧ e2.pos + e2.dur > sp
    · exfalso
      linarith [h2b.1, h2.2]
    · rw [if_neg h2b] at hy
      cases hy
      have hsple2 : sp ≤ e2.pos := by
        push_neg at h2b
        by_contra hcon
        push_neg at hcon
        exact h1b (by linarith [h2b hcon])
      simp only []
      linarith
  · rw [if_neg h2] at hx
    cases hx
    have hsple : sp ≤ e.pos := by
      push_neg at h2
      by_contra hcon
      push_neg at hcon
      exact h1 (by linarith [h2 hcon])
    by_cases h2b : e2.pos < sp ∧ e2.pos + e2.dur > sp
    · exfalso
      linarith [h2b.1]
    · rw [if_neg h2b] at hy
      cases hy
      exact hee

theorem rightPart_wf {sp : ℚ} {p : Phrase} {fuel : Nat} (hInv : Inv p)
    (hWF : ∀ e ∈ p, WFel e.el) (hfuel : ∀ e ∈ p, (notesOf e.el).length + 1 ≤ fuel) :
    ∀ b ∈ rightPart sp p, WFel b.el ∧ (notesOf b.el).length + 1 ≤ fuel ∧ 0 < b.dur := by
  intro b hb
  obtain ⟨e, he, h1, hcase⟩ := rightPart_cases hb
  rcases hcase with ⟨h2, h3, rfl⟩ | ⟨h2, rfl⟩
  · refine ⟨WFel_stopTieAll (hWF e he), ?_, ?_⟩
    · have := hfuel e he
      simp only []
      rw [notesOf_stopTieAll]
      simpa using this
    · simp only []
      linarith
  · exact ⟨hWF b he, hfuel b he, hInv.1 b he⟩

theorem all_in_parts {sp : ℚ} : ∀ {p : Phrase}, (∀ e ∈ p, e.pos + e.dur ≤ sp) →
    leftPart sp p = p ∧ rightPart sp p = [] := by
  intro p
  induction p with
  | nil => intro _; exact ⟨rfl, rfl⟩
  | cons e rest ih =>
    intro h
    have h1 := h e (List.mem_cons_self e rest)
    have ih2 := ih fun x hx => h x (List.mem_cons_of_mem e hx)
    rw [leftPart_cons_in h1, rightPart_cons_in h1, ih2.1, ih2.2]
    exact ⟨rfl, rfl⟩

theorem all_out_parts {sp : ℚ} : ∀ {p : Phrase}, PosDur p → (∀ e ∈ p, sp ≤ e.pos) →
    leftPart sp p = [] ∧ rightPart sp p = p := by
  intro p
  induction p with
  | nil => intro _ _; exact ⟨rfl, rfl⟩
  | cons e rest ih =>
    intro hpd h
    have hsple := h e (List.mem_cons_self e rest)
    have hde := hpd e (List.mem_cons_self e rest)
    have h1 : ¬ (e.pos + e.dur ≤ sp) := by push_neg; linarith
    have h2 : ¬ (e.pos < sp ∧ e.pos + e.dur > sp) := by
      push_neg
      intro hcon
      linarith
    have ih2 := ih (fun x hx => hpd x (List.mem_cons_of_mem e hx))
      fun x hx => h x (List.mem_cons_of_mem e hx)
    rw [leftPart_cons_out h1 h2, rightPart_cons_out h1 h2, ih2.1, ih2.2]
    exact ⟨rfl, rfl⟩

theorem no_straddle_id {sp : ℚ} : ∀ {p : Phrase}, Inv p →
    (∀ e ∈ p, ¬ (e.pos < sp ∧ sp < e.pos + e.dur)) →
    leftPart sp p ++ rightPart sp p = p := by
  intro p
  induction p with
  | nil => intro _ _; rfl
  | cons e rest ih =>
    intro hInv hns
    have hde := hInv.1 e (List.mem_cons_self e rest)
    by_cases h1 : e.pos + e.dur ≤ sp
    · rw [leftPart_cons_in h1, rightPart_cons_in h1, List.cons_append,
        ih (inv_tail hInv) fun x hx => hns x (List.mem_cons_of_mem e hx)]
    · have h2 : ¬ (e.pos < sp ∧ e.pos + e.dur > sp) := by
        intro hcon
        exact hns e (List.mem_cons_self e rest) ⟨hcon.1, hcon.2⟩
      have hsple : sp ≤ e.pos := by
        push_neg at h1 h2
        by_contra hcon
        push_neg at hcon
        linarith [h2 hcon]
      have hrest : ∀ x ∈ rest, sp ≤ x.pos := by
        intro x hx
        have := (List.pairwise_cons.mp hInv.2).1 x hx
        linarith
      have hall := all_out_parts (inv_tail hInv).1 hrest
      rw [leftPart_cons_out h1 h2, rightPart_cons_out h1 h2, hall.1, hall.2,
        List.nil_append]

theorem startP_le {p : Phrase} (hInv : Inv p) : ∀ e ∈ p, startP p ≤ e.pos := by
  cases p with
  | nil => intro e he; cases he
  | cons e0 rest =>
    intro e he
    have h0 : startP (e0 :: rest) = e0.pos := rfl
    rw [h0]
    rcases List.mem_cons.mp he with rfl | h
    · exact le_refl _
    · have hd0 := hInv.1 e0 (List.mem_cons_self e0 rest)
      have := (List.pairwise_cons.mp hInv.2).1 e h
      linarith

theorem ends_le_endP : ∀ {p : Phrase}, Inv p → ∀ e ∈ p, e.pos + e.dur ≤ endP p := by
  intro p
  induction p with
  | nil => intro _ e he; cases he
  | cons e0 rest ih =>
    intro hInv e he
    cases rest with
    | nil =>
      have : e = e0 := by simpa using he
      subst this
      rw [endP]
      show e.pos + e.dur ≤ qadd e.pos e.dur
      rw [qadd_eq]
    | cons r rest2 =>
      have hend : endP (e0 :: r :: rest2) = endP (r :: rest2) := by
        rw [endP, endP, List.getLast?_cons_cons]
      rw [hend]
      rcases List.mem_cons.mp he with rfl | h
      · have h1 := (List.pairwise_cons.mp hInv.2).1 r (List.mem_cons_self r rest2)
        have h2 := hInv.1 r (List.mem_cons_of_mem e (List.mem_cons_self r rest2))
        have h3 := ih (inv_tail hInv) r (List.mem_cons_self r rest2)
        linarith
      · exact ih (inv_tail hInv) e h

/-- C3: splitting a well-formed phrase at `sp` yields exactly the
expected halves, merging those halves back rebuilds their concatenation
(the original phrase with only the entry containing `sp` strictly inside
replaced by its two tie-marked parts), a phrase with no entry strictly
containing `sp` is rebuilt exactly, and splitting at `start`/`end`
yields `(empty, p)` / `(p, empty)`. -/
theorem c3_split_merge (fuel : Nat) (p : Phrase) (sp : ℚ)
    (hInv : Inv p) (hWF : ∀ e ∈ p, WFel e.el)
    (hfuel : ∀ e ∈ p, (notesOf e.el).length + 1 ≤ fuel) :
    (splitP fuel sp p ([], []) = Option.some (leftPart sp p, rightPart sp p) ∧
     mergeP fuel (leftPart sp p) (rightPart sp p) =
       Option.some (leftPart sp p ++ rightPart sp p)) ∧
    ((∀ e ∈ p, ¬ (e.pos < sp ∧ sp < e.pos + e.dur)) →
      leftPart sp p ++ rightPart sp p = p) ∧
    (splitP fuel (startP p) p ([], []) = Option.some ([], p)) ∧
    (splitP fuel (endP p) p ([], []) = Option.some (p, [])) := by
  have hsplit : ∀ sp2 : ℚ, splitP fuel sp2 p ([], []) =
      Option.some (leftPart sp2 p, rightPart sp2 p) := by
    intro sp2
    have h := splitGo_spec sp2 p fuel [] []
      (fun e he => ⟨hWF e he, hfuel e he, hInv.1 e he⟩) hInv.2
      (fun a ha => absurd ha (List.not_mem_nil a))
      (fun a ha => absurd ha (List.not_mem_nil a))
    simpa using h
  refine ⟨⟨hsplit sp, ?_⟩, no_straddle_id hInv, ?_, ?_⟩
  · apply mergeP_append (rightPart sp p) fuel (leftPart sp p)
      (rightPart_wf hInv hWF hfuel) (rightPart_sorted hInv)
    intro a ha b hb
    have hl := leftPart_bounds hInv.1 ha
    have hr := rightPart_bounds hb
    exact ⟨by linarith, by linarith⟩
  · rw [hsplit (startP p)]
    have hall := all_out_parts hInv.1 (startP_le hInv)
    rw [hall.1, hall.2]
  · rw [hsplit (endP p)]
    have hall := all_in_parts (ends_le_endP hInv)
    rw [hall.1, hall.2]

def c3p : Phrase := [⟨0, PhraseElement.note ⟨NoteName.C, 4, 0, Tie.none⟩, 2⟩]

theorem c3p_wf : ∀ e ∈ c3p, WFel e.el := by
  intro e he
  rcases List.mem_cons.mp he with rfl | h
  · trivial
  · cases h

theorem c3_split_merge_witness :
    Inv c3p ∧ (∀ e ∈ c3p, WFel e.el) ∧
    (∀ e ∈ c3p, (notesOf e.el).length + 1 ≤ 3) ∧
    ((splitP 3 1 c3p ([], []) = Option.some (leftPart 1 c3p, rightPart 1 c3p) ∧
      mergeP 3 (leftPart 1 c3p) (rightPart 1 c3p) =
        Option.some (leftPart 1 c3p ++ rightPart 1 c3p)) ∧
     ((∀ e ∈ c3p, ¬ (e.pos < 1 ∧ 1 < e.pos + e.dur)) →
       leftPart 1 c3p ++ rightPart 1 c3p = c3p) ∧
     (splitP 3 (startP c3p) c3p ([], []) = Option.some ([], c3p)) ∧
     (splitP 3 (endP c3p) c3p ([], []) = Option.some (c3p, []))) :=
  ⟨by decide, c3p_wf, by decide,
   c3_split_merge 3 c3p 1 (by decide) c3p_wf (by decide)⟩

/-! Claims C2 and C5: `StaveList::adjust_octaves`.  Staves are lists of
phrases; pitch values are `u8` in the source and stay far inside the
machine range under every claim hypothesis, so they are carried as `Int`
(the two `u32` subtractions that can wrap are modelled with an explicit
`mod 2^32`).  `sort_unstable_by_key` is modelled by a stable insertion
sort (the unstable permutation of equal keys is unspecified in the
source; the claims below never depend on tie order). -/

/-- The entry of `p` covering `pos` found by `range(..=pos).rev().next()`,
if it extends past `pos`. -/
def atEl (p : Phrase) (pos : ℚ) : Option PhraseElement :=
  match (p.filter fun e => decide (e.pos ≤ pos)).getLast? with
  | Option.none => Option.none
  | Option.some e =>
    if qadd e.pos e.dur > pos then Option.some e.el else Option.none

/-- Model of `Phrase::max_at`. -/
def maxAt (p : Phrase) (pos : ℚ) : Option Int := (atEl p pos).map PhraseElement.maxVal

/-- Model of `Phrase::min_at`. -/
def minAt (p : Phrase) (pos : ℚ) : Option Int := (atEl p pos).map PhraseElement.minVal

/-- Model of `PhraseElement::mean` with the source's `u8` arithmetic (the
running sum and the chord length wrap mod 256). -/
def mean8 (el : PhraseElement) : Nat × Nat :=
  ((notesOf el).foldl (fun s n => (s + (n.value % 256).toNat) % 256) 0,
   (notesOf el).length % 256)

/-- Model of `Phrase::mean_at`. -/
def meanAt (p : Phrase) (pos : ℚ) : Option (Nat × Nat) := (atEl p pos).map mean8

/-- Model of `Phrase::min_val` (junk 0 on the empty phrase, where the
source unwrap panics; never reached under the claims' hypotheses). -/
def minValP (p : Phrase) : Int := ((p.map fun e => e.el.minVal).min?).getD 0

/-- Model of `Phrase::max_val`. -/
def maxValP (p : Phrase) : Int := ((p.map fun e => e.el.maxVal).max?).getD 0

/-- Rust `Iterator::max_by_key` keeps the last maximal element. -/
def maxByKeyLast (l : List (Nat × Int)) : Option (Nat × Int) :=
  l.foldl (fun acc x =>
    match acc with
    | Option.none => Option.some x
    | Option.some y => if y.2 ≤ x.2 then Option.some x else Option.some y) Option.none

/-- Rust `Iterator::min_by_key` keeps the first minimal element. -/
def minByKeyFirst (l : List (Nat × Int)) : Option (Nat × Int) :=
  l.foldl (fun acc x =>
    match acc with
    | Option.none => Option.some x
    | Option.some y => if x.2 < y.2 then Option.some x else Option.some y) Option.none

/-- `stave.iter().enumerate().filter_map(|(i, p)| p.max_at(pos).map(...))`. -/
def maxCands (stave : List Phrase) (pos : ℚ) : List (Nat × Int) :=
  stave.enum.filterMap fun ip => (maxAt ip.2 pos).map fun m => (ip.1, m)

def minCands (stave : List Phrase) (pos : ℚ) : List (Nat × Int) :=
  stave.enum.filterMap fun ip => (minAt ip.2 pos).map fun m => (ip.1, m)

/-- The eager `other_max` computation (max over per-phrase maxima that
differ from `mv`); `none` is the source's `unwrap` panic. -/
def otherMax (stave : List Phrase) (pos : ℚ) (mv : Int) : Option Int :=
  (stave.filterMap fun p => (maxAt p pos).bind fun m =>
    if m ≠ mv then Option.some m else Option.none).max?

def otherMin (stave : List Phrase) (pos : ℚ) (mv : Int) : Option Int :=
  (stave.filterMap fun p => (minAt p pos).bind fun m =>
    if m ≠ mv then Option.some m else Option.none).min?

/-- The `(total, count)` fold over `mean_at`. -/
def meanTotals (stave : List Phrase) (pos : ℚ) : Nat × Nat :=
  stave.foldl (fun tc p =>
    match meanAt p pos with
    | Option.none => tc
    | Option.some t => (tc.1 + t.1, tc.2 + t.2)) (0, 0)

/-- Model of `StaveList::can_have_phrase` (the `getD 0` junk stands for
unwraps that cannot fire when the outer `max` is `some`). -/
def canHavePhrase (stave : List Phrase) (phrase : Phrase) (stretch : Int) : Bool :=
  phrase.all fun e =>
    match (stave.filterMap fun p => maxAt p e.pos).max? with
    | Option.none => true
    | Option.some staveMax =>
      decide (max staveMax ((maxAt phrase e.pos).getD 0) -
        min (((stave.filterMap fun p => minAt p e.pos).min?).getD 0)
          ((minAt phrase e.pos).getD 0) ≤ stretch)

/-- `u32` wrapping subtraction. -/
def u32sub (a b : Int) : Int := (a - b) % 4294967296

/-- The adjust loop state: the optional previous stave, the current
stave, and the optional next stave. -/
abbrev AdjState := Option (List Phrase) × List Phrase × Option (List Phrase)

/-- The not-moved part of one iteration of the inner `loop` of
`adjust_octaves` (after the relocation to the previous stave failed or
was unavailable).  Outer `none` is a panic, `some` is the new state. -/
def unmovedStep (i numStaves : Nat) (stretch : Int) (pos : ℚ)
    (prev : Option (List Phrase)) (stave : List Phrase) (next : Option (List Phrase))
    (maxPhrase : Nat) (maxVal : Int) (minPhrase : Nat) (minVal : Int)
    (mean midpoint : Int) : Option (Option AdjState) :=
  match otherMax stave pos maxVal, otherMin stave pos minVal with
  | Option.some omv, Option.some onv =>
    if mean < midpoint ∧ (i ≠ 0 ∨ omv ≤ u32sub maxVal 12) ∧
        21 ≤ minValP (stave.getD maxPhrase []) ∧
        (i ≠ numStaves - 1 ∨ minVal ≤ u32sub maxVal 12) then
      Option.some (Option.some (prev,
        stave.set maxPhrase (transposeOctaves (stave.getD maxPhrase []) (-1)), next))
    else
      match next with
      | Option.some nx =>
        Option.some (Option.some (prev, stave.eraseIdx minPhrase,
          Option.some (nx ++ [stave.getD minPhrase []])))
      | Option.none =>
        if (i ≠ numStaves - 1 ∨ minVal + 12 ≤ onv) ∧
            maxValP (stave.getD minPhrase []) ≤ 84 ∧
            (i ≠ 0 ∨ minVal + 12 ≤ maxVal) then
          Option.some (Option.some (prev,
            stave.set minPhrase (transposeOctaves (stave.getD minPhrase []) 1), next))
        else if i = 0 then
          Option.some (Option.some (prev, stave.eraseIdx minPhrase, next))
        else
          Option.some (Option.some (prev, stave.eraseIdx maxPhrase, next))
  | _, _ => Option.none

/-- One iteration of the inner `loop`: `some none` is `break`, outer
`none` is a panic. -/
def repairStep (i numStaves : Nat) (stretch : Int) (pos : ℚ)
    (prev : Option (List Phrase)) (stave : List Phrase)
    (next : Option (List Phrase)) : Option (Option AdjState) :=
  match maxByKeyLast (maxCands stave pos) with
  | Option.none => Option.some Option.none
  | Option.some mx =>
    match minByKeyFirst (minCands stave pos) with
    | Option.none => Option.none
    | Option.some mn =>
      if maxVal2 : mx.2 - mn.2 > stretch then
        match prev with
        | Option.some pv =>
          if canHavePhrase pv (stave.getD mx.1 []) stretch then
            Option.some (Option.some
              (Option.some (pv ++ [stave.getD mx.1 []]), stave.eraseIdx mx.1, next))
          else
            unmovedStep i numStaves stretch pos (Option.some pv) stave next mx.1 mx.2
              mn.1 mn.2 ((meanTotals stave pos).1 / (meanTotals stave pos).2 : Nat)
              ((mn.2 + mx.2) / 2)
        | Option.none =>
          unmovedStep i numStaves stretch pos Option.none stave next mx.1 mx.2
            mn.1 mn.2 ((meanTotals stave pos).1 / (meanTotals stave pos).2 : Nat)
            ((mn.2 + mx.2) / 2)
      else Option.some Option.none

/-- The inner `loop`, fuelled (the source loop is unbounded). -/
def repairLoop : Nat → Nat → Nat → Int → ℚ →
    Option (List Phrase) → List Phrase → Option (List Phrase) → Option AdjState
  | 0, _, _, _, _, _, _, _ => Option.none
  | Nat.succ fl, i, ns, stretch, pos, prev, stave, next =>
    match repairStep i ns stretch pos prev stave next with
    | Option.none => Option.none
    | Option.some Option.none => Option.some (prev, stave, next)
    | Option.some (Option.some st) =>
      repairLoop fl i ns stretch pos st.1 st.2.1 st.2.2

/-- The per-position `for` loop. -/
def posLoop (fuel : Nat) (i ns : Nat) (stretch : Int) :
    List ℚ → Option (List Phrase) → List Phrase → Option (List Phrase) →
    Option AdjState
  | [], prev, stave, next => Option.some (prev, stave, next)
  | pos :: rest, prev, stave, next =>
    match repairLoop fuel i ns stretch pos prev stave next with
    | Option.none => Option.none
    | Option.some st => posLoop fuel i ns stretch rest st.1 st.2.1 st.2.2

/-- Stable insertion by start position (model of `sort_unstable_by_key`). -/
def insertByStart (a : Phrase) : List Phrase → List Phrase
  | [] => [a]
  | b :: bs => if startP b ≤ startP a then b :: insertByStart a bs else a :: b :: bs

def sortByStart : List Phrase → List Phrase
  | [] => []
  | a :: as => insertByStart a (sortByStart as)

/-- Sorted insertion of a position, dropping duplicates. -/
def insertPos (x : ℚ) : List ℚ → List ℚ
  | [] => [x]
  | y :: ys => if x = y then y :: ys else if y < x then y :: insertPos x ys else x :: y :: ys

/-- The `kmerge`d, `unique`d list of all element start positions. -/
def positionsOf (stave : List Phrase) : List ℚ :=
  (stave.flatMap fun p => p.map fun e => e.pos).foldr insertPos []

/-- The outer per-stave loop of `adjust_octaves`, with `get_surrounding`
read/write-back. -/
def adjustGo (fuel : Nat) (stretch : Int) (ns : Nat) :
    Nat → Nat → List (List Phrase) → Option (List (List Phrase))
  | 0, _, staves => Option.some staves
  | Nat.succ rem, i, staves =>
    match posLoop fuel i ns stretch (positionsOf (sortByStart (staves.getD i [])))
        (if i = 0 then Option.none else Option.some (staves.getD (i - 1) []))
        (sortByStart (staves.getD i []))
        (if i + 1 < staves.length then Option.some (staves.getD (i + 1) [])
         else Option.none) with
    | Option.none => Option.none
    | Option.some st =>
      adjustGo fuel stretch ns rem (i + 1)
        ((match st.2.2 with
          | Option.some nx => List.set
              ((match st.1 with
                | Option.some pv => List.set staves (i - 1) pv
                | Option.none => staves).set i st.2.1) (i + 1) nx
          | Option.none =>
              (match st.1 with
                | Option.some pv => List.set staves (i - 1) pv
                | Option.none => staves).set i st.2.1))

/-- Model of `StaveList::adjust_octaves`. -/
def adjustOct (fuel : Nat) (stretch : Int) (staves : List (List Phrase)) :
    Option (List (List Phrase)) :=
  adjustGo fuel stretch staves.length staves.length 0 staves

/-! Pitch-range bookkeeping for claim C2. -/

def PhIn (lo hi : Int) (p : Phrase) : Prop :=
  ∀ e ∈ p, ∀ n ∈ notesOf e.el, lo ≤ n.value ∧ n.value ≤ hi

def StIn (lo hi : Int) (s : List Phrase) : Prop := ∀ p ∈ s, PhIn lo hi p

def SSIn (lo hi : Int) (ss : List (List Phrase)) : Prop := ∀ s ∈ ss, StIn lo hi s

def OpIn (lo hi : Int) : Option (List Phrase) → Prop
  | Option.none => True
  | Option.some s => StIn lo hi s

instance (lo hi : Int) (p : Phrase) : Decidable (PhIn lo hi p) := by
  unfold PhIn
  infer_instance

instance (lo hi : Int) (s : List Phrase) : Decidable (StIn lo hi s) := by
  unfold StIn
  infer_instance

instance (lo hi : Int) (ss : List (List Phrase)) : Decidable (SSIn lo hi ss) := by
  unfold SSIn
  infer_instance

theorem foldlMin_le (bs : List Int) : ∀ b : Int,
    bs.foldl min b ≤ b ∧ ∀ x ∈ bs, bs.foldl min b ≤ x := by
  induction bs with
  | nil =>
    intro b
    exact ⟨le_refl b, fun x hx => absurd hx (List.not_mem_nil x)⟩
  | cons c cs ih =>
    intro b
    rw [List.foldl_cons]
    obtain ⟨h1, h2⟩ := ih (min b c)
    refine ⟨le_trans h1 (min_le_left b c), ?_⟩
    intro x hx
    rcases List.mem_cons.mp hx with rfl | hx2
    · exact le_trans h1 (min_le_right b x)
    · exact h2 x hx2

theorem foldlMax_ge (bs : List Int) : ∀ b : Int,
    b ≤ bs.foldl max b ∧ ∀ x ∈ bs, x ≤ bs.foldl max b := by
  induction bs with
  | nil =>
    intro b
    exact ⟨le_refl b, fun x hx => absurd hx (List.not_mem_nil x)⟩
  | cons c cs ih =>
    intro b
    rw [List.foldl_cons]
    obtain ⟨h1, h2⟩ := ih (max b c)
    refine ⟨le_trans (le_max_left b c) h1, ?_⟩
    intro x hx
    rcases List.mem_cons.mp hx with rfl | hx2
    · exact le_trans (le_max_right b x) h1
    · exact h2 x hx2

theorem minVal_le {el : PhraseElement} {n : Note} (hn : n ∈ notesOf el) :
    el.minVal ≤ n.value := by
  cases el with
  | note m =>
    rw [notesOf] at hn
    have : n = m := by simpa using hn
    subst this
    exact le_refl _
  | chord c =>
    rw [notesOf] at hn
    cases c with
    | nil => cases hn
    | cons d ds =>
      have hfold := foldlMin_le (ds.map Note.value) (Note.value d)
      rcases List.mem_cons.mp hn with rfl | h2
      · exact hfold.1
      · exact hfold.2 _ (List.mem_map_of_mem Note.value h2)

theorem maxVal_ge {el : PhraseElement} {n : Note} (hn : n ∈ notesOf el) :
    n.value ≤ el.maxVal := by
  cases el with
  | note m =>
    rw [notesOf] at hn
    have : n = m := by simpa using hn
    subst this
    exact le_refl _
  | chord c =>
    rw [notesOf] at hn
    cases c with
    | nil => cases hn
    | cons d ds =>
      have hfold := foldlMax_ge (ds.map Note.value) (Note.value d)
      rcases List.mem_cons.mp hn with rfl | h2
      · exact hfold.1
      · exact hfold.2 _ (List.mem_map_of_mem Note.value h2)

theorem minValP_le {p : Phrase} {e : Entry} {n : Note} (he : e ∈ p)
    (hn : n ∈ notesOf e.el) : minValP p ≤ n.value := by
  cases p with
  | nil => cases he
  | cons f fs =>
    have hfold := foldlMin_le (fs.map fun e => e.el.minVal) f.el.minVal
    have hle : minValP (f :: fs) ≤ e.el.minVal := by
      rcases List.mem_cons.mp he with rfl | h2
      · exact hfold.1
      · exact hfold.2 _ (List.mem_map_of_mem _ h2)
    exact le_trans hle (minVal_le hn)

theorem maxValP_ge {p : Phrase} {e : Entry} {n : Note} (he : e ∈ p)
    (hn : n ∈ notesOf e.el) : n.value ≤ maxValP p := by
  cases p with
  | nil => cases he
  | cons f fs =>
    have hfold := foldlMax_ge (fs.map fun e => e.el.maxVal) f.el.maxVal
    have hle : e.el.maxVal ≤ maxValP (f :: fs) := by
      rcases List.mem_cons.mp he with rfl | h2
      · exact hfold.1
      · exact hfold.2 _ (List.mem_map_of_mem _ h2)
    exact le_trans (maxVal_ge hn) hle

theorem value_shift (n : Note) (o : Int) :
    ({ n with octave := n.octave + o } : Note).value = n.value + 12 * o := by
  show n.step.value + ((n.octave + o) * 12 + n.alter) = n.value + 12 * o
  rw [Note.value]
  ring

theorem transposeOct_bounds {p : Phrase} {o lo hi : Int}
    (h : ∀ e ∈ p, ∀ n ∈ notesOf e.el, lo ≤ n.value ∧ n.value ≤ hi) :
    ∀ e2 ∈ transposeOctaves p o, ∀ n2 ∈ notesOf e2.el,
      lo + 12 * o ≤ n2.value ∧ n2.value ≤ hi + 12 * o := by
  intro e2 he2 n2 hn2
  rw [transposeOctaves] at he2
  obtain ⟨e, he, rfl⟩ := List.mem_map.mp he2
  rw [show ({ e with el := e.el.transposeOct o } : Entry).el = e.el.transposeOct o
    from rfl, notesOf_transposeOct] at hn2
  obtain ⟨n, hn, rfl⟩ := List.mem_map.mp hn2
  have h2 := h e he n hn
  rw [value_shift]
  exact ⟨by linarith, by linarith⟩

theorem StIn_getD {lo hi : Int} {s : List Phrase} (h : StIn lo hi s) (i : Nat) :
    PhIn lo hi (s.getD i []) := by
  have hd : s.getD i [] = (s.get? i).getD [] := rfl
  cases hg : s.get? i with
  | none =>
    rw [hd, hg]
    intro e he
    cases he
  | some p =>
    rw [hd, hg]
    exact h p (List.get?_mem hg)

theorem StIn_eraseIdx {lo hi : Int} {s : List Phrase} (h : StIn lo hi s) (i : Nat) :
    StIn lo hi (s.eraseIdx i) :=
  fun p hp => h p (List.mem_of_mem_eraseIdx hp)

theorem StIn_set {lo hi : Int} {s : List Phrase} (h : StIn lo hi s) (i : Nat)
    {ph : Phrase} (hph : PhIn lo hi ph) : StIn lo hi (s.set i ph) := by
  intro p hp
  rcases List.mem_or_eq_of_mem_set hp with h2 | rfl
  · exact h p h2
  · exact hph

theorem StIn_append {lo hi : Int} {s1 s2 : List Phrase} (h1 : StIn lo hi s1)
    (h2 : StIn lo hi s2) : StIn lo hi (s1 ++ s2) := by
  intro p hp
  rcases List.mem_append.mp hp with h | h
  · exact h1 p h
  · exact h2 p h

theorem unmovedStep_range {i ns : Nat} {stretch : Int} {pos : ℚ}
    {prev : Option (List Phrase)} {stave : List Phrase} {next : Option (List Phrase)}
    {mp : Nat} {mv : Int} {mnp : Nat} {mnv : Int} {mean midpoint : Int}
    (hp : OpIn 9 96 prev) (hs : StIn 9 96 stave) (hn : OpIn 9 96 next)
    {st : AdjState}
    (h : unmovedStep i ns stretch pos prev stave next mp mv mnp mnv mean midpoint =
      Option.some (Option.some st)) :
    OpIn 9 96 st.1 ∧ StIn 9 96 st.2.1 ∧ OpIn 9 96 st.2.2 := by
  rw [unmovedStep] at h
  cases hom : otherMax stave pos mv with
  | none =>
    rw [hom] at h
    cases hon : otherMin stave pos mnv with
    | none =>
      simp only [hon] at h
      cases h
    | some onv =>
      simp only [hon] at h
      cases h
  | some omv =>
    rw [hom] at h
    cases hon : otherMin stave pos mnv with
    | none =>
      simp only [hon] at h
      cases h
    | some onv =>
      simp only [hon] at h
      by_cases hcond : mean < midpoint ∧ (i ≠ 0 ∨ omv ≤ u32sub mv 12) ∧
          21 ≤ minValP (stave.getD mp []) ∧ (i ≠ ns - 1 ∨ mnv ≤ u32sub mv 12)
      · rw [if_pos hcond] at h
        cases h
        refine ⟨hp, ?_, hn⟩
        apply StIn_set hs
        have hph := StIn_getD hs mp
        have hlow : ∀ e ∈ stave.getD mp [], ∀ n ∈ notesOf e.el,
            21 ≤ n.value ∧ n.value ≤ 96 := by
          intro e he n hnm
          exact ⟨le_trans hcond.2.2.1 (minValP_le he hnm), (hph e he n hnm).2⟩
        intro e he n hnm
        have := transposeOct_bounds hlow e he n hnm
        exact ⟨by linarith [this.1], by linarith [this.2]⟩
      · rw [if_neg hcond] at h
        cases hnx : next with
        | some nx =>
          rw [hnx] at h
          cases h
          rw [hnx] at hn
          exact ⟨hp, StIn_eraseIdx hs mnp,
            StIn_append hn fun p hp2 => by
              have : p = stave.getD mnp [] := by simpa using hp2
              rw [this]
              exact StIn_getD hs mnp⟩
        | none =>
          rw [hnx] at h
          by_cases hup : (i ≠ ns - 1 ∨ mnv + 12 ≤ onv) ∧
              maxValP (stave.getD mnp []) ≤ 84 ∧ (i ≠ 0 ∨ mnv + 12 ≤ mv)
          · rw [if_pos hup] at h
            cases h
            refine ⟨hp, ?_, trivial⟩
            apply StIn_set hs
            have hph := StIn_getD hs mnp
            have hhigh : ∀ e ∈ stave.getD mnp [], ∀ n ∈ notesOf e.el,
                9 ≤ n.value ∧ n.value ≤ 84 := by
              intro e he n hnm
              exact ⟨(hph e he n hnm).1, le_trans (maxValP_ge he hnm) hup.2.1⟩
            intro e he n hnm
            have := transposeOct_bounds hhigh e he n hnm
            exact ⟨by linarith [this.1], by linarith [this.2]⟩
          · rw [if_neg hup] at h
            by_cases hi0 : i = 0
            · rw [if_pos hi0] at h
              cases h
              exact ⟨hp, StIn_eraseIdx hs mnp, trivial⟩
            · rw [if_neg hi0] at h
              cases h
              exact ⟨hp, StIn_eraseIdx hs mp, trivial⟩

theorem repairStep_range {i ns : Nat} {stretch : Int} {pos : ℚ}
    {prev : Option (List Phrase)} {stave : List Phrase} {next : Option (List Phrase)}
    (hp : OpIn 9 96 prev) (hs : StIn 9 96 stave) (hn : OpIn 9 96 next)
    {st : AdjState}
    (h : repairStep i ns stretch pos prev stave next = Option.some (Option.some st)) :
    OpIn 9 96 st.1 ∧ StIn 9 96 st.2.1 ∧ OpIn 9 96 st.2.2 := by
  rw [repairStep] at h
  cases hmx : maxByKeyLast (maxCands stave pos) with
  | none =>
    simp only [hmx] at h
    cases h
  | some mx =>
    simp only [hmx] at h
    cases hmn : minByKeyFirst (minCands stave pos) with
    | none =>
      simp only [hmn] at h
      cases h
    | some mn =>
      simp only [hmn] at h
      by_cases hspan : mx.2 - mn.2 > stretch
      · rw [dif_pos hspan] at h
        cases hpv : prev with
        | some pv =>
          rw [hpv] at h
          rw [hpv] at hp
          replace h : (if canHavePhrase pv (stave.getD mx.1 []) stretch = true then
              Option.some (Option.some (Option.some (pv ++ [stave.getD mx.1 []]),
                stave.eraseIdx mx.1, next))
            else unmovedStep i ns stretch pos (Option.some pv) stave next mx.1 mx.2
              mn.1 mn.2 (((meanTotals stave pos).1 / (meanTotals stave pos).2 : Nat) : Int)
              ((mn.2 + mx.2) / 2)) = Option.some (Option.some st) := h
          by_cases hch : canHavePhrase pv (stave.getD mx.1 []) stretch = true
          · rw [if_pos hch] at h
            cases h
            refine ⟨?_, StIn_eraseIdx hs mx.1, hn⟩
            exact StIn_append hp fun p hp2 => by
              have : p = stave.getD mx.1 [] := by simpa using hp2
              rw [this]
              exact StIn_getD hs mx.1
          · rw [if_neg hch] at h
            exact unmovedStep_range hp hs hn h
        | none =>
          rw [hpv] at h
          rw [hpv] at hp
          replace h : unmovedStep i ns stretch pos Option.none stave next mx.1 mx.2
              mn.1 mn.2 (((meanTotals stave pos).1 / (meanTotals stave pos).2 : Nat) : Int)
              ((mn.2 + mx.2) / 2) = Option.some (Option.some st) := h
          exact unmovedStep_range hp hs hn h
      · rw [dif_neg hspan] at h
        cases h

theorem repairLoop_range : ∀ (fl i ns : Nat) (stretch : Int) (pos : ℚ)
    (prev : Option (List Phrase)) (stave : List Phrase) (next : Option (List Phrase))
    (st : AdjState), OpIn 9 96 prev → StIn 9 96 stave → OpIn 9 96 next →
    repairLoop fl i ns stretch pos prev stave next = Option.some st →
    OpIn 9 96 st.1 ∧ StIn 9 96 st.2.1 ∧ OpIn 9 96 st.2.2 := by
  intro fl
  induction fl with
  | zero =>
    intro i ns stretch pos prev stave next st _ _ _ h
    cases h
  | succ fl2 ih =>
    intro i ns stretch pos prev stave next st hp hs hn h
    rw [repairLoop] at h
    cases hstep : repairStep i ns stretch pos prev stave next with
    | none =>
      rw [hstep] at h
      cases h
    | some o =>
      rw [hstep] at h
      cases o with
      | none =>
        cases h
        exact ⟨hp, hs, hn⟩
      | some st2 =>
        have h2 := repairStep_range hp hs hn hstep
        exact ih i ns stretch pos st2.1 st2.2.1 st2.2.2 st h2.1 h2.2.1 h2.2.2 h

theorem posLoop_range : ∀ (ps : List ℚ) (fuel i ns : Nat) (stretch : Int)
    (prev : Option (List Phrase)) (stave : List Phrase) (next : Option (List Phrase))
    (st : AdjState), OpIn 9 96 prev → StIn 9 96 stave → OpIn 9 96 next →
    posLoop fuel i ns stretch ps prev stave next = Option.some st →
    OpIn 9 96 st.1 ∧ StIn 9 96 st.2.1 ∧ OpIn 9 96 st.2.2 := by
  intro ps
  induction ps with
  | nil =>
    intro fuel i ns stretch prev stave next st hp hs hn h
    cases h
    exact ⟨hp, hs, hn⟩
  | cons pos rest ih =>
    intro fuel i ns stretch prev stave next st hp hs hn h
    rw [posLoop] at h
    cases hl : repairLoop fuel i ns stretch pos prev stave next with
    | none =>
      rw [hl] at h
      cases h
    | some st2 =>
      rw [hl] at h
      have h2 := repairLoop_range fuel i ns stretch pos prev stave next st2 hp hs hn hl
      exact ih fuel i ns stretch st2.1 st2.2.1 st2.2.2 st h2.1 h2.2.1 h2.2.2 h

theorem mem_insertByStart {a x : Phrase} : ∀ {l : List Phrase},
    x ∈ insertByStart a l → x = a ∨ x ∈ l := by
  intro l
  induction l with
  | nil =>
    intro h
    rcases List.mem_cons.mp h with rfl | h2
    · exact Or.inl rfl
    · cases h2
  | cons b bs ih =>
    intro h
    rw [insertByStart] at h
    by_cases hc : startP b ≤ startP a
    · rw [if_pos hc] at h
      rcases List.mem_cons.mp h with rfl | h2
      · exact Or.inr (List.mem_cons_self x bs)
      · rcases ih h2 with h3 | h3
        · exact Or.inl h3
        · exact Or.inr (List.mem_cons_of_mem b h3)
    · rw [if_neg hc] at h
      rcases List.mem_cons.mp h with rfl | h2
      · exact Or.inl rfl
      · exact Or.inr h2

theorem mem_sortByStart {x : Phrase} : ∀ {l : List Phrase},
    x ∈ sortByStart l → x ∈ l := by
  intro l
  induction l with
  | nil => intro h; cases h
  | cons a as ih =>
    intro h
    rw [sortByStart] at h
    rcases mem_insertByStart h with rfl | h2
    · exact List.mem_cons_self x as
    · exact List.mem_cons_of_mem a (ih h2)

theorem StIn_sortByStart {lo hi : Int} {s : List Phrase} (h : StIn lo hi s) :
    StIn lo hi (sortByStart s) := fun p hp => h p (mem_sortByStart hp)

theorem SSIn_getD {lo hi : Int} {ss : List (List Phrase)} (h : SSIn lo hi ss) (i : Nat) :
    StIn lo hi (ss.getD i []) := by
  have hd : ss.getD i [] = (ss.get? i).getD [] := rfl
  cases hg : ss.get? i with
  | none =>
    rw [hd, hg]
    intro p hp
    cases hp
  | some s =>
    rw [hd, hg]
    exact h s (List.get?_mem hg)

theorem SSIn_set {lo hi : Int} {ss : List (List Phrase)} (h : SSIn lo hi ss) (i : Nat)
    {s : List Phrase} (hs : StIn lo hi s) : SSIn lo hi (ss.set i s) := by
  intro s2 hs2
  rcases List.mem_or_eq_of_mem_set hs2 with h2 | rfl
  · exact h s2 h2
  · exact hs

theorem adjustGo_range : ∀ (rem : Nat) (fuel : Nat) (stretch : Int) (ns i : Nat)
    (staves staves2 : List (List Phrase)), SSIn 9 96 staves →
    adjustGo fuel stretch ns rem i staves = Option.some staves2 →
    SSIn 9 96 staves2 := by
  intro rem
  induction rem with
  | zero =>
    intro fuel stretch ns i staves staves2 hss h
    cases h
    exact hss
  | succ rem2 ih =>
    intro fuel stretch ns i staves staves2 hss h
    rw [adjustGo] at h
    cases hl : posLoop fuel i ns stretch (positionsOf (sortByStart (staves.getD i [])))
        (if i = 0 then Option.none else Option.some (staves.getD (i - 1) []))
        (sortByStart (staves.getD i []))
        (if i + 1 < staves.length then Option.some (staves.getD (i + 1) [])
         else Option.none) with
    | none =>
      rw [hl] at h
      cases h
    | some st =>
      rw [hl] at h
      have hprev : OpIn 9 96 (if i = 0 then Option.none
          else Option.some (staves.getD (i - 1) [])) := by
        by_cases hi : i = 0
        · rw [if_pos hi]
          trivial
        · rw [if_neg hi]
          exact SSIn_getD hss (i - 1)
      have hnext : OpIn 9 96 (if i + 1 < staves.length
          then Option.some (staves.getD (i + 1) []) else Option.none) := by
        by_cases hi : i + 1 < staves.length
        · rw [if_pos hi]
          exact SSIn_getD hss (i + 1)
        · rw [if_neg hi]
          trivial
      have h2 := posLoop_range _ fuel i ns stretch _ _ _ st hprev
        (StIn_sortByStart (SSIn_getD hss i)) hnext hl
      apply ih fuel stretch ns (i + 1) _ staves2 ?_ h
      have hbase : SSIn 9 96 ((match st.1 with
          | Option.some pv => List.set staves (i - 1) pv
          | Option.none => staves).set i st.2.1) := by
        have h1 : SSIn 9 96 (match st.1 with
            | Option.some pv => List.set staves (i - 1) pv
            | Option.none => staves) := by
          cases hst1 : st.1 with
          | none => exact hss
          | some pv =>
            rw [hst1] at h2
            exact SSIn_set hss (i - 1) h2.1
        exact SSIn_set h1 i h2.2.1
      cases hst2 : st.2.2 with
      | none =>
        simp only [hst2]
        exact hbase
      | some nx =>
        simp only [hst2]
        rw [hst2] at h2
        exact SSIn_set hbase (i + 1) h2.2.2

def c2P : Phrase := [⟨0, PhraseElement.note ⟨NoteName.A, 3, 1, Tie.none⟩, 1⟩,
  ⟨1, PhraseElement.note ⟨NoteName.A, 1, 0, Tie.none⟩, 1⟩]

def c2Q : Phrase := [⟨0, PhraseElement.note ⟨NoteName.D, 2, 0, Tie.none⟩, 1⟩]

def c2P2 : Phrase := [⟨0, PhraseElement.note ⟨NoteName.A, 2, 1, Tie.none⟩, 1⟩,
  ⟨1, PhraseElement.note ⟨NoteName.A, 0, 0, Tie.none⟩, 1⟩]

/-- C2 counterexample: starting from three single-stave timelines whose
pitches all lie in `[21, 84]`, `adjust_octaves` with handspan 12
terminates and leaves a note of pitch value 9 — outside the claimed
`[21, 84]` — because the `min_val() >= 21` guard is checked before the
downward octave shift, not after. -/
theorem c2_octave_range_counterexample :
    SSIn 21 84 [[c2P, c2Q, c2Q]] ∧
    adjustOct 10 12 [[c2P, c2Q, c2Q]] = Option.some [[c2Q, c2Q, c2P2]] ∧
    (∃ e ∈ c2P2, ∃ n ∈ notesOf e.el, n.value = 9) ∧
    ¬ (21 ≤ (9 : Int)) := ⟨by decide, by decide, by decide, by decide⟩

/-- C2 (amended): for any handspan limit ≥ 12, `adjust_octaves` on staves
whose pitch values start in `[21, 84]` leaves — whenever it returns —
every pitch value in `[9, 96]`: each transposition guard is checked
before the octave shift, so a run can land one octave below 21 or above
84, but never further. -/
theorem c2_octave_range (fuel : Nat) (stretch : Int)
    (staves staves2 : List (List Phrase)) (hstretch : 12 ≤ stretch)
    (hinit : SSIn 21 84 staves)
    (hrun : adjustOct fuel stretch staves = Option.some staves2) :
    SSIn 9 96 staves2 := by
  apply adjustGo_range staves.length fuel stretch staves.length 0 staves staves2 ?_ hrun
  intro s hs p hp e he n hn
  have := hinit s hs p hp e he n hn
  exact ⟨by linarith [this.1], by linarith [this.2]⟩

theorem c2_octave_range_witness :
    (12 : Int) ≤ 12 ∧ SSIn 21 84 [[c2P, c2Q, c2Q]] ∧
    adjustOct 10 12 [[c2P, c2Q, c2Q]] = Option.some [[c2Q, c2Q, c2P2]] ∧
    SSIn 9 96 [[c2Q, c2Q, c2P2]] :=
  ⟨by decide, by decide, by decide,
   c2_octave_range 10 12 [[c2P, c2Q, c2Q]] [[c2Q, c2Q, c2P2]] (by decide) (by decide)
     (by decide)⟩

def c5A : Phrase := [⟨0, PhraseElement.note ⟨NoteName.E, 8, 0, Tie.none⟩, 1⟩]

def c5B : Phrase := [⟨0, PhraseElement.note ⟨NoteName.F, 2, 1, Tie.none⟩, 1⟩]

def c5C : Phrase := [⟨0, PhraseElement.note ⟨NoteName.C, 7, 0, Tie.none⟩, 1⟩]

def c5D : Phrase := [⟨0, PhraseElement.note ⟨NoteName.G, 1, 1, Tie.none⟩, 1⟩]

/-- C5 counterexample: the lowest timeline (pitch 30) is relocated to the
next stave even though `can_have_phrase` on that stave (holding pitch 84,
span 54 > 12) is false — no non-violation check guards the downward
relocation. -/
theorem c5_relocation_counterexample :
    canHavePhrase [c5C] c5B 12 = false ∧
    repairStep 1 3 12 0 (Option.some [c5D]) [c5A, c5B] (Option.some [c5C]) =
      Option.some (Option.some (Option.some [c5D], [c5A],
        Option.some [c5C, c5B])) := ⟨by decide, by rfl⟩

/-- C5 (amended): in the `adjust_octaves` repair step, once the span
check fires, the relocation to the previous stave is unavailable or
fails its `can_have_phrase` test, and the downward-transposition
condition fails, the lowest timeline is pushed to the next stave
whenever one exists — unconditionally, with no `can_have_phrase` check
on the destination. -/
theorem c5_push_next_unconditional (i ns : Nat) (stretch : Int) (pos : ℚ)
    (prev : Option (List Phrase)) (stave : List Phrase) (nx : List Phrase)
    (mx mn : Nat × Int) (omv onv : Int)
    (hmax : maxByKeyLast (maxCands stave pos) = Option.some mx)
    (hmin : minByKeyFirst (minCands stave pos) = Option.some mn)
    (hspan : mx.2 - mn.2 > stretch)
    (hprev : prev = Option.none ∨
      ∃ pv, prev = Option.some pv ∧
        canHavePhrase pv (stave.getD mx.1 []) stretch = false)
    (hom : otherMax stave pos mx.2 = Option.some omv)
    (hon : otherMin stave pos mn.2 = Option.some onv)
    (hdown : ¬ ((((meanTotals stave pos).1 / (meanTotals stave pos).2 : Nat) : Int) <
        (mn.2 + mx.2) / 2 ∧ (i ≠ 0 ∨ omv ≤ u32sub mx.2 12) ∧
        21 ≤ minValP (stave.getD mx.1 []) ∧
        (i ≠ ns - 1 ∨ mn.2 ≤ u32sub mx.2 12))) :
    repairStep i ns stretch pos prev stave (Option.some nx) =
      Option.some (Option.some (prev, stave.eraseIdx mn.1,
        Option.some (nx ++ [stave.getD mn.1 []]))) := by
  have hunm : unmovedStep i ns stretch pos prev stave (Option.some nx) mx.1 mx.2
      mn.1 mn.2 (((meanTotals stave pos).1 / (meanTotals stave pos).2 : Nat) : Int)
      ((mn.2 + mx.2) / 2) =
      Option.some (Option.some (prev, stave.eraseIdx mn.1,
        Option.some (nx ++ [stave.getD mn.1 []]))) := by
    rw [unmovedStep, hom, hon]
    show (if ((((meanTotals stave pos).1 / (meanTotals stave pos).2 : Nat) : Int) <
          (mn.2 + mx.2) / 2 ∧ (i ≠ 0 ∨ omv ≤ u32sub mx.2 12) ∧
          21 ≤ minValP (stave.getD mx.1 []) ∧ (i ≠ ns - 1 ∨ mn.2 ≤ u32sub mx.2 12)) then
        Option.some (Option.some (prev,
          stave.set mx.1 (transposeOctaves (stave.getD mx.1 []) (-1)), Option.some nx))
      else Option.some (Option.some (prev, stave.eraseIdx mn.1,
        Option.some (nx ++ [stave.getD mn.1 []])))) =
      Option.some (Option.some (prev, stave.eraseIdx mn.1,
        Option.some (nx ++ [stave.getD mn.1 []])))
    rw [if_neg hdown]
  rw [repairStep]
  simp only [hmax, hmin]
  rw [dif_pos hspan]
  rcases hprev with rfl | ⟨pv, rfl, hch⟩
  · exact hunm
  · show (if canHavePhrase pv (stave.getD mx.1 []) stretch = true then
        Option.some (Option.some (Option.some (pv ++ [stave.getD mx.1 []]),
          stave.eraseIdx mx.1, Option.some nx))
      else unmovedStep i ns stretch pos (Option.some pv) stave (Option.some nx) mx.1 mx.2
        mn.1 mn.2 (((meanTotals stave pos).1 / (meanTotals stave pos).2 : Nat) : Int)
        ((mn.2 + mx.2) / 2)) = _
    rw [if_neg (by rw [hch]; exact Bool.false_ne_true)]
    exact hunm

theorem c5_push_next_witness :
    maxByKeyLast (maxCands [c5A, c5B] 0) = Option.some (0, 100) ∧
    minByKeyFirst (minCands [c5A, c5B] 0) = Option.some (1, 30) ∧
    ((100 : Int) - 30 > 12) ∧
    canHavePhrase [c5D] ([c5A, c5B].getD 0 []) 12 = false ∧
    otherMax [c5A, c5B] 0 100 = Option.some 30 ∧
    otherMin [c5A, c5B] 0 30 = Option.some 100 ∧
    repairStep 1 3 12 0 (Option.some [c5D]) [c5A, c5B] (Option.some [c5C]) =
      Option.some (Option.some (Option.some [c5D], [c5A, c5B].eraseIdx 1,
        Option.some ([c5C] ++ [[c5A, c5B].getD 1 []]))) :=
  ⟨by decide, by decide, by decide, by decide, by decide, by decide,
   c5_push_next_unconditional 1 3 12 0 (Option.some [c5D]) [c5A, c5B] [c5C]
     (0, 100) (1, 30) 30 100 (by decide) (by decide) (by decide)
     (Or.inr ⟨[c5D], rfl, by decide⟩) (by decide) (by decide) (by decide)⟩

end OrchRed
